import Mathlib

/-!
# A shallow embedding of `include/vector.h`

The container of `vector.h` is modelled over an explicit heap.  A pointer is the
index of a region handed out by `allocate`; a region is a list of slots, each
slot being raw storage (`none`) or a constructed element (`some x`).  The four
allocator operations (`allocate`, `deallocate`, `construct`, `destroy`) act on
that heap.  Whether a given invocation of `construct` or `allocate` throws is
decided by an environment `Env`, indexed by the number of invocations made so
far, so that "the constructor throws on its k-th invocation" is expressible.  The
environment also says whether the element type is move constructible and what a
move leaves in its source.

A parameter of reference type is an `Arg`: a temporary, or an element of the heap
passed as an lvalue or as an rvalue.  The element is read when the constructor
runs, that is after `reserve` or `clear` have done their work, so that an argument
naming an element of the vector itself may be gone by then.

`size_t` is modelled by `Nat`.  A capacity counts the elements of a region that
`allocate` really returned, so on a 64-bit target it is below `2^63` and
`2 * capacity + 1` does not wrap.

A member function is a function from the state it runs in (`St`: the heap and
`*this`) to an `Outcome`: a normal return, an exception together with the state
it leaves behind, or undefined behaviour.  `Represents s xs` says that `s` is a
valid vector whose element sequence is `xs`; `Calm env w` says that no
construction and no allocation throws from `w` on.
-/

namespace Vec

/-! ## Exceptions and outcomes -/

/-- Thrown objects.  `catch (std::exception &)` sees the first three kinds only. -/
inductive Exn where
  | bad_alloc
  | out_of_range (what : String)
  | std_exception (what : String)
  | foreign (code : Nat)
deriving DecidableEq

/-- Whether the thrown object is derived from `std::exception`. -/
def Exn.is_std : Exn → Bool
  | .foreign _ => false
  | _ => true

/-- How a call ends: it returns `a` in state `s`, an exception leaves it in
state `s`, or it runs into undefined behaviour (a violated precondition). -/
inductive Outcome (σ : Type) (α : Type) where
  | ok (a : α) (s : σ)
  | throw (e : Exn) (s : σ)
  | ub
deriving DecidableEq

/-! ## The heap and the allocator capability -/

/-- One allocation: its slots and whether it has not been deallocated yet. -/
structure Region (T : Type) where
  cells : List (Option T)
  live : Bool
deriving DecidableEq

/-- The heap together with the number of `construct` and `allocate` calls made. -/
structure World (T : Type) where
  heap : List (Region T)
  ctor_calls : Nat
  alloc_calls : Nat
deriving DecidableEq

/-- What the container cannot know about the element type and the allocator:
which invocation of `construct` throws; which invocation of `allocate` throws, given
the number of elements asked for; whether `std::is_move_constructible_v<T>` holds;
and the value a move construction leaves in the object it moves from, by the number
of the invocation (it may leave it so and then throw). -/
structure Env (T : Type) where
  ctor_throws : Nat → Option Exn
  alloc_throws : Nat → Nat → Option Exn
  is_move_constructible : Bool
  moved_from : Nat → T → T

variable {T : Type}

/-- The environment in which nothing ever throws and a move leaves its source as it was. -/
def Env.quiet : Env T := ⟨fun _ => none, fun _ _ => none, true, fun _ x => x⟩

/-- Models `allocator_traits::allocate(meta_, count)`: a fresh region of `count` raw slots. -/
def allocate (env : Env T) (count : Nat) (w : World T) : Outcome (World T) Nat :=
  match env.alloc_throws w.alloc_calls count with
  | some e => .throw e { w with alloc_calls := w.alloc_calls + 1 }
  | none =>
    .ok w.heap.length
      { w with heap := w.heap ++ [⟨List.replicate count none, true⟩],
               alloc_calls := w.alloc_calls + 1 }

/-- Models `allocator_traits::deallocate(meta_, p, count)`.  With `std::allocator`,
`deallocate(nullptr, 0)` does nothing; any other mismatch is undefined. -/
def deallocate (p : Option Nat) (count : Nat) (w : World T) : Option (World T) :=
  match p with
  | none => if count = 0 then some w else none
  | some r =>
    match w.heap[r]? with
    | none => none
    | some reg =>
      if reg.live = true ∧ reg.cells.length = count then
        some { w with heap := w.heap.set r { reg with live := false } }
      else none

/-- Reading `p[i]`: the value of a constructed slot of a live region. -/
def read (p : Option Nat) (i : Nat) (w : World T) : Option T :=
  match p with
  | none => none
  | some r =>
    match w.heap[r]? with
    | none => none
    | some reg => if reg.live = true then (reg.cells[i]?).join else none

/-- Models `allocator_traits::construct(meta_, p + i, x)`: the slot must be raw storage
of a live region; the element constructor may throw, leaving the slot raw. -/
def construct (env : Env T) (p : Option Nat) (i : Nat) (x : T) (w : World T) :
    Outcome (World T) Unit :=
  match p with
  | none => .ub
  | some r =>
    match w.heap[r]? with
    | none => .ub
    | some reg =>
      if reg.live = true then
        match reg.cells[i]? with
        | some none =>
          match env.ctor_throws w.ctor_calls with
          | some e => .throw e { w with ctor_calls := w.ctor_calls + 1 }
          | none =>
            .ok () { w with heap := w.heap.set r { reg with cells := reg.cells.set i (some x) },
                            ctor_calls := w.ctor_calls + 1 }
        | _ => .ub
      else .ub

/-- Models `allocator_traits::destroy(meta_, p + i)`: the slot must hold an element. -/
def destroy (p : Option Nat) (i : Nat) (w : World T) : Option (World T) :=
  match p with
  | none => none
  | some r =>
    match w.heap[r]? with
    | none => none
    | some reg =>
      if reg.live = true then
        match reg.cells[i]? with
        | some (some _) =>
          some { w with heap := w.heap.set r { reg with cells := reg.cells.set i none } }
        | _ => none
      else none

/-- An argument bound to a reference parameter: a temporary holding `x`, which lives
outside the heap until the call is over, or the element in slot `i` of the region
`p`, passed as an lvalue (`v[0]`, `*first`) or as an rvalue (`std::move(v[0])`). -/
inductive Arg (T : Type) where
  | temp (x : T)
  | lvalue (p : Option Nat) (i : Nat)
  | rvalue (p : Option Nat) (i : Nat)
deriving DecidableEq

/-- The value of the object the reference names, at the moment it is read in the
heap `w`; there is none when the slot holds no element any more. -/
def Arg.read (w : World T) : Arg T → Option T
  | .temp x => some x
  | .lvalue p i => Vec.read p i w
  | .rvalue p i => Vec.read p i w

/-- The cast `std::move(a)`, also `std::forward<T>(value)` on a parameter `T &&value`:
the same object, as an rvalue. -/
def Arg.move : Arg T → Arg T
  | .lvalue p i => .rvalue p i
  | a => a

/-- The argument as the callee names it through a parameter `const T &value`: the
same object, as an lvalue. -/
def Arg.as_const : Arg T → Arg T
  | .rvalue p i => .lvalue p i
  | a => a

/-- Giving the element in slot `i` of the region `p` the value `y`. -/
def overwrite (p : Option Nat) (i : Nat) (y : T) (w : World T) : World T :=
  match p with
  | none => w
  | some r =>
    match w.heap[r]? with
    | none => w
    | some reg =>
      if reg.live = true then
        match reg.cells[i]? with
        | some (some _) =>
          { w with heap := w.heap.set r { reg with cells := reg.cells.set i (some y) } }
        | _ => w
      else w

/-- What construction number `k` does to the object it was given, which held `x`: an
element passed as an rvalue to a move constructible type is moved from; anything
else is copied and stays as it was. -/
def Arg.left (env : Env T) (k : Nat) (x : T) : Arg T → World T → World T
  | .rvalue p i, w =>
    if env.is_move_constructible = true then overwrite p i (env.moved_from k x) w else w
  | _, w => w

/-- Models `allocator_traits::construct(meta_, p + i, std::forward<A>(a))`: the object
the reference names is read now, the element is constructed from it, and an object
moved from is left in its moved-from state, also when the constructor throws. -/
def construct_forward (env : Env T) (p : Option Nat) (i : Nat) (a : Arg T) (w : World T) :
    Outcome (World T) Unit :=
  match a.read w with
  | none => .ub
  | some x =>
    match construct env p i x w with
    | .ub => .ub
    | .throw e w1 => .throw e (a.left env w.ctor_calls x w1)
    | .ok _ w1 => .ok () (a.left env w.ctor_calls x w1)

/-! ## The container -/

/-- The data members of `vector`: `meta_.capacity_`, `meta_.size_` and `data_`
(`none` is `nullptr`). -/
structure vector where
  capacity_ : Nat
  size_ : Nat
  data_ : Option Nat
deriving DecidableEq

/-- The state a member function runs in: the heap and the object `*this`. -/
structure St (T : Type) where
  world : World T
  self : vector
deriving DecidableEq

/-- The constructor `vector()`: no storage, capacity 0, size 0. -/
def vector.empty : vector := ⟨0, 0, none⟩

/-- The `try` loop of `reserve_impl`:
`while (i < size()) { construct(new_memory + i, std::move(data_[i])); destroy(data_ + i); ++i; }`,
where the `if constexpr` passes `data_[i]` itself when `T` is not move constructible.
A move constructor that throws leaves `data_[i]` in the state it had reached.
The loop state is the heap and the local `i`.  The recursion is on `fuel`, which
`reserve_impl` sets to `size()`: as `i` starts at 0 and grows by one per iteration,
the fuel runs out exactly when `i < size()` fails. -/
def relocate (env : Env T) (v : vector) (new_memory : Nat) :
    Nat → Nat → World T → Outcome (World T × Nat) Unit
  | 0, i, w => .ok () (w, i)
  | fuel + 1, i, w =>
    if i < v.size_ then
      match (if env.is_move_constructible = true then
               construct_forward env (some new_memory) i (.rvalue v.data_ i) w
             else construct_forward env (some new_memory) i (.lvalue v.data_ i) w) with
      | .ub => .ub
      | .throw e w1 => .throw e (w1, i)
      | .ok _ w1 =>
        match destroy v.data_ i w1 with
        | none => .ub
        | some w2 => relocate env v new_memory fuel (i + 1) w2
    else .ok () (w, i)

/-- The `catch` loop of `reserve_impl`:
`for (j = 0; j < i; ++j) { construct(data_ + j, new_memory[j]); destroy(new_memory + j); }`.
Both branches of its `if constexpr` pass the lvalue `new_memory[j]`, which is copied.
The recursion is on `fuel`, set to `i` by `reserve_impl`. -/
def rollback (env : Env T) (v : vector) (new_memory : Nat) (i : Nat) :
    Nat → Nat → World T → Outcome (World T) Unit
  | 0, _, w => .ok () w
  | fuel + 1, j, w =>
    if j < i then
      match read (some new_memory) j w with
      | none => .ub
      | some x =>
        match construct env v.data_ j x w with
        | .ub => .ub
        | .throw e w1 => .throw e w1
        | .ok _ w1 =>
          match destroy (some new_memory) j w1 with
          | none => .ub
          | some w2 => rollback env v new_memory i fuel (j + 1) w2
    else .ok () w

/-- The member `vector::reserve_impl(new_cap)`. -/
def reserve_impl (env : Env T) (new_cap : Nat) (s : St T) : Outcome (St T) Unit :=
  match allocate env new_cap s.world with
  | .ub => .ub
  | .throw e w => .throw e { s with world := w }
  | .ok new_memory w0 =>
    match relocate env s.self new_memory s.self.size_ 0 w0 with
    | .ub => .ub
    | .throw e (w1, i) =>
      if e.is_std = true then
        -- catch (std::exception &) { ...; throw; }
        match rollback env s.self new_memory i i 0 w1 with
        | .ub => .ub
        | .throw e2 w2 => .throw e2 { s with world := w2 }
        | .ok _ w2 => .throw e { s with world := w2 }
      else .throw e { s with world := w1 }
    | .ok _ (w1, _) =>
      match deallocate s.self.data_ s.self.capacity_ w1 with
      | none => .ub
      | some w2 =>
        .ok () ⟨w2, { s.self with data_ := some new_memory, capacity_ := new_cap }⟩

/-- The member `vector::reserve(new_cap)`. -/
def reserve (env : Env T) (new_cap : Nat) (s : St T) : Outcome (St T) Unit :=
  if new_cap ≤ s.self.capacity_ then .ok () s
  else reserve_impl env new_cap s

/-- The member `vector::back()`: the location `data_[size_ - 1]`, read. -/
def back (s : St T) : Option T :=
  if s.self.size_ = 0 then none else read s.self.data_ (s.self.size_ - 1) s.world

/-- The member `vector::emplace_back(args...)` with one argument `a`, forwarded to
the constructor after the storage has grown.  It returns `back()`, a reference,
modelled by the slot it names. -/
def emplace_back (env : Env T) (a : Arg T) (s : St T) : Outcome (St T) (Option Nat × Nat) :=
  match (if s.self.capacity_ = s.self.size_ then reserve env (2 * s.self.capacity_ + 1) s
         else .ok () s) with
  | .ub => .ub
  | .throw e s1 => .throw e s1
  | .ok _ s1 =>
    match construct_forward env s1.self.data_ s1.self.size_ a s1.world with
    | .ub => .ub
    | .throw e w => .throw e { s1 with world := w }
    | .ok _ w =>
      .ok (s1.self.data_, s1.self.size_ + 1 - 1) ⟨w, { s1.self with size_ := s1.self.size_ + 1 }⟩

/-- The member `vector::push_back(T &&value)`: the element is constructed from
`std::forward<T>(value)`, an rvalue, after the storage has grown. -/
def push_back (env : Env T) (value : Arg T) (s : St T) : Outcome (St T) Unit :=
  match (if s.self.capacity_ = s.self.size_ then reserve env (2 * s.self.capacity_ + 1) s
         else .ok () s) with
  | .ub => .ub
  | .throw e s1 => .throw e s1
  | .ok _ s1 =>
    match construct_forward env s1.self.data_ s1.self.size_ value.move s1.world with
    | .ub => .ub
    | .throw e w => .throw e { s1 with world := w }
    | .ok _ w => .ok () ⟨w, { s1.self with size_ := s1.self.size_ + 1 }⟩

/-- The member `vector::pop_back()`.  On an empty vector `data_ + size() - 1` lies before
the storage, which is undefined behaviour. -/
def pop_back (s : St T) : Outcome (St T) Unit :=
  if s.self.size_ = 0 then .ub
  else
    match destroy s.self.data_ (s.self.size_ - 1) s.world with
    | none => .ub
    | some w => .ok () ⟨w, { s.self with size_ := s.self.size_ - 1 }⟩

/-- The loop `while (size() > new_size) pop_back();` of `resize` (and of `clear`,
with `new_size = 0`).  The recursion is on `fuel`, set by the callers to
`size() - new_size`, the number of iterations the loop makes since every
`pop_back` that returns lowers `size()` by one. -/
def pop_while (new_size : Nat) : Nat → St T → Outcome (St T) Unit
  | 0, s => .ok () s
  | fuel + 1, s =>
    if s.self.size_ > new_size then
      match pop_back s with
      | .ok _ s1 => pop_while new_size fuel s1
      | o => o
    else .ok () s

/-- The loop `while (size() < new_size) emplace_back(x);` of `resize`.  The recursion
is on `fuel`, set by `resize` to `new_size - size()`, the number of iterations the
loop makes since every `emplace_back` that returns raises `size()` by one. -/
def emplace_while (env : Env T) (new_size : Nat) (x : Arg T) : Nat → St T → Outcome (St T) Unit
  | 0, s => .ok () s
  | fuel + 1, s =>
    if s.self.size_ < new_size then
      match emplace_back env x s with
      | .ub => .ub
      | .throw e s1 => .throw e s1
      | .ok _ s1 => emplace_while env new_size x fuel s1
    else .ok () s

/-- The member `vector::clear()`: `while (size() > 0) pop_back();`. -/
def clear (s : St T) : Outcome (St T) Unit :=
  pop_while 0 s.self.size_ s

/-- The member `vector::resize(new_size, const T &value)`: the parameter is read by
every `emplace_back(value)`, after the pops and after `reserve(new_size)`. -/
def resize_value (env : Env T) (new_size : Nat) (value : Arg T) (s : St T) :
    Outcome (St T) Unit :=
  match pop_while new_size (s.self.size_ - new_size) s with
  | .ok _ s1 =>
    if s1.self.size_ < new_size then
      match reserve env new_size s1 with
      | .ok _ s2 => emplace_while env new_size value.as_const (new_size - s2.self.size_) s2
      | o => o
    else .ok () s1
  | o => o

/-- The member `vector::resize(new_size)`: the new elements are built by `emplace_back()`,
that is value-initialised (`T()`), here from a temporary holding `default`. -/
def resize [Inhabited T] (env : Env T) (new_size : Nat) (s : St T) : Outcome (St T) Unit :=
  match pop_while new_size (s.self.size_ - new_size) s with
  | .ok _ s1 =>
    if s1.self.size_ < new_size then
      match reserve env new_size s1 with
      | .ok _ s2 => emplace_while env new_size (.temp default) (new_size - s2.self.size_) s2
      | o => o
    else .ok () s1
  | o => o

/-! ## Several vector objects -/

/-- The heap and the vector objects in scope, by address. -/
structure Store (T : Type) where
  world : World T
  objs : Nat → vector

/-- Calling a member function on the object at address `a`. -/
def Store.call {α : Type} (a : Nat) (m : St T → Outcome (St T) α) (st : Store T) :
    Outcome (Store T) α :=
  match m ⟨st.world, st.objs a⟩ with
  | .ub => .ub
  | .throw e s => .throw e ⟨s.world, Function.update st.objs a s.self⟩
  | .ok r s => .ok r ⟨s.world, Function.update st.objs a s.self⟩

/-- The member `vector::swap(other)`: `std::swap(meta_, other.meta_); std::swap(data_, other.data_);`. -/
def swap (this other : Nat) (st : Store T) : Store T :=
  { st with objs := Function.update (Function.update st.objs this (st.objs other))
                      other (st.objs this) }

/-- The constructor `vector::vector(vector &&other)`: the object at `this` is built from the
one at `other`, which is left with `nullptr`, capacity 0 and size 0. -/
def move_construct (this other : Nat) (st : Store T) : Store T :=
  let o := st.objs other
  -- meta_(std::move(other.meta_)), data_(other.data_)
  let objs1 := Function.update st.objs this ⟨o.capacity_, o.size_, o.data_⟩
  -- other.data_ = nullptr; other.meta_.capacity_ = 0; other.meta_.size_ = 0;
  { st with objs := Function.update objs1 other ⟨0, 0, none⟩ }

/-- The member `vector::operator=(vector &&other)`: `if (this != &other) { swap(other); other.clear(); }`. -/
def move_assign (this other : Nat) (st : Store T) : Outcome (Store T) Unit :=
  if this ≠ other then Store.call other clear (swap this other st)
  else .ok () st

/-! ## Observations and the representation invariant -/

/-- The element sequence as the accessors see it: `data_[0], ..., data_[size_ - 1]`. -/
def elements (s : St T) : List (Option T) :=
  (List.range s.self.size_).map fun i => read s.self.data_ i s.world

/-- The state `s` is a valid vector holding exactly `xs`: `size_ = |xs|`,
`size_ ≤ capacity_`, and either there is no storage and `capacity_ = 0`, or
`data_` is a live region of `capacity_` slots whose first `size_` hold `xs` and
whose others are raw. -/
def Represents (s : St T) (xs : List T) : Prop :=
  s.self.size_ = xs.length ∧ s.self.size_ ≤ s.self.capacity_ ∧
  match s.self.data_ with
  | none => s.self.capacity_ = 0
  | some r =>
    ∃ reg, s.world.heap[r]? = some reg ∧ reg.live = true ∧
      reg.cells = xs.map some ++ List.replicate (s.self.capacity_ - xs.length) none

/-- No `construct` and no `allocate` throws from the state `w` on. -/
def Calm (env : Env T) (w : World T) : Prop :=
  (∀ j, w.ctor_calls ≤ j → env.ctor_throws j = none) ∧
  (∀ j, w.alloc_calls ≤ j → ∀ count, env.alloc_throws j count = none)

/-- The loop of `operator==`:
`for (i = 0; i < size(); ++i) if (data_[i] != other[i]) return false;`. -/
def operator_eq_loop [DecidableEq T] (w : World T) (a b : vector) : Nat → Nat → Option Bool
  | 0, _ => some true
  | fuel + 1, i =>
    if i < a.size_ then
      match read a.data_ i w, read b.data_ i w with
      | some x, some y => if x ≠ y then some false else operator_eq_loop w a b fuel (i + 1)
      | _, _ => none
    else some true

/-- The member `vector::operator==(other)`; `none` stands for a read of a slot that holds no element. -/
def operator_eq [DecidableEq T] (w : World T) (a b : vector) : Option Bool :=
  if a.size_ ≠ b.size_ then some false else operator_eq_loop w a b a.size_ 0

/-! ## Checked access, shrinking, ordering -/

/-- The member `vector::at(i)`:
`if (i >= size()) throw std::out_of_range("vector out of range"); return data_[i];`.
The reference returned is modelled by the slot it names. -/
def vector_at (i : Nat) (s : St T) : Outcome (St T) (Option Nat × Nat) :=
  if i ≥ s.self.size_ then .throw (.out_of_range "vector out of range") s
  else .ok (s.self.data_, i) s

/-- The member `vector::shrink_to_fit()`: `if (size() < capacity()) reserve_impl(size());`. -/
def shrink_to_fit (env : Env T) (s : St T) : Outcome (St T) Unit :=
  if s.self.size_ < s.self.capacity_ then reserve_impl env s.self.size_ s else .ok () s

/-- The loop of `operator<=>` together with the final `return size() <=> other.size();`:
`for (i = 0; i < size() && i < other.size(); ++i)`
`  if (cmp = (*this)[i] <=> other[i]; cmp != equal) return cmp;`.
The values of `std::strong_ordering` are `Ordering.lt`, `.eq`, `.gt`; the fuel is
set to `min(size(), other.size())` by `operator_cmp`. -/
def operator_cmp_loop [Ord T] (w : World T) (a b : vector) : Nat → Nat → Option Ordering
  | 0, _ => some (compare a.size_ b.size_)
  | fuel + 1, i =>
    if i < a.size_ ∧ i < b.size_ then
      match read a.data_ i w, read b.data_ i w with
      | some x, some y =>
        if compare x y ≠ .eq then some (compare x y) else operator_cmp_loop w a b fuel (i + 1)
      | _, _ => none
    else some (compare a.size_ b.size_)

/-- The member `vector::operator<=>(other)`; `none` stands for a read of a slot that
holds no element. -/
def operator_cmp [Ord T] (w : World T) (a b : vector) : Option Ordering :=
  operator_cmp_loop w a b (min a.size_ b.size_) 0

/-- The destructor `vector::~vector()`:
`clear(); if (meta_.capacity_ > 0) deallocate(meta_, data_, meta_.capacity_);`. -/
def destruct (s : St T) : Outcome (World T) Unit :=
  match clear s with
  | .ub => .ub
  | .throw e s1 => .throw e s1.world
  | .ok _ s1 =>
    if s1.self.capacity_ > 0 then
      match deallocate s1.self.data_ s1.self.capacity_ s1.world with
      | none => .ub
      | some w => .ok () w
    else .ok () s1.world

/-! ## Iterators -/

/-- An address `T *`: a region (`none` for `nullptr`) and an offset counted in
elements, which may lie outside the region (`data_ - 1`, `data_ + size()`).
`ptrdiff_t` is modelled by `Int`. -/
structure Ptr where
  base : Option Nat
  off : Int
deriving DecidableEq

/-- The pointer difference `p - q`, defined for two addresses of one region. -/
def Ptr.diff (p q : Ptr) : Option Int :=
  if p.base = q.base then some (p.off - q.off) else none

/-- The class `vector_iterator<T, reverse>`: its data member `ptr_`.  The template
parameter `reverse` is an argument of the operations below. -/
structure vector_iterator where
  ptr_ : Ptr
deriving DecidableEq

/-- The static member `vector_iterator::ptr_add(ptr, offset)`:
`if constexpr (reverse) return ptr - offset; else return ptr + offset;`. -/
def vector_iterator.ptr_add (reverse : Bool) (ptr : Ptr) (offset : Int) : Ptr :=
  if reverse = true then ⟨ptr.base, ptr.off - offset⟩ else ⟨ptr.base, ptr.off + offset⟩

/-- The member `operator-(const vector_iterator &other)`:
`if constexpr (reverse) return other.ptr_ - ptr_; else return ptr_ - other.ptr_;`. -/
def vector_iterator.operator_diff (reverse : Bool) (self other : vector_iterator) :
    Option Int :=
  if reverse = true then Ptr.diff other.ptr_ self.ptr_ else Ptr.diff self.ptr_ other.ptr_

/-- The member `operator+=(offset)`: `ptr_ = ptr_add(ptr_, offset);`, giving the
iterator after the assignment. -/
def vector_iterator.operator_add_assign (reverse : Bool) (self : vector_iterator)
    (offset : Int) : vector_iterator :=
  ⟨vector_iterator.ptr_add reverse self.ptr_ offset⟩

/-- The member `operator-=(offset)`: `ptr_ = ptr_add(ptr_, -offset);`. -/
def vector_iterator.operator_sub_assign (reverse : Bool) (self : vector_iterator)
    (offset : Int) : vector_iterator :=
  ⟨vector_iterator.ptr_add reverse self.ptr_ (-offset)⟩

/-- The member `operator+(offset)`: `return {ptr_add(ptr_, offset)};`. -/
def vector_iterator.operator_plus (reverse : Bool) (self : vector_iterator)
    (offset : Int) : vector_iterator :=
  ⟨vector_iterator.ptr_add reverse self.ptr_ offset⟩

/-- The member `operator-(offset)`: `return {ptr_add(ptr_, -offset)};`. -/
def vector_iterator.operator_minus (reverse : Bool) (self : vector_iterator)
    (offset : Int) : vector_iterator :=
  ⟨vector_iterator.ptr_add reverse self.ptr_ (-offset)⟩

/-- The member `operator++()`: `ptr_ = ptr_add(ptr_, 1);`. -/
def vector_iterator.operator_inc (reverse : Bool) (self : vector_iterator) : vector_iterator :=
  ⟨vector_iterator.ptr_add reverse self.ptr_ 1⟩

/-- The member `operator++(int)`: the value returned (the old iterator) and the
iterator after the call. -/
def vector_iterator.operator_post_inc (reverse : Bool) (self : vector_iterator) :
    vector_iterator × vector_iterator :=
  (⟨self.ptr_⟩, ⟨vector_iterator.ptr_add reverse self.ptr_ 1⟩)

/-- The member `operator--()`: `ptr_ = ptr_add(ptr_, -1);`. -/
def vector_iterator.operator_dec (reverse : Bool) (self : vector_iterator) : vector_iterator :=
  ⟨vector_iterator.ptr_add reverse self.ptr_ (-1)⟩

/-- The member `operator--(int)`: the value returned (the old iterator) and the
iterator after the call. -/
def vector_iterator.operator_post_dec (reverse : Bool) (self : vector_iterator) :
    vector_iterator × vector_iterator :=
  (⟨self.ptr_⟩, ⟨vector_iterator.ptr_add reverse self.ptr_ (-1)⟩)

/-- The member `operator*()`: `return *ptr_;`, read at once: the element the address
holds in the heap `w`, if any. -/
def vector_iterator.operator_deref (self : vector_iterator) (w : World T) : Option T :=
  if self.ptr_.off < 0 then none else read self.ptr_.base self.ptr_.off.toNat w

/-- The member `operator*()` as the reference it returns, `*ptr_`: the slot the address
names, an lvalue.  An address before its region names no slot. -/
def vector_iterator.operator_star (self : vector_iterator) : Option (Arg T) :=
  if self.ptr_.off < 0 then none else some (.lvalue self.ptr_.base self.ptr_.off.toNat)

/-- The member `operator==(other)`: `ptr_ == other.ptr_`. -/
def vector_iterator.operator_eq (self other : vector_iterator) : Bool :=
  decide (self.ptr_ = other.ptr_)

/-- The member `vector::begin()`: `{data_}`. -/
def vector.begin (v : vector) : vector_iterator := ⟨⟨v.data_, 0⟩⟩

/-- The member `vector::end()`: `{data_ + size()}`. -/
def vector.end_ (v : vector) : vector_iterator := ⟨⟨v.data_, (v.size_ : Int)⟩⟩

/-- The member `vector::rbegin()`: `{data_ + size() - 1}`. -/
def vector.rbegin (v : vector) : vector_iterator := ⟨⟨v.data_, (v.size_ : Int) - 1⟩⟩

/-- The member `vector::rend()`: `{data_ - 1}`. -/
def vector.rend (v : vector) : vector_iterator := ⟨⟨v.data_, -1⟩⟩

/-- The static member `vector::distance(a, b)` on the iterators of the container:
`return b - a;`. -/
def distance (reverse : Bool) (a b : vector_iterator) : Option Int :=
  vector_iterator.operator_diff reverse b a

/-! ## Construction and assignment from values and ranges -/

/-- The loop `for (; first != last; ++first) emplace_back(*first);` of the range
constructor and of `assign(first, last)`, also the range-based `for` of the copy
assignment.  The reference `*first` is handed to `emplace_back`, which reads it
after the storage has grown.  The recursion is on `fuel`, set by the callers to the
distance from `first` to `last`; running out of it before `first == last` means the
range was not a valid one. -/
def append_range (env : Env T) (reverse : Bool) (last : vector_iterator) :
    Nat → vector_iterator → St T → Outcome (St T) Unit
  | 0, first, s => if first.operator_eq last = true then .ok () s else .ub
  | fuel + 1, first, s =>
    if first.operator_eq last = true then .ok () s
    else
      match first.operator_star with
      | none => .ub
      | some a =>
        match emplace_back env a s with
        | .ub => .ub
        | .throw e s1 => .throw e s1
        | .ok _ s1 => append_range env reverse last fuel (first.operator_inc reverse) s1

/-- The loop `for (size_t i = 0; i < count; ++i) emplace_back(value);` of
`assign(count, value)`. -/
def emplace_times (env : Env T) (value : Arg T) : Nat → St T → Outcome (St T) Unit
  | 0, s => .ok () s
  | count + 1, s =>
    match emplace_back env value s with
    | .ub => .ub
    | .throw e s1 => .throw e s1
    | .ok _ s1 => emplace_times env value count s1

/-- The loop `for (const auto &elem : init) emplace_back(elem);` over the values
of a `std::initializer_list`, whose array lives outside the heap. -/
def emplace_list (env : Env T) : List T → St T → Outcome (St T) Unit
  | [], s => .ok () s
  | x :: xs, s =>
    match emplace_back env (.temp x) s with
    | .ub => .ub
    | .throw e s1 => .throw e s1
    | .ok _ s1 => emplace_list env xs s1

/-- The member `vector::assign(count, const T &value)`: `clear(); reserve(count);` and
the loop, in which every `emplace_back(value)` reads the parameter. -/
def assign_count (env : Env T) (count : Nat) (value : Arg T) (s : St T) :
    Outcome (St T) Unit :=
  match clear s with
  | .ok _ s1 =>
    match reserve env count s1 with
    | .ok _ s2 => emplace_times env value.as_const count s2
    | o => o
  | o => o

/-- The conversion of a `ptrdiff_t` to `size_t` on a 64-bit target: a negative
distance becomes `d + 2^64`. -/
def size_t_of_ptrdiff (d : Int) : Nat :=
  if d < 0 then (d + 2 ^ 64).toNat else d.toNat

/-- The body shared by the range constructor and `assign(first, last)`:
`reserve(distance(first, last)); for (; first != last; ++first) emplace_back(*first);`.
The distance of two addresses of different regions is undefined; a negative one (a
`last` before `first`) reaches `reserve` as a huge `size_t`. -/
def reserve_and_append (env : Env T) (reverse : Bool) (first last : vector_iterator)
    (s : St T) : Outcome (St T) Unit :=
  match distance reverse first last with
  | none => .ub
  | some d =>
    match reserve env (size_t_of_ptrdiff d) s with
    | .ok _ s1 => append_range env reverse last (size_t_of_ptrdiff d) first s1
    | o => o

/-- The member `vector::assign(first, last)` on iterators of the container:
`clear();` and the body above. -/
def assign_range (env : Env T) (reverse : Bool) (first last : vector_iterator) (s : St T) :
    Outcome (St T) Unit :=
  match clear s with
  | .ok _ s1 => reserve_and_append env reverse first last s1
  | o => o

/-- The constructor `vector(count, value, alloc)`: `vector(alloc)` and `resize(count, value)`. -/
def construct_count_value (env : Env T) (count : Nat) (value : Arg T) (w : World T) :
    Outcome (St T) Unit :=
  resize_value env count value ⟨w, vector.empty⟩

/-- The constructor `vector(count, alloc)`: `vector(alloc)` and `resize(count)`. -/
def construct_count [Inhabited T] (env : Env T) (count : Nat) (w : World T) :
    Outcome (St T) Unit :=
  resize env count ⟨w, vector.empty⟩

/-- The constructor `vector(first, last, alloc)` on iterators of the container:
`vector(alloc)` and the body above. -/
def construct_range (env : Env T) (reverse : Bool) (first last : vector_iterator)
    (w : World T) : Outcome (St T) Unit :=
  reserve_and_append env reverse first last ⟨w, vector.empty⟩

/-- The constructor `vector(std::initializer_list<T> init, alloc)`: the range
constructor on the values of `init`, whose distance is `init.size()`. -/
def construct_init_list (env : Env T) (init : List T) (w : World T) : Outcome (St T) Unit :=
  match reserve env init.length ⟨w, vector.empty⟩ with
  | .ok _ s1 => emplace_list env init s1
  | o => o

/-- The constructor `vector(const vector &other)`, building the object at `this`:
`vector(other.begin(), other.end(), other.get_allocator())`.  When the body throws,
the delegated-to constructor has completed, so the destructor runs. -/
def copy_construct (env : Env T) (this other : Nat) (st : Store T) : Outcome (Store T) Unit :=
  match construct_range env false (st.objs other).begin (st.objs other).end_ st.world with
  | .ub => .ub
  | .throw e s =>
    match destruct s with
    | .ok _ w => .throw e ⟨w, st.objs⟩
    | .throw e1 w => .throw e1 ⟨w, st.objs⟩
    | .ub => .ub
  | .ok _ s => .ok () ⟨s.world, Function.update st.objs this s.self⟩

/-- The member `vector::operator=(const vector &other)`:
`if (this != &other) { clear(); reserve(other.capacity());`
`  for (const auto &elem : other) emplace_back(elem); }`. -/
def copy_assign (env : Env T) (this other : Nat) (st : Store T) : Outcome (Store T) Unit :=
  if this ≠ other then
    Store.call this (fun s =>
      match clear s with
      | .ok _ s1 =>
        match reserve env (st.objs other).capacity_ s1 with
        | .ok _ s2 =>
          append_range env false (st.objs other).end_ (st.objs other).size_
            (st.objs other).begin s2
        | o => o
      | o => o) st
  else .ok () st

/-- A call of a member function that changes one vector; the values named are passed
in temporaries. -/
inductive Mutation (T : Type) where
  | reserve (n : Nat)
  | push_back (x : T)
  | emplace_back (x : T)
  | pop_back
  | clear
  | resize (n : Nat)
  | resize_value (n : Nat) (value : T)
  | assign_count (count : Nat) (value : T)
  | assign_range (reverse : Bool) (first last : vector_iterator)
  | shrink_to_fit

/-- Performing one such call. -/
def Mutation.run [Inhabited T] (env : Env T) : Mutation T → St T → Outcome (St T) Unit
  | .reserve n, s => Vec.reserve env n s
  | .push_back x, s => Vec.push_back env (.temp x) s
  | .emplace_back x, s =>
    match Vec.emplace_back env (.temp x) s with
    | .ub => .ub
    | .throw e s1 => .throw e s1
    | .ok _ s1 => .ok () s1
  | .pop_back, s => Vec.pop_back s
  | .clear, s => Vec.clear s
  | .resize n, s => Vec.resize env n s
  | .resize_value n value, s => Vec.resize_value env n (.temp value) s
  | .assign_count count value, s => Vec.assign_count env count (.temp value) s
  | .assign_range reverse first last, s => Vec.assign_range env reverse first last s
  | .shrink_to_fit, s => Vec.shrink_to_fit env s

/-- Performing such calls in order, up to the first that does not return. -/
def run_mutations [Inhabited T] (env : Env T) : List (Mutation T) → St T → Outcome (St T) Unit
  | [], s => .ok () s
  | m :: ms, s =>
    match m.run env s with
    | .ok _ s1 => run_mutations env ms s1
    | o => o

/-! ## Sequences of calls -/

/-- A call made on the vector in a usage scenario; the values named are passed in
temporaries. -/
inductive Op (T : Type) where
  | push_back (x : T)
  | emplace_back (x : T)
  | pop_back

/-- Whether the call is an insertion at the end. -/
def Op.inserts : Op T → Bool
  | .pop_back => false
  | _ => true

/-- Performing one call. -/
def Op.run (env : Env T) : Op T → St T → Outcome (St T) Unit
  | .push_back x, s => Vec.push_back env (.temp x) s
  | .emplace_back x, s =>
    match Vec.emplace_back env (.temp x) s with
    | .ub => .ub
    | .throw e s1 => .throw e s1
    | .ok _ s1 => .ok () s1
  | .pop_back, s => Vec.pop_back s

/-- Performing the calls in order; the value returned is the list of the states
reached after each call. -/
def run_ops (env : Env T) : List (Op T) → St T → Outcome (St T) (List (St T))
  | [], s => .ok [] s
  | op :: ops, s =>
    match op.run env s with
    | .ub => .ub
    | .throw e s1 => .throw e s1
    | .ok _ s1 =>
      match run_ops env ops s1 with
      | .ub => .ub
      | .throw e s2 => .throw e s2
      | .ok trace s2 => .ok (s1 :: trace) s2

/-- Between `s` and `s1` no region was touched but the storage of the vector: what
was allocated stays, the other regions are unchanged, and the storage of `s1` is
that of `s` or a region allocated since. -/
def Frame (s s1 : St T) : Prop :=
  s.world.heap.length ≤ s1.world.heap.length ∧
  (∀ r, some r ≠ s.self.data_ → r < s.world.heap.length →
    s1.world.heap[r]? = s.world.heap[r]?) ∧
  (s1.self.data_ = s.self.data_ ∨ ∃ q, s1.self.data_ = some q ∧ s.world.heap.length ≤ q)

/-- The position of an iterator in traversal order, the notion the claim on
iterators is stated with: the number of steps from the first element visited, that
is the offset for a forward iterator and `size() - 1 - offset` for a reverse one. -/
def position (reverse : Bool) (v : vector) (it : vector_iterator) : Int :=
  if reverse = true then (v.size_ : Int) - 1 - it.ptr_.off else it.ptr_.off

/-- The iterators `first`, `last` of direction `reverse` bound a valid range holding
`zs` in the heap `w`: `last` is `|zs|` steps after `first`, and the iterator `k`
steps after `first` addresses an element equal to `zs[k]`. -/
def RangeHolds (w : World T) (reverse : Bool) (first last : vector_iterator)
    (zs : List T) : Prop :=
  last = first.operator_plus reverse zs.length ∧
  ∀ k, k < zs.length → (first.operator_plus reverse k).operator_deref w = zs[k]?

/-- The region the iterator `first` points into, if any, existed in the state `s`
and is not the storage of the vector of `s`. -/
def Outside (first : vector_iterator) (s : St T) : Prop :=
  ∀ r, first.ptr_.base = some r → some r ≠ s.self.data_ ∧ r < s.world.heap.length

/-- What a call asks of the state it is made in: `pop_back` a non-empty vector,
`assign(first, last)` a valid range outside the vector itself. -/
def Mutation.pre : Mutation T → St T → Prop
  | .pop_back, s => 0 < s.self.size_
  | .assign_range reverse first last, s =>
    ∃ zs, RangeHolds s.world reverse first last zs ∧ Outside first s
  | _, _ => True

/-- In the store `st` the object at `this` is a valid vector, the object at `other`
is a valid vector holding `ys`, and the two do not share storage. -/
def Independent (st : Store T) (this other : Nat) (ys : List T) : Prop :=
  (∃ xs, Represents ⟨st.world, st.objs this⟩ xs) ∧
  Represents ⟨st.world, st.objs other⟩ ys ∧
  ∀ p, (st.objs this).data_ = some p → (st.objs other).data_ ≠ some p

/-- The argument names an element of the storage of the vector `v`. -/
def Arg.inside (v : vector) : Arg T → Prop
  | .temp _ => False
  | .lvalue p _ => p = v.data_
  | .rvalue p _ => p = v.data_

/-- The argument is copied from, not moved from: a temporary or an lvalue. -/
def Arg.copied : Arg T → Prop
  | .rvalue _ _ => False
  | _ => True

/-- The invariant `0 <= size <= capacity` on the data members of a vector. -/
def size_invariant (v : vector) : Prop :=
  0 ≤ v.size_ ∧ v.size_ ≤ v.capacity_

/-- The outcome satisfies `ok` on the state of a normal return and `thrown` on the
state an exception leaves behind; nothing is asked of undefined behaviour. -/
def Outcome.sat {σ α : Type} (ok thrown : σ → Prop) : Outcome σ α → Prop
  | .ok _ s => ok s
  | .throw _ s => thrown s
  | .ub => True

/-- The state has `size <= capacity`. -/
def St.bounded (s : St T) : Prop :=
  s.self.size_ ≤ s.self.capacity_

/-- Every vector object of the store has `0 <= size <= capacity`. -/
def Store.invariant (st : Store T) : Prop :=
  ∀ a, size_invariant (st.objs a)

/-- Between the heaps of `w` and `w1` no region was added, and only the regions `a`
and `q` may differ. -/
def OnlyAt (a : Option Nat) (q : Nat) (w w1 : World T) : Prop :=
  w1.heap.length = w.heap.length ∧
  ∀ r, some r ≠ a → r ≠ q → w1.heap[r]? = w.heap[r]?

/-! ## Auxiliary descriptions of heaps, used in the proofs -/

/-- The slots of a region of `m` slots in which slot `k` holds `xs[k]` if `P k`
(and `k < |xs|`), and is raw otherwise. -/
def cellsOf (m : Nat) (P : Nat → Bool) (xs : List T) : List (Option T) :=
  (List.range m).map fun k => if P k = true then xs[k]? else none

/-- The sequence `xs` after construction number `c` was given its element `i` to move
from. -/
def moved_at (env : Env T) (c : Nat) (xs : List T) (i : Nat) : List T :=
  if env.is_move_constructible = true then
    match xs[i]? with
    | some x => xs.set i (env.moved_from c x)
    | none => xs
  else xs

/-- The heap `h` with the live regions `p` and `q` given the slots `a` and `b`. -/
def upd2 (h : List (Region T)) (p : Nat) (a : List (Option T)) (q : Nat)
    (b : List (Option T)) : List (Region T) :=
  (h.set p ⟨a, true⟩).set q ⟨b, true⟩

/-- The old region after the first `i` elements were moved out of it. -/
def oldAt (cap : Nat) (xs : List T) (i : Nat) : List (Option T) :=
  cellsOf cap (fun k => decide (i ≤ k)) xs

/-- The new region after the first `i` elements were moved into it. -/
def newAt (n : Nat) (xs : List T) (i : Nat) : List (Option T) :=
  cellsOf n (fun k => decide (k < i)) xs

/-- The old region during the rollback of `i` relocated elements, `j` of them restored. -/
def rbOld (cap : Nat) (xs : List T) (i j : Nat) : List (Option T) :=
  cellsOf cap (fun k => decide (k < j) || decide (i ≤ k)) xs

/-- The new region during the rollback of `i` relocated elements, `j` of them destroyed. -/
def rbNew (n : Nat) (xs : List T) (i j : Nat) : List (Option T) :=
  cellsOf n (fun k => decide (j ≤ k) && decide (k < i)) xs

/-! ## Concrete states used as examples -/

/-- A heap with one live region holding `10, 20`, after two constructions and one allocation. -/
def world_two : World Nat := ⟨[⟨[some 10, some 20], true⟩], 2, 1⟩

/-- The vector `{10, 20}` with capacity 2. -/
def vec_two : St Nat := ⟨world_two, ⟨2, 2, some 0⟩⟩

/-- Constructions number `a` and `b` (counted from 0) throw `e`; nothing else throws. -/
def env_throwing (a b : Nat) (e : Exn) : Env Nat :=
  ⟨fun j => if j = a ∨ j = b then some e else none, fun _ _ => none, true, fun _ x => x⟩

/-- Construction number `a` throws `e` after it has moved from its source, which it
leaves holding `0`; nothing else throws. -/
def env_moving (a : Nat) (e : Exn) : Env Nat :=
  ⟨fun j => if j = a then some e else none, fun _ _ => none, true, fun _ _ => 0⟩

/-- Nothing throws, and a move leaves its source holding `0`. -/
def env_emptying : Env Nat := ⟨fun _ => none, fun _ _ => none, true, fun _ _ => 0⟩

/-- A heap with two live regions, holding `1` and `2, 3` (one slot left raw). -/
def world_pair : World Nat :=
  ⟨[⟨[some 1], true⟩, ⟨[some 2, some 3, none], true⟩], 3, 2⟩

/-- Two vectors: `{1}` (capacity 1) at address 0 and `{2, 3}` (capacity 3) at address 1. -/
def store_pair : Store Nat :=
  ⟨world_pair, fun a => if a = 0 then ⟨1, 1, some 0⟩ else if a = 1 then ⟨3, 2, some 1⟩
    else vector.empty⟩

/-- The vector `{1}` of `store_pair`, at address 0, as the object a call runs on. -/
def vec_first : St Nat := ⟨store_pair.world, store_pair.objs 0⟩

/-- Nothing throws but a request to `allocate` for `2^63` elements or more, which
no allocator can serve. -/
def env_bounded : Env Nat :=
  ⟨fun _ => none, fun _ n => if 2 ^ 63 ≤ n then some .bad_alloc else none, true, fun _ x => x⟩

/-- The vector `{10, 20}` with capacity 4, two slots raw. -/
def vec_slack : St Nat := ⟨⟨[⟨[some 10, some 20, none, none], true⟩], 2, 1⟩, ⟨4, 2, some 0⟩⟩

/-- A heap with three live regions holding `1, 2, 3`, then `1, 2, 4`, then `1, 2`. -/
def world_cmp : World Nat :=
  ⟨[⟨[some 1, some 2, some 3], true⟩, ⟨[some 1, some 2, some 4], true⟩,
    ⟨[some 1, some 2], true⟩], 8, 3⟩

/-! ## Lemmas on slots and heaps -/

theorem cellsOf_length (m : Nat) (P : Nat → Bool) (xs : List T) :
    (cellsOf m P xs).length = m := by
  simp [cellsOf]

theorem cellsOf_get (m : Nat) (P : Nat → Bool) (xs : List T) (i : Nat) :
    (cellsOf m P xs)[i]? =
      if i < m then some (if P i = true then xs[i]? else none) else none := by
  unfold cellsOf
  rw [List.getElem?_map]
  by_cases h : i < m
  · rw [List.getElem?_range h]; simp [h]
  · rw [List.getElem?_eq_none (by simpa using h)]; simp [h]

theorem cellsOf_congr (m : Nat) (P Q : Nat → Bool) (xs : List T)
    (h : ∀ k, k < m → k < xs.length → P k = Q k) : cellsOf m P xs = cellsOf m Q xs := by
  apply List.ext_getElem?
  intro i
  rw [cellsOf_get, cellsOf_get]
  by_cases hi : i < m
  · by_cases hx : i < xs.length
    · rw [h i hi hx]
    · have : xs[i]? = none := List.getElem?_eq_none (by omega)
      simp [this]
  · simp [hi]

theorem cellsOf_true (m : Nat) (xs : List T) (h : xs.length ≤ m) :
    cellsOf m (fun _ => true) xs = xs.map some ++ List.replicate (m - xs.length) none := by
  apply List.ext_getElem?
  intro i
  rw [cellsOf_get, List.getElem?_append, List.getElem?_map, List.getElem?_replicate]
  simp only [List.length_map]
  by_cases hx : i < xs.length
  · have hm : i < m := by omega
    simp [hx, hm, List.getElem?_eq_getElem hx]
  · have hn : xs[i]? = none := List.getElem?_eq_none (by omega)
    by_cases hm : i < m
    · have : i - xs.length < m - xs.length := by omega
      simp [hx, hm, hn, this]
    · have : ¬ i - xs.length < m - xs.length := by omega
      simp [hx, hm, this]

theorem cellsOf_false (m : Nat) (xs : List T) :
    cellsOf m (fun _ => false) xs = List.replicate m none := by
  apply List.ext_getElem?
  intro i
  rw [cellsOf_get, List.getElem?_replicate]
  simp

theorem cellsOf_set_some (m : Nat) (P : Nat → Bool) (xs : List T) (i : Nat) (x : T)
    (hx : xs[i]? = some x) :
    (cellsOf m P xs).set i (some x) = cellsOf m (fun k => decide (k = i) || P k) xs := by
  apply List.ext_getElem?
  intro j
  rw [List.getElem?_set, cellsOf_get, cellsOf_get, cellsOf_length]
  by_cases hij : i = j
  · subst hij
    by_cases hm : i < m <;> simp [hm, hx]
  · have hji : ¬ j = i := fun h => hij h.symm
    simp [hij, hji]

theorem cellsOf_set_none (m : Nat) (P : Nat → Bool) (xs : List T) (i : Nat) :
    (cellsOf m P xs).set i none = cellsOf m (fun k => !decide (k = i) && P k) xs := by
  apply List.ext_getElem?
  intro j
  rw [List.getElem?_set, cellsOf_get, cellsOf_get, cellsOf_length]
  by_cases hij : i = j
  · subst hij
    by_cases hm : i < m <;> simp [hm]
  · have hji : ¬ j = i := fun h => hij h.symm
    simp [hij, hji]

theorem upd2_length (h : List (Region T)) (p q : Nat) (a b : List (Option T)) :
    (upd2 h p a q b).length = h.length := by
  simp [upd2]

theorem upd2_get_left (h : List (Region T)) (p q : Nat) (a b : List (Option T))
    (hp : p < h.length) (hpq : p ≠ q) : (upd2 h p a q b)[p]? = some ⟨a, true⟩ := by
  unfold upd2
  rw [List.getElem?_set_ne (Ne.symm hpq), List.getElem?_set_self hp]

theorem upd2_get_right (h : List (Region T)) (p q : Nat) (a b : List (Option T))
    (hq : q < h.length) : (upd2 h p a q b)[q]? = some ⟨b, true⟩ := by
  unfold upd2
  rw [List.getElem?_set_self (by simpa using hq)]

theorem upd2_get_other (h : List (Region T)) (p q r : Nat) (a b : List (Option T))
    (hp : r ≠ p) (hq : r ≠ q) : (upd2 h p a q b)[r]? = h[r]? := by
  unfold upd2
  rw [List.getElem?_set_ne (Ne.symm hq), List.getElem?_set_ne (Ne.symm hp)]

theorem upd2_set_left (h : List (Region T)) (p q : Nat) (a b c : List (Option T))
    (hpq : p ≠ q) : (upd2 h p a q b).set p ⟨c, true⟩ = upd2 h p c q b := by
  unfold upd2
  rw [List.set_comm _ _ _ (Ne.symm hpq), List.set_set, List.set_comm _ _ _ hpq]

theorem upd2_set_right (h : List (Region T)) (p q : Nat) (a b c : List (Option T)) :
    (upd2 h p a q b).set q ⟨c, true⟩ = upd2 h p a q c := by
  unfold upd2
  rw [List.set_set]

/-! ## The allocator operations on a known region -/

theorem read_live (w : World T) (r i : Nat) (cs : List (Option T))
    (h : w.heap[r]? = some ⟨cs, true⟩) : read (some r) i w = (cs[i]?).join := by
  simp [read, h]

theorem construct_ok (env : Env T) (w : World T) (r i : Nat) (x : T) (cs : List (Option T))
    (h : w.heap[r]? = some ⟨cs, true⟩) (hc : cs[i]? = some none)
    (he : env.ctor_throws w.ctor_calls = none) :
    construct env (some r) i x w =
      .ok () ⟨w.heap.set r ⟨cs.set i (some x), true⟩, w.ctor_calls + 1, w.alloc_calls⟩ := by
  simp [construct, h, hc, he]

theorem construct_throw (env : Env T) (w : World T) (r i : Nat) (x : T) (cs : List (Option T))
    (e : Exn) (h : w.heap[r]? = some ⟨cs, true⟩) (hc : cs[i]? = some none)
    (he : env.ctor_throws w.ctor_calls = some e) :
    construct env (some r) i x w = .throw e ⟨w.heap, w.ctor_calls + 1, w.alloc_calls⟩ := by
  simp [construct, h, hc, he]

theorem destroy_ok (w : World T) (r i : Nat) (x : T) (cs : List (Option T))
    (h : w.heap[r]? = some ⟨cs, true⟩) (hc : cs[i]? = some (some x)) :
    destroy (some r) i w = some ⟨w.heap.set r ⟨cs.set i none, true⟩, w.ctor_calls, w.alloc_calls⟩ := by
  simp [destroy, h, hc]

theorem overwrite_ok (w : World T) (r i : Nat) (x y : T) (cs : List (Option T))
    (h : w.heap[r]? = some ⟨cs, true⟩) (hc : cs[i]? = some (some x)) :
    overwrite (some r) i y w =
      ⟨w.heap.set r ⟨cs.set i (some y), true⟩, w.ctor_calls, w.alloc_calls⟩ := by
  simp [overwrite, h, hc]

/-- Constructing from a temporary is constructing from the value it holds. -/
theorem construct_forward_temp (env : Env T) (p : Option Nat) (i : Nat) (x : T) (w : World T) :
    construct_forward env p i (.temp x) w = construct env p i x w := by
  simp only [construct_forward, Arg.read, Arg.left]
  cases construct env p i x w <;> rfl

/-- Constructing from an lvalue that holds `x` now is constructing from `x`. -/
theorem construct_forward_lvalue (env : Env T) (p q : Option Nat) (i j : Nat) (x : T)
    (w : World T) (h : read q j w = some x) :
    construct_forward env p i (.lvalue q j) w = construct env p i x w := by
  simp only [construct_forward, Arg.read, h, Arg.left]
  cases construct env p i x w <;> rfl

theorem cellsOf_set_list (m : Nat) (P : Nat → Bool) (xs : List T) (i : Nat) (y : T)
    (hi : i < xs.length) (hP : P i = true) :
    (cellsOf m P xs).set i (some y) = cellsOf m P (xs.set i y) := by
  apply List.ext_getElem?
  intro j
  rw [List.getElem?_set, cellsOf_get, cellsOf_get, cellsOf_length]
  by_cases hij : i = j
  · subst hij
    by_cases hm : i < m <;> simp [hm, hP, hi]
  · simp [hij, List.getElem?_set_ne hij]

theorem cellsOf_set_off (m : Nat) (P : Nat → Bool) (xs : List T) (i : Nat) (y : T)
    (hP : P i = false) : cellsOf m P (xs.set i y) = cellsOf m P xs := by
  apply List.ext_getElem?
  intro j
  rw [cellsOf_get, cellsOf_get]
  by_cases hij : i = j
  · subst hij
    simp [hP]
  · simp [List.getElem?_set_ne hij]

theorem moved_at_length (env : Env T) (c : Nat) (xs : List T) (i : Nat) :
    (moved_at env c xs i).length = xs.length := by
  unfold moved_at
  split_ifs
  · cases xs[i]? <;> simp
  · rfl

theorem moved_at_copy (env : Env T) (c : Nat) (xs : List T) (i : Nat)
    (h : env.is_move_constructible = false) : moved_at env c xs i = xs := by
  simp [moved_at, h]

theorem moved_at_move (env : Env T) (c : Nat) (xs : List T) (i : Nat)
    (h : env.is_move_constructible = true) (hi : i < xs.length) :
    moved_at env c xs i = xs.set i (env.moved_from c xs[i]) := by
  simp [moved_at, h, List.getElem?_eq_getElem hi]

/-! ## The relocation loop of `reserve_impl` -/

theorem relocate_step (env : Env T) (v : vector) (p q : Nat) (h0 : List (Region T))
    (xs : List T) (cap n : Nat) (hd : v.data_ = some p) (hs : v.size_ = xs.length)
    (hp : p < h0.length) (hq : q < h0.length) (hpq : p ≠ q)
    (hcap : xs.length ≤ cap) (hn : xs.length ≤ n)
    (fuel i c ac : Nat) (hi : i < xs.length) :
    relocate env v q (fuel + 1) i ⟨upd2 h0 p (oldAt cap xs i) q (newAt n xs i), c, ac⟩ =
      match env.ctor_throws c with
      | some e =>
        .throw e (⟨upd2 h0 p (oldAt cap (moved_at env c xs i) i) q
          (newAt n (moved_at env c xs i) i), c + 1, ac⟩, i)
      | none =>
        relocate env v q fuel (i + 1)
          ⟨upd2 h0 p (oldAt cap xs (i + 1)) q (newAt n xs (i + 1)), c + 1, ac⟩ := by
  have hxi : xs[i]? = some xs[i] := List.getElem?_eq_getElem hi
  have hold : (oldAt cap xs i)[i]? = some (some xs[i]) := by
    unfold oldAt; rw [cellsOf_get]; simp [hxi, show i < cap by omega]
  have hnew : (newAt n xs i)[i]? = some none := by
    unfold newAt; rw [cellsOf_get]; simp [show i < n by omega]
  have hnew1 : (newAt n xs i).set i (some xs[i]) = newAt n xs (i + 1) := by
    unfold newAt
    rw [cellsOf_set_some _ _ _ _ _ hxi]
    apply cellsOf_congr
    intro k _ _
    by_cases h1 : k = i
    · simp [h1]
    · by_cases h2 : k < i
      · simp [h2, show k < i + 1 by omega]
      · simp [h1, h2, show ¬ k < i + 1 by omega]
  have hold1 : (oldAt cap xs i).set i none = oldAt cap xs (i + 1) := by
    unfold oldAt
    rw [cellsOf_set_none]
    apply cellsOf_congr
    intro k _ _
    by_cases h1 : k = i
    · simp [h1]
    · by_cases h2 : i ≤ k
      · simp [h1, h2, show i + 1 ≤ k by omega]
      · simp [h2, show ¬ i + 1 ≤ k by omega]
  have hread : read (some p) i
      (⟨upd2 h0 p (oldAt cap xs i) q (newAt n xs i), c, ac⟩ : World T) = some xs[i] := by
    rw [read_live _ p i _ (upd2_get_left h0 p q _ _ hp hpq), hold]
    rfl
  rw [relocate, hd, hs, if_pos hi]
  cases hmc : env.is_move_constructible with
  | false =>
    simp only [Bool.false_eq_true, if_false]
    rw [construct_forward_lvalue env _ _ _ _ _ _ hread, moved_at_copy env c xs i hmc]
    cases het : env.ctor_throws c with
    | some e =>
      rw [construct_throw env _ q i _ _ e (upd2_get_right h0 p q _ _ hq) hnew het]
    | none =>
      rw [construct_ok env _ q i _ _ (upd2_get_right h0 p q _ _ hq) hnew het]
      simp only
      rw [upd2_set_right, hnew1]
      rw [destroy_ok _ p i xs[i] _ (upd2_get_left h0 p q _ _ hp hpq) hold]
      simp only
      rw [upd2_set_left _ _ _ _ _ _ hpq, hold1]
  | true =>
    have hmoved : (oldAt cap xs i).set i (some (env.moved_from c xs[i])) =
        oldAt cap (moved_at env c xs i) i := by
      rw [moved_at_move env c xs i hmc hi]
      unfold oldAt
      exact cellsOf_set_list _ _ _ _ _ hi (by simp)
    have hkept : newAt n (moved_at env c xs i) i = newAt n xs i := by
      rw [moved_at_move env c xs i hmc hi]
      unfold newAt
      exact cellsOf_set_off _ _ _ _ _ (by simp)
    have hset : ((oldAt cap xs i).set i (some (env.moved_from c xs[i])))[i]? =
        some (some (env.moved_from c xs[i])) := by
      rw [List.getElem?_set_self (by rw [oldAt, cellsOf_length]; omega)]
    simp only [if_true, construct_forward, Arg.read, hread, Arg.left, hmc]
    cases het : env.ctor_throws c with
    | some e =>
      rw [construct_throw env _ q i _ _ e (upd2_get_right h0 p q _ _ hq) hnew het]
      simp only
      rw [overwrite_ok _ p i xs[i] _ _ (upd2_get_left h0 p q _ _ hp hpq) hold]
      simp only
      rw [upd2_set_left _ _ _ _ _ _ hpq, hmoved, hkept]
    | none =>
      rw [construct_ok env _ q i _ _ (upd2_get_right h0 p q _ _ hq) hnew het]
      simp only
      rw [upd2_set_right, hnew1]
      rw [overwrite_ok _ p i xs[i] _ _ (upd2_get_left h0 p q _ _ hp hpq) hold]
      simp only
      rw [upd2_set_left _ _ _ _ _ _ hpq]
      rw [destroy_ok _ p i (env.moved_from c xs[i]) _ (upd2_get_left h0 p q _ _ hp hpq) hset]
      simp only
      rw [upd2_set_left _ _ _ _ _ _ hpq, List.set_set, hold1]

theorem relocate_ok (env : Env T) (v : vector) (p q : Nat) (h0 : List (Region T))
    (xs : List T) (cap n : Nat) (hd : v.data_ = some p) (hs : v.size_ = xs.length)
    (hp : p < h0.length) (hq : q < h0.length) (hpq : p ≠ q)
    (hcap : xs.length ≤ cap) (hn : xs.length ≤ n) :
    ∀ fuel i c ac, i ≤ xs.length → xs.length - i ≤ fuel →
      (∀ j, j < xs.length - i → env.ctor_throws (c + j) = none) →
      relocate env v q fuel i ⟨upd2 h0 p (oldAt cap xs i) q (newAt n xs i), c, ac⟩ =
        .ok () (⟨upd2 h0 p (oldAt cap xs xs.length) q (newAt n xs xs.length),
                 c + (xs.length - i), ac⟩, xs.length) := by
  intro fuel
  induction fuel with
  | zero =>
    intro i c ac hi hf _
    have : i = xs.length := by omega
    subst this
    simp [relocate]
  | succ fuel ih =>
    intro i c ac hi hf hq0
    by_cases hlt : i < xs.length
    · rw [relocate_step env v p q h0 xs cap n hd hs hp hq hpq hcap hn fuel i c ac hlt]
      have h0c : env.ctor_throws c = none := by simpa using hq0 0 (by omega)
      rw [h0c]
      simp only
      rw [ih (i + 1) (c + 1) ac (by omega) (by omega)]
      · have : c + 1 + (xs.length - (i + 1)) = c + (xs.length - i) := by omega
        rw [this]
      · intro j hj
        have := hq0 (j + 1) (by omega)
        rw [← this]; congr 1; omega
    · have : i = xs.length := by omega
      subst this
      simp [relocate, hs]

theorem relocate_throw (env : Env T) (v : vector) (p q : Nat) (h0 : List (Region T))
    (xs : List T) (cap n : Nat) (hd : v.data_ = some p) (hs : v.size_ = xs.length)
    (hp : p < h0.length) (hq : q < h0.length) (hpq : p ≠ q)
    (hcap : xs.length ≤ cap) (hn : xs.length ≤ n) (e : Exn) :
    ∀ t fuel i c ac, i + t < xs.length → xs.length - i ≤ fuel →
      (∀ j, j < t → env.ctor_throws (c + j) = none) →
      env.ctor_throws (c + t) = some e →
      relocate env v q fuel i ⟨upd2 h0 p (oldAt cap xs i) q (newAt n xs i), c, ac⟩ =
        .throw e (⟨upd2 h0 p (oldAt cap (moved_at env (c + t) xs (i + t)) (i + t)) q
                   (newAt n (moved_at env (c + t) xs (i + t)) (i + t)),
                   c + t + 1, ac⟩, i + t) := by
  intro t
  induction t with
  | zero =>
    intro fuel i c ac hi hf _ he
    obtain ⟨fuel, rfl⟩ : ∃ f, fuel = f + 1 := ⟨fuel - 1, by omega⟩
    rw [relocate_step env v p q h0 xs cap n hd hs hp hq hpq hcap hn fuel i c ac (by omega)]
    simp only [Nat.add_zero] at he ⊢
    rw [he]
  | succ t ih =>
    intro fuel i c ac hi hf hq0 he
    obtain ⟨fuel, rfl⟩ : ∃ f, fuel = f + 1 := ⟨fuel - 1, by omega⟩
    rw [relocate_step env v p q h0 xs cap n hd hs hp hq hpq hcap hn fuel i c ac (by omega)]
    have h0c : env.ctor_throws c = none := by simpa using hq0 0 (by omega)
    rw [h0c]
    simp only
    rw [ih fuel (i + 1) (c + 1) ac (by omega) (by omega)]
    · have e1 : i + 1 + t = i + (t + 1) := by omega
      have e2 : c + 1 + t + 1 = c + (t + 1) + 1 := by omega
      have e3 : c + 1 + t = c + (t + 1) := by omega
      rw [e1, e2, e3]
    · intro j hj
      have := hq0 (j + 1) (by omega)
      rw [← this]; congr 1; omega
    · rw [← he]; congr 1; omega

/-! ## The rollback loop of `reserve_impl` -/

theorem rollback_step (env : Env T) (v : vector) (p q : Nat) (h0 : List (Region T))
    (xs : List T) (cap n i : Nat) (hd : v.data_ = some p)
    (hp : p < h0.length) (hq : q < h0.length) (hpq : p ≠ q)
    (hcap : xs.length ≤ cap) (hn : xs.length ≤ n) (hi : i ≤ xs.length)
    (fuel j c ac : Nat) (hj : j < i) (he : env.ctor_throws c = none) :
    rollback env v q i (fuel + 1) j ⟨upd2 h0 p (rbOld cap xs i j) q (rbNew n xs i j), c, ac⟩ =
      rollback env v q i fuel (j + 1)
        ⟨upd2 h0 p (rbOld cap xs i (j + 1)) q (rbNew n xs i (j + 1)), c + 1, ac⟩ := by
  have hjl : j < xs.length := by omega
  have hxj : xs[j]? = some xs[j] := List.getElem?_eq_getElem hjl
  have hnew : (rbNew n xs i j)[j]? = some (some xs[j]) := by
    unfold rbNew; rw [cellsOf_get]; simp [hxj, show j < n by omega, hj]
  have hold : (rbOld cap xs i j)[j]? = some none := by
    unfold rbOld; rw [cellsOf_get]; simp [show j < cap by omega, show ¬ i ≤ j by omega]
  have hold1 : (rbOld cap xs i j).set j (some xs[j]) = rbOld cap xs i (j + 1) := by
    unfold rbOld
    rw [cellsOf_set_some _ _ _ _ _ hxj]
    apply cellsOf_congr
    intro k _ _
    by_cases h1 : k = j
    · simp [h1]
    · by_cases h2 : k < j
      · simp [h2, show k < j + 1 by omega]
      · simp [h1, h2, show ¬ k < j + 1 by omega]
  have hnew1 : (rbNew n xs i j).set j none = rbNew n xs i (j + 1) := by
    unfold rbNew
    rw [cellsOf_set_none]
    apply cellsOf_congr
    intro k _ _
    by_cases h1 : k = j
    · simp [h1]
    · by_cases h2 : j ≤ k
      · simp [h1, h2, show j + 1 ≤ k by omega]
      · simp [h2, show ¬ j + 1 ≤ k by omega]
  rw [rollback, hd, if_pos hj]
  rw [read_live _ q j _ (upd2_get_right h0 p q _ _ hq), hnew]
  simp only [Option.join, Option.some_bind, id]
  rw [construct_ok env _ p j _ _ (upd2_get_left h0 p q _ _ hp hpq) hold he]
  simp only
  rw [upd2_set_left _ _ _ _ _ _ hpq, hold1]
  rw [destroy_ok _ q j xs[j] _ (upd2_get_right h0 p q _ _ hq) hnew]
  simp only
  rw [upd2_set_right, hnew1]

theorem rollback_ok (env : Env T) (v : vector) (p q : Nat) (h0 : List (Region T))
    (xs : List T) (cap n i : Nat) (hd : v.data_ = some p)
    (hp : p < h0.length) (hq : q < h0.length) (hpq : p ≠ q)
    (hcap : xs.length ≤ cap) (hn : xs.length ≤ n) (hi : i ≤ xs.length) :
    ∀ fuel j c ac, j ≤ i → i - j ≤ fuel →
      (∀ t, t < i - j → env.ctor_throws (c + t) = none) →
      rollback env v q i fuel j ⟨upd2 h0 p (rbOld cap xs i j) q (rbNew n xs i j), c, ac⟩ =
        .ok () ⟨upd2 h0 p (rbOld cap xs i i) q (rbNew n xs i i), c + (i - j), ac⟩ := by
  intro fuel
  induction fuel with
  | zero =>
    intro j c ac hj hf _
    have : j = i := by omega
    subst this
    simp [rollback]
  | succ fuel ih =>
    intro j c ac hj hf hq0
    by_cases hlt : j < i
    · have h0c : env.ctor_throws c = none := by simpa using hq0 0 (by omega)
      rw [rollback_step env v p q h0 xs cap n i hd hp hq hpq hcap hn hi fuel j c ac hlt h0c]
      rw [ih (j + 1) (c + 1) ac (by omega) (by omega)]
      · have : c + 1 + (i - (j + 1)) = c + (i - j) := by omega
        rw [this]
      · intro t ht
        have := hq0 (t + 1) (by omega)
        rw [← this]; congr 1; omega
    · have : j = i := by omega
      subst this
      simp [rollback]

theorem set_same {α : Type} (l : List α) (i : Nat) (a : α) (h : l[i]? = some a) :
    l.set i a = l := by
  apply List.ext_getElem?
  intro j
  rw [List.getElem?_set]
  by_cases hij : i = j
  · subst hij
    have hl : i < l.length := by
      by_contra hc
      rw [List.getElem?_eq_none (by omega)] at h
      cases h
    simp [hl, h]
  · simp [hij]

theorem oldAt_zero (cap : Nat) (xs : List T) (h : xs.length ≤ cap) :
    oldAt cap xs 0 = xs.map some ++ List.replicate (cap - xs.length) none := by
  unfold oldAt
  rw [← cellsOf_true cap xs h]
  apply cellsOf_congr
  intro k _ _
  simp

theorem newAt_zero (n : Nat) (xs : List T) : newAt n xs 0 = List.replicate n none := by
  unfold newAt
  rw [← cellsOf_false n xs]
  apply cellsOf_congr
  intro k _ _
  simp

theorem newAt_full (n : Nat) (xs : List T) (h : xs.length ≤ n) :
    newAt n xs xs.length = xs.map some ++ List.replicate (n - xs.length) none := by
  unfold newAt
  rw [← cellsOf_true n xs h]
  apply cellsOf_congr
  intro k _ hk
  simp [hk]

theorem rbOld_zero (cap : Nat) (xs : List T) (i : Nat) : rbOld cap xs i 0 = oldAt cap xs i := by
  unfold rbOld oldAt
  apply cellsOf_congr
  intro k _ _
  simp

theorem rbNew_zero (n : Nat) (xs : List T) (i : Nat) : rbNew n xs i 0 = newAt n xs i := by
  unfold rbNew newAt
  apply cellsOf_congr
  intro k _ _
  simp

theorem rbOld_full (cap : Nat) (xs : List T) (i : Nat) (h : xs.length ≤ cap) :
    rbOld cap xs i i = xs.map some ++ List.replicate (cap - xs.length) none := by
  unfold rbOld
  rw [← cellsOf_true cap xs h]
  apply cellsOf_congr
  intro k _ _
  by_cases hk : k < i
  · simp [hk]
  · simp [hk, show i ≤ k by omega]

theorem rbNew_full (n : Nat) (xs : List T) (i : Nat) : rbNew n xs i i = List.replicate n none := by
  unfold rbNew
  rw [← cellsOf_false n xs]
  apply cellsOf_congr
  intro k _ _
  by_cases hk : i ≤ k
  · simp [hk, show ¬ k < i by omega]
  · simp [hk]

/-! ## `reserve_impl` and `reserve` -/

theorem represents_data (s : St T) (xs : List T) (p : Nat) (h : Represents s xs)
    (hd : s.self.data_ = some p) :
    s.world.heap[p]? =
        some ⟨xs.map some ++ List.replicate (s.self.capacity_ - xs.length) none, true⟩ ∧
      p < s.world.heap.length := by
  obtain ⟨_, _, h3⟩ := h
  rw [hd] at h3
  obtain ⟨reg, hreg, hlive, hcells⟩ := h3
  obtain ⟨cells, live⟩ := reg
  simp only at hlive hcells
  subst hlive hcells
  refine ⟨hreg, ?_⟩
  by_contra hc
  rw [List.getElem?_eq_none (by omega)] at hreg
  cases hreg

theorem represents_null (s : St T) (xs : List T) (h : Represents s xs)
    (hd : s.self.data_ = none) : xs = [] ∧ s.self.size_ = 0 ∧ s.self.capacity_ = 0 := by
  obtain ⟨h1, h2, h3⟩ := h
  rw [hd] at h3
  simp only at h3
  have : xs.length = 0 := by omega
  exact ⟨List.length_eq_zero.mp this, by omega, h3⟩

/-- The heap right after `allocate`, written as an update of itself. -/
theorem fresh_heap (s : St T) (xs : List T) (p n : Nat) (h : Represents s xs)
    (hd : s.self.data_ = some p) :
    s.world.heap ++ [⟨List.replicate n none, true⟩] =
      upd2 (s.world.heap ++ [⟨List.replicate n none, true⟩]) p
        (oldAt s.self.capacity_ xs 0) s.world.heap.length (newAt n xs 0) := by
  obtain ⟨hreg, hp⟩ := represents_data s xs p h hd
  have hle : xs.length ≤ s.self.capacity_ := by
    have := h.1; have := h.2.1; omega
  unfold upd2
  rw [oldAt_zero _ _ hle, newAt_zero]
  rw [set_same _ p _ (by rw [List.getElem?_append_left hp]; exact hreg)]
  rw [set_same _ _ _ (by simp)]

theorem reserve_impl_ok (env : Env T) (s : St T) (xs : List T) (n : Nat)
    (hrep : Represents s xs) (hn : xs.length ≤ n)
    (ha : env.alloc_throws s.world.alloc_calls n = none)
    (hc : ∀ j, j < xs.length → env.ctor_throws (s.world.ctor_calls + j) = none) :
    ∃ w, reserve_impl env n s = .ok () ⟨w, ⟨n, s.self.size_, some s.world.heap.length⟩⟩ ∧
      Represents ⟨w, ⟨n, s.self.size_, some s.world.heap.length⟩⟩ xs ∧
      w.ctor_calls = s.world.ctor_calls + xs.length ∧
      w.alloc_calls = s.world.alloc_calls + 1 ∧
      w.heap.length = s.world.heap.length + 1 ∧
      (∀ r, some r ≠ s.self.data_ → r < s.world.heap.length →
        w.heap[r]? = s.world.heap[r]?) := by
  have hsz : s.self.size_ = xs.length := hrep.1
  have hle : xs.length ≤ s.self.capacity_ := by have := hrep.2.1; omega
  cases hd : s.self.data_ with
  | none =>
    obtain ⟨hxs, hs0, hc0⟩ := represents_null s xs hrep hd
    subst hxs
    refine ⟨⟨s.world.heap ++ [⟨List.replicate n none, true⟩], s.world.ctor_calls,
      s.world.alloc_calls + 1⟩, ?_, ?_, ?_, ?_, ?_, ?_⟩
    · simp [reserve_impl, allocate, ha, hs0, relocate, deallocate, hd, hc0]
    · refine ⟨by simpa using hs0, by simp [hs0], ?_⟩
      simp [List.getElem?_concat_length]
    · simp
    · rfl
    · simp
    · intro r _ hr
      simp [List.getElem?_append_left hr]
  | some p =>
    obtain ⟨hreg, hp⟩ := represents_data s xs p hrep hd
    have hfresh := fresh_heap s xs p n hrep hd
    have hq : s.world.heap.length < (s.world.heap ++ [(⟨List.replicate n none, true⟩ : Region T)]).length := by
      simp
    have hp0 : p < (s.world.heap ++ [(⟨List.replicate n none, true⟩ : Region T)]).length := by
      simp; omega
    have hpq : p ≠ s.world.heap.length := by omega
    have hrel := relocate_ok env s.self p s.world.heap.length
      (s.world.heap ++ [⟨List.replicate n none, true⟩]) xs s.self.capacity_ n hd hsz hp0 hq hpq
      hle hn xs.length 0 s.world.ctor_calls (s.world.alloc_calls + 1) (by omega) (by omega)
      (by intro j hj; exact hc j (by omega))
    rw [← hfresh] at hrel
    have hdead : ((upd2 (s.world.heap ++ [(⟨List.replicate n none, true⟩ : Region T)]) p
        (oldAt s.self.capacity_ xs xs.length) s.world.heap.length (newAt n xs xs.length))[p]?) =
        some ⟨oldAt s.self.capacity_ xs xs.length, true⟩ := upd2_get_left _ _ _ _ _ hp0 hpq
    refine ⟨⟨(upd2 (s.world.heap ++ [⟨List.replicate n none, true⟩]) p
        (oldAt s.self.capacity_ xs xs.length) s.world.heap.length (newAt n xs xs.length)).set p
        ⟨oldAt s.self.capacity_ xs xs.length, false⟩,
        s.world.ctor_calls + xs.length, s.world.alloc_calls + 1⟩, ?_, ?_, ?_, ?_, ?_, ?_⟩
    · simp only [reserve_impl, allocate, ha, hsz]
      rw [hrel]
      simp only [Nat.sub_zero, deallocate, hd, hdead]
      simp [oldAt, cellsOf_length, hsz]
    · refine ⟨hsz, (by show s.self.size_ ≤ n; omega), ?_⟩
      simp only
      refine ⟨⟨newAt n xs xs.length, true⟩, ?_, rfl, newAt_full n xs hn⟩
      rw [List.getElem?_set_ne hpq]
      exact upd2_get_right _ _ _ _ _ hq
    · rfl
    · rfl
    · simp [upd2_length]
    · intro r hr hrl
      have hrp : r ≠ p := fun h => hr (by rw [h])
      rw [List.getElem?_set_ne (Ne.symm hrp), upd2_get_other _ _ _ _ _ _ hrp (by omega),
        List.getElem?_append_left hrl]

theorem calm_mono (env : Env T) (w w1 : World T) (h : Calm env w)
    (hc : w.ctor_calls ≤ w1.ctor_calls) (ha : w.alloc_calls ≤ w1.alloc_calls) : Calm env w1 :=
  ⟨fun j hj => h.1 j (by omega), fun j hj => h.2 j (by omega)⟩

theorem calm_quiet (w : World T) : Calm Env.quiet w :=
  ⟨fun _ _ => rfl, fun _ _ _ => rfl⟩

theorem represents_elements (s : St T) (xs : List T) (h : Represents s xs) :
    elements s = xs.map some := by
  have hsz : s.self.size_ = xs.length := h.1
  have hle : xs.length ≤ s.self.capacity_ := by have := h.2.1; omega
  unfold elements
  cases hd : s.self.data_ with
  | none =>
    obtain ⟨hxs, hs0, _⟩ := represents_null s xs h hd
    simp [hxs, hs0]
  | some p =>
    obtain ⟨hreg, _⟩ := represents_data s xs p h hd
    apply List.ext_getElem?
    intro i
    rw [List.getElem?_map, List.getElem?_map, hsz]
    by_cases hi : i < xs.length
    · rw [List.getElem?_range hi, List.getElem?_eq_getElem hi]
      simp only [Option.map]
      rw [read_live _ p i _ hreg, List.getElem?_append_left (by simpa using hi)]
      simp [List.getElem?_eq_getElem hi]
    · rw [List.getElem?_eq_none (by simpa using hi), List.getElem?_eq_none (by omega)]
      rfl

/-- A relocation of `reserve_impl` that throws a `std::exception` is rolled back,
provided the copies made by the rollback do not throw: the elements relocated so
far are back in place, the element whose relocation threw is as its constructor
left it, the region just allocated stays allocated, all its slots raw. -/
theorem reserve_impl_rollback (env : Env T) (s : St T) (xs : List T) (n t : Nat) (e : Exn)
    (hrep : Represents s xs) (hn : xs.length ≤ n)
    (ha : env.alloc_throws s.world.alloc_calls n = none)
    (ht : t < xs.length)
    (hbefore : ∀ j, j < t → env.ctor_throws (s.world.ctor_calls + j) = none)
    (hthrow : env.ctor_throws (s.world.ctor_calls + t) = some e)
    (hstd : e.is_std = true)
    (hafter : ∀ j, j < t → env.ctor_throws (s.world.ctor_calls + t + 1 + j) = none) :
    ∃ w, reserve_impl env n s = .throw e ⟨w, s.self⟩ ∧
      Represents ⟨w, s.self⟩ (moved_at env (s.world.ctor_calls + t) xs t) ∧
      w.heap[s.world.heap.length]? = some ⟨List.replicate n none, true⟩ ∧
      w.heap.length = s.world.heap.length + 1 ∧
      (∀ r, some r ≠ s.self.data_ → r < s.world.heap.length →
        w.heap[r]? = s.world.heap[r]?) := by
  have hsz : s.self.size_ = xs.length := hrep.1
  have hle : xs.length ≤ s.self.capacity_ := by have := hrep.2.1; omega
  have hlen := moved_at_length env (s.world.ctor_calls + t) xs t
  cases hd : s.self.data_ with
  | none =>
    obtain ⟨hxs, _, _⟩ := represents_null s xs hrep hd
    subst hxs
    simp at ht
  | some p =>
    obtain ⟨hreg, hp⟩ := represents_data s xs p hrep hd
    have hfresh := fresh_heap s xs p n hrep hd
    have hq : s.world.heap.length <
        (s.world.heap ++ [(⟨List.replicate n none, true⟩ : Region T)]).length := by simp
    have hp0 : p < (s.world.heap ++ [(⟨List.replicate n none, true⟩ : Region T)]).length := by
      simp; omega
    have hpq : p ≠ s.world.heap.length := by omega
    have hrel := relocate_throw env s.self p s.world.heap.length
      (s.world.heap ++ [⟨List.replicate n none, true⟩]) xs s.self.capacity_ n hd hsz hp0 hq hpq
      hle hn e t xs.length 0 s.world.ctor_calls (s.world.alloc_calls + 1) (by omega) (by omega)
      hbefore hthrow
    rw [← hfresh] at hrel
    simp only [Nat.zero_add] at hrel
    have hrb := rollback_ok env s.self p s.world.heap.length
      (s.world.heap ++ [⟨List.replicate n none, true⟩])
      (moved_at env (s.world.ctor_calls + t) xs t) s.self.capacity_ n t hd hp0 hq hpq
      (by omega) (by omega) (by omega) t 0 (s.world.ctor_calls + t + 1)
      (s.world.alloc_calls + 1) (by omega) (by omega) (by intro j hj; exact hafter j (by omega))
    rw [rbOld_zero, rbNew_zero, rbOld_full _ _ _ (by omega), rbNew_full] at hrb
    refine ⟨⟨upd2 (s.world.heap ++ [⟨List.replicate n none, true⟩]) p
        ((moved_at env (s.world.ctor_calls + t) xs t).map some ++
          List.replicate (s.self.capacity_ -
            (moved_at env (s.world.ctor_calls + t) xs t).length) none)
        s.world.heap.length
        (List.replicate n none), s.world.ctor_calls + t + 1 + (t - 0),
        s.world.alloc_calls + 1⟩, ?_, ?_, ?_, ?_, ?_⟩
    · simp only [reserve_impl, allocate, ha, hsz]
      rw [hrel]
      simp only [hstd, if_true]
      rw [hrb]
    · refine ⟨by rw [hlen]; exact hsz, hrep.2.1, ?_⟩
      rw [hd]
      exact ⟨_, upd2_get_left _ _ _ _ _ hp0 hpq, rfl, rfl⟩
    · exact upd2_get_right _ _ _ _ _ hq
    · simp [upd2_length]
    · intro r hrd hr
      have hrp : r ≠ p := fun h => hrd (by rw [h])
      simp only
      rw [upd2_get_other _ _ _ _ _ _ hrp (by omega), List.getElem?_append_left hr]

/-! ## Frames -/

theorem frame_refl (s : St T) : Frame s s :=
  ⟨Nat.le_refl _, fun _ _ _ => rfl, Or.inl rfl⟩

theorem frame_trans (s s1 s2 : St T) (h1 : Frame s s1) (h2 : Frame s1 s2) : Frame s s2 := by
  obtain ⟨l1, f1, d1⟩ := h1
  obtain ⟨l2, f2, d2⟩ := h2
  refine ⟨by omega, ?_, ?_⟩
  · intro r hr hrl
    rw [← f1 r hr hrl]
    apply f2 r _ (by omega)
    cases d1 with
    | inl h => rw [h]; exact hr
    | inr h =>
      obtain ⟨q, hq, hql⟩ := h
      rw [hq]
      intro hc
      cases hc
      omega
  · cases d2 with
    | inl h =>
      rw [h]
      exact d1
    | inr h =>
      obtain ⟨q, hq, hql⟩ := h
      exact Or.inr ⟨q, hq, by omega⟩

theorem reserve_frame (env : Env T) (s : St T) (xs : List T) (n : Nat)
    (hrep : Represents s xs) (hcalm : Calm env s.world) :
    ∃ s1, reserve env n s = .ok () s1 ∧ Represents s1 xs ∧ Calm env s1.world ∧
      s1.self.size_ = s.self.size_ ∧ Frame s s1 ∧
      (n ≤ s.self.capacity_ → s1 = s) ∧ (s.self.capacity_ < n → s1.self.capacity_ = n) := by
  by_cases hn : n ≤ s.self.capacity_
  · exact ⟨s, by simp [reserve, hn], hrep, hcalm, rfl, frame_refl s, fun _ => rfl,
      fun h => by omega⟩
  · have hlen : xs.length ≤ n := by have := hrep.1; have := hrep.2.1; omega
    obtain ⟨w, hrun, hrep1, hc1, ha1, hl1, hf1⟩ := reserve_impl_ok env s xs n hrep hlen
      (hcalm.2 _ (Nat.le_refl _) _) (fun j _ => hcalm.1 _ (by omega))
    refine ⟨_, by simp only [reserve, hn, if_false]; exact hrun, hrep1, ?_, rfl, ?_,
      fun h => absurd h hn, fun _ => rfl⟩
    · exact calm_mono env s.world w hcalm (by simp [hc1]) (by simp [ha1])
    · exact ⟨by simp [hl1], hf1, Or.inr ⟨_, rfl, Nat.le_refl _⟩⟩

/-! ## Claims on `reserve` -/

/-- C1: on every valid vector holding `xs` and for every `n`, when no allocation and
no element construction throws, `reserve(n)` returns with the element sequence and
the size unchanged and with `capacity >= n`; if `n <= capacity` before the call the
state is unchanged (a no-op), otherwise the capacity is exactly `n`. -/
theorem reserve_spec (env : Env T) (s : St T) (xs : List T) (n : Nat)
    (hrep : Represents s xs) (hcalm : Calm env s.world) :
    ∃ s1, reserve env n s = .ok () s1 ∧ Represents s1 xs ∧ elements s1 = elements s ∧
      s1.self.size_ = s.self.size_ ∧ n ≤ s1.self.capacity_ ∧
      (n ≤ s.self.capacity_ → s1 = s) ∧ (s.self.capacity_ < n → s1.self.capacity_ = n) := by
  obtain ⟨s1, hrun, hrep1, _, hsz, _, hnoop, hgrow⟩ := reserve_frame env s xs n hrep hcalm
  refine ⟨s1, hrun, hrep1, ?_, hsz, ?_, hnoop, hgrow⟩
  · rw [represents_elements s1 xs hrep1, represents_elements s xs hrep]
  · by_cases hn : n ≤ s.self.capacity_
    · rw [hnoop hn]; exact hn
    · rw [hgrow (by omega)]

theorem vec_two_represents : Represents vec_two [10, 20] :=
  ⟨rfl, by decide, ⟨_, rfl, rfl, rfl⟩⟩

/-- C1 at the vector `{10, 20}` of capacity 2 and `n = 5`. -/
theorem reserve_spec_witness :
    Represents vec_two [10, 20] ∧ Calm Env.quiet vec_two.world ∧
    ∃ s1, reserve Env.quiet 5 vec_two = .ok () s1 ∧ Represents s1 [10, 20] ∧
      elements s1 = elements vec_two ∧
      s1.self.size_ = vec_two.self.size_ ∧ 5 ≤ s1.self.capacity_ ∧
      (5 ≤ vec_two.self.capacity_ → s1 = vec_two) ∧
      (vec_two.self.capacity_ < 5 → s1.self.capacity_ = 5) :=
  ⟨vec_two_represents, calm_quiet _,
    reserve_spec Env.quiet vec_two [10, 20] 5 vec_two_represents (calm_quiet _)⟩

/-- The rollback of `reserve_impl` at work: if `n > capacity`, the allocation succeeds,
the first `t` relocations succeed, relocation number `t + 1` throws an exception `e`
derived from `std::exception` without having changed the element it was given, and
the `t` copies made by the rollback do not throw, then `reserve(n)` throws `e` and
the size, the capacity, the storage pointer and the element values are those from
before the call. -/
theorem reserve_rolls_back (env : Env T) (s : St T) (xs : List T) (n t : Nat) (e : Exn)
    (hrep : Represents s xs) (hn : s.self.capacity_ < n)
    (ha : env.alloc_throws s.world.alloc_calls n = none)
    (ht : t < xs.length)
    (hbefore : ∀ j, j < t → env.ctor_throws (s.world.ctor_calls + j) = none)
    (hthrow : env.ctor_throws (s.world.ctor_calls + t) = some e)
    (hstd : e.is_std = true)
    (hintact : moved_at env (s.world.ctor_calls + t) xs t = xs)
    (hafter : ∀ j, j < t → env.ctor_throws (s.world.ctor_calls + t + 1 + j) = none) :
    ∃ s1, reserve env n s = .throw e s1 ∧ s1.self = s.self ∧ Represents s1 xs ∧
      elements s1 = elements s := by
  have hlen : xs.length ≤ n := by have := hrep.1; have := hrep.2.1; omega
  obtain ⟨w, hrun, hrep1, _⟩ :=
    reserve_impl_rollback env s xs n t e hrep hlen ha ht hbefore hthrow hstd hafter
  rw [hintact] at hrep1
  refine ⟨⟨w, s.self⟩, ?_, rfl, hrep1, ?_⟩
  · simp only [reserve, show ¬ n ≤ s.self.capacity_ by omega, if_false]
    exact hrun
  · rw [represents_elements _ xs hrep1, represents_elements s xs hrep]

/-- The rollback at `{10, 20}`, `reserve(5)`, the second relocation throwing a
`std::exception` before it has touched its source. -/
theorem reserve_rolls_back_witness :
    ∃ s1, reserve (env_throwing 3 3 (.std_exception "copy")) 5 vec_two
        = .throw (.std_exception "copy") s1 ∧
      s1.self = vec_two.self ∧ Represents s1 [10, 20] ∧ elements s1 = elements vec_two :=
  reserve_rolls_back (env_throwing 3 3 (.std_exception "copy")) vec_two [10, 20] 5 1
    (.std_exception "copy") vec_two_represents (by decide) rfl (by decide)
    (by intro j hj; have : j = 0 := by omega
        subst this; rfl)
    rfl rfl (by decide)
    (by intro j hj; have : j = 0 := by omega
        subst this; rfl)

/-- C2 fails on the code.  On `{10, 20}` with capacity 2, `reserve(5)` reports the
failure of the second relocation but does not leave the vector as it was:
when the move constructor throws a `std::exception` after it has emptied its
source, the handler restores element 0 only and the vector holds `10, 0`;
when the thrown object is not derived from `std::exception`, the handler is skipped
and element 0 stays destroyed while `size` is still 2; when the first copy made by
the handler throws too, the call ends in that same state. -/
theorem reserve_strong_guarantee_fails :
    Represents vec_two [10, 20] ∧ vec_two.self.capacity_ < 5 ∧
    elements vec_two = [some 10, some 20] ∧
    (env_moving 3 (.std_exception "move")).ctor_throws (vec_two.world.ctor_calls + 0) = none ∧
    (env_moving 3 (.std_exception "move")).ctor_throws (vec_two.world.ctor_calls + 1)
      = some (.std_exception "move") ∧
    (∃ s1, reserve (env_moving 3 (.std_exception "move")) 5 vec_two
        = .throw (.std_exception "move") s1 ∧
      s1.self = vec_two.self ∧ elements s1 = [some 10, some 0]) ∧
    (env_throwing 3 3 (.foreign 7)).ctor_throws (vec_two.world.ctor_calls + 0) = none ∧
    (env_throwing 3 3 (.foreign 7)).ctor_throws (vec_two.world.ctor_calls + 1)
      = some (.foreign 7) ∧
    (∃ s1, reserve (env_throwing 3 3 (.foreign 7)) 5 vec_two = .throw (.foreign 7) s1 ∧
      s1.self.size_ = 2 ∧ elements s1 = [none, some 20]) ∧
    (env_throwing 3 4 (.std_exception "copy")).ctor_throws (vec_two.world.ctor_calls + 0)
      = none ∧
    (env_throwing 3 4 (.std_exception "copy")).ctor_throws (vec_two.world.ctor_calls + 1)
      = some (.std_exception "copy") ∧
    (∃ s1, reserve (env_throwing 3 4 (.std_exception "copy")) 5 vec_two
        = .throw (.std_exception "copy") s1 ∧
      s1.self.size_ = 2 ∧ elements s1 = [none, some 20]) :=
  ⟨vec_two_represents, by decide, by decide, by decide, by decide,
    ⟨_, rfl, rfl, by decide⟩, by decide, by decide,
    ⟨_, rfl, rfl, by decide⟩, by decide, by decide, ⟨_, rfl, rfl, by decide⟩⟩

/-- C3 fails on the code: after `reserve(5)` on `{10, 20}` has failed on the second
relocation and rolled back, the region obtained from `allocate` (region 1, five raw
slots) is still allocated, and the vector does not own it. -/
theorem reserve_failure_leaks :
    ∃ s1, reserve (env_throwing 3 3 (.std_exception "copy")) 5 vec_two
        = .throw (.std_exception "copy") s1 ∧
      s1.self.data_ = some 0 ∧
      s1.world.heap[1]? = some ⟨[none, none, none, none, none], true⟩ :=
  ⟨_, rfl, rfl, by decide⟩

/-! ## Insertion and removal at the end -/

theorem set_append_raw (l : List (Option T)) (k : Nat) (x : T) :
    (l ++ List.replicate (k + 1) none).set l.length (some x) =
      l ++ some x :: List.replicate k none := by
  induction l with
  | nil => simp [List.replicate_succ]
  | cons a l ih => simpa using ih

theorem set_append_last (l : List (Option T)) (k : Nat) (x : T) :
    (l ++ some x :: List.replicate k none).set l.length none =
      l ++ List.replicate (k + 1) none := by
  induction l with
  | nil => simp [List.replicate_succ]
  | cons a l ih => simpa using ih

/-- Constructing at `data_ + size_` when a raw slot is left. -/
theorem construct_end (env : Env T) (s : St T) (xs : List T) (x : T)
    (hrep : Represents s xs) (hroom : s.self.size_ < s.self.capacity_)
    (he : env.ctor_throws s.world.ctor_calls = none) :
    ∃ w, construct env s.self.data_ s.self.size_ x s.world = .ok () w ∧
      Represents ⟨w, { s.self with size_ := s.self.size_ + 1 }⟩ (xs ++ [x]) ∧
      w.ctor_calls = s.world.ctor_calls + 1 ∧ w.alloc_calls = s.world.alloc_calls ∧
      Frame s ⟨w, { s.self with size_ := s.self.size_ + 1 }⟩ := by
  have hsz : s.self.size_ = xs.length := hrep.1
  cases hd : s.self.data_ with
  | none =>
    obtain ⟨_, _, hc0⟩ := represents_null s xs hrep hd
    omega
  | some p =>
    obtain ⟨hreg, hp⟩ := represents_data s xs p hrep hd
    obtain ⟨k, hk⟩ : ∃ k, s.self.capacity_ - xs.length = k + 1 :=
      ⟨s.self.capacity_ - xs.length - 1, by omega⟩
    rw [hk] at hreg
    have hcell : (xs.map some ++ List.replicate (k + 1) (none : Option T))[s.self.size_]?
        = some none := by
      rw [hsz, List.getElem?_append_right (by simp)]
      simp [List.replicate_succ]
    refine ⟨_, construct_ok env s.world p s.self.size_ x _ hreg hcell he, ?_, rfl, rfl, ?_⟩
    · refine ⟨by simp [hsz], (by show s.self.size_ + 1 ≤ s.self.capacity_; omega), ?_⟩
      simp only [hd]
      refine ⟨_, List.getElem?_set_self hp, rfl, ?_⟩
      simp only
      have h1 := set_append_raw (xs.map some) k x
      simp only [List.length_map] at h1
      rw [hsz, h1]
      have h2 : s.self.capacity_ - (xs ++ [x]).length = k := by simp; omega
      rw [h2]
      simp
    · refine ⟨by simp, ?_, Or.inl rfl⟩
      intro r hr _
      have hrp : p ≠ r := fun h => hr (by rw [hd, h])
      simp only
      rw [List.getElem?_set_ne hrp]

theorem emplace_back_ok (env : Env T) (s : St T) (xs : List T) (x : T)
    (hrep : Represents s xs) (hcalm : Calm env s.world) :
    ∃ s1, emplace_back env (.temp x) s = .ok (s1.self.data_, s1.self.size_ - 1) s1 ∧
      Represents s1 (xs ++ [x]) ∧ Calm env s1.world ∧ Frame s s1 ∧
      s1.self.size_ = s.self.size_ + 1 ∧
      (s.self.size_ = s.self.capacity_ → s1.self.capacity_ = 2 * s.self.capacity_ + 1) ∧
      (s.self.size_ < s.self.capacity_ →
        s1.self.capacity_ = s.self.capacity_ ∧ s1.self.data_ = s.self.data_ ∧
        s1.world.alloc_calls = s.world.alloc_calls) := by
  have hle : s.self.size_ ≤ s.self.capacity_ := hrep.2.1
  -- the state after the optional growth
  have hgrow : ∃ s0, (if s.self.capacity_ = s.self.size_ then
        reserve env (2 * s.self.capacity_ + 1) s else .ok () s) = .ok () s0 ∧
      Represents s0 xs ∧ Calm env s0.world ∧ Frame s s0 ∧ s0.self.size_ = s.self.size_ ∧
      s0.self.size_ < s0.self.capacity_ ∧
      (s.self.size_ = s.self.capacity_ → s0.self.capacity_ = 2 * s.self.capacity_ + 1) ∧
      (s.self.size_ < s.self.capacity_ → s0 = s) := by
    by_cases hfull : s.self.capacity_ = s.self.size_
    · obtain ⟨s0, hrun, hrep0, hcalm0, hsz0, hfr0, _, hcap0⟩ :=
        reserve_frame env s xs (2 * s.self.capacity_ + 1) hrep hcalm
      have hc := hcap0 (by omega)
      exact ⟨s0, by rw [if_pos hfull]; exact hrun, hrep0, hcalm0, hfr0, hsz0, by omega,
        fun _ => hc, fun h => by omega⟩
    · exact ⟨s, by rw [if_neg hfull], hrep, hcalm, frame_refl s, rfl, by omega,
        fun h => absurd h.symm hfull, fun _ => rfl⟩
  obtain ⟨s0, hrun0, hrep0, hcalm0, hfr0, hsz0, hroom0, hcapf, hsame⟩ := hgrow
  obtain ⟨w, hcon, hrep1, hc1, ha1, hfr1⟩ :=
    construct_end env s0 xs x hrep0 hroom0 (hcalm0.1 _ (Nat.le_refl _))
  refine ⟨⟨w, { s0.self with size_ := s0.self.size_ + 1 }⟩, ?_, hrep1, ?_,
    frame_trans _ _ _ hfr0 hfr1, by simp [hsz0], hcapf, ?_⟩
  · unfold emplace_back
    rw [hrun0]
    simp only
    rw [construct_forward_temp, hcon]
  · exact calm_mono env s0.world w hcalm0 (by omega) (by omega)
  · intro h
    have := hsame h
    subst this
    exact ⟨rfl, rfl, ha1⟩

/-- The member `push_back(value)` is `emplace_back(std::move(value))` without the
reference returned. -/
theorem push_back_forward (env : Env T) (a : Arg T) (s : St T) :
    push_back env a s =
      match emplace_back env a.move s with
      | .ub => .ub
      | .throw e s1 => .throw e s1
      | .ok _ s1 => .ok () s1 := by
  unfold push_back emplace_back
  cases (if s.self.capacity_ = s.self.size_ then reserve env (2 * s.self.capacity_ + 1) s
         else Outcome.ok () s) with
  | ub => rfl
  | throw e s1 => rfl
  | ok u s1 =>
    simp only
    cases construct_forward env s1.self.data_ s1.self.size_ a.move s1.world <;> rfl

theorem push_back_eq (env : Env T) (x : T) (s : St T) :
    push_back env (.temp x) s =
      match emplace_back env (.temp x) s with
      | .ub => .ub
      | .throw e s1 => .throw e s1
      | .ok _ s1 => .ok () s1 :=
  push_back_forward env (.temp x) s

/-- With room left, `emplace_back` of an lvalue that holds `x` is `emplace_back` of a
temporary holding `x`: nothing happens between the call and the read. -/
theorem emplace_back_room (env : Env T) (s : St T) (p : Option Nat) (j : Nat) (x : T)
    (hroom : s.self.size_ < s.self.capacity_) (h : read p j s.world = some x) :
    emplace_back env (.lvalue p j) s = emplace_back env (.temp x) s := by
  unfold emplace_back
  rw [if_neg (by omega)]
  simp only
  rw [construct_forward_lvalue env _ _ _ _ _ _ h, construct_forward_temp]

theorem read_lt (w : World T) (q j : Nat) (x : T) (h : read (some q) j w = some x) :
    q < w.heap.length := by
  by_contra hc
  simp [read, List.getElem?_eq_none (Nat.le_of_not_lt hc)] at h

theorem read_congr (w w1 : World T) (q j : Nat) (h : w1.heap[q]? = w.heap[q]?) :
    read (some q) j w1 = read (some q) j w := by
  simp only [read, h]

/-- An lvalue naming an element of other storage is read after the growth as before
it: `emplace_back` of it is `emplace_back` of a temporary holding its value. -/
theorem emplace_back_outside (env : Env T) (s : St T) (xs : List T) (q j : Nat) (x : T)
    (hrep : Represents s xs) (hcalm : Calm env s.world) (hq : some q ≠ s.self.data_)
    (h : read (some q) j s.world = some x) :
    emplace_back env (.lvalue (some q) j) s = emplace_back env (.temp x) s := by
  by_cases hroom : s.self.size_ < s.self.capacity_
  · exact emplace_back_room env s _ j x hroom h
  · have hle : s.self.size_ ≤ s.self.capacity_ := hrep.2.1
    obtain ⟨s0, hrun, _, _, _, hfr0, _, _⟩ :=
      reserve_frame env s xs (2 * s.self.capacity_ + 1) hrep hcalm
    have h0 : read (some q) j s0.world = some x := by
      rw [read_congr _ _ q j (hfr0.2.1 q hq (read_lt _ q j x h))]
      exact h
    unfold emplace_back
    rw [if_pos (by omega), hrun]
    simp only
    rw [construct_forward_lvalue env _ _ _ _ _ _ h0, construct_forward_temp]

theorem pop_back_ok (s : St T) (xs : List T) (x : T) (hrep : Represents s (xs ++ [x])) :
    ∃ w, pop_back s = .ok () ⟨w, { s.self with size_ := s.self.size_ - 1 }⟩ ∧
      Represents ⟨w, { s.self with size_ := s.self.size_ - 1 }⟩ xs ∧
      w.ctor_calls = s.world.ctor_calls ∧ w.alloc_calls = s.world.alloc_calls ∧
      Frame s ⟨w, { s.self with size_ := s.self.size_ - 1 }⟩ := by
  have hsz : s.self.size_ = xs.length + 1 := by simpa using hrep.1
  have hle : s.self.size_ ≤ s.self.capacity_ := hrep.2.1
  cases hd : s.self.data_ with
  | none =>
    obtain ⟨hx, _, _⟩ := represents_null s _ hrep hd
    simp at hx
  | some p =>
    obtain ⟨hreg, hp⟩ := represents_data s _ p hrep hd
    have hcells : (xs ++ [x]).map some ++
        List.replicate (s.self.capacity_ - (xs ++ [x]).length) (none : Option T) =
        xs.map some ++ some x :: List.replicate (s.self.capacity_ - (xs.length + 1)) none := by
      simp
    rw [hcells] at hreg
    have hcell : (xs.map some ++
        some x :: List.replicate (s.self.capacity_ - (xs.length + 1)) (none : Option T))[
          s.self.size_ - 1]? = some (some x) := by
      rw [hsz, List.getElem?_append_right (by simp)]
      simp
    have hdes := destroy_ok s.world p (s.self.size_ - 1) x _ hreg hcell
    refine ⟨⟨s.world.heap.set p ⟨(xs.map some ++ some x ::
        List.replicate (s.self.capacity_ - (xs.length + 1)) none).set (s.self.size_ - 1) none,
        true⟩, s.world.ctor_calls, s.world.alloc_calls⟩, ?_, ?_, rfl, rfl, ?_⟩
    · unfold pop_back
      rw [if_neg (by omega), hd, hdes]
    · refine ⟨by simp [hsz], (by show s.self.size_ - 1 ≤ s.self.capacity_; omega), ?_⟩
      simp only [hd]
      refine ⟨_, List.getElem?_set_self hp, rfl, ?_⟩
      simp only
      have h1 := set_append_last (xs.map some) (s.self.capacity_ - (xs.length + 1)) x
      simp only [List.length_map] at h1
      have h2 : s.self.size_ - 1 = xs.length := by omega
      rw [h2, h1]
      have h3 : s.self.capacity_ - (xs.length + 1) + 1 = s.self.capacity_ - xs.length := by omega
      rw [h3]
    · refine ⟨by simp, ?_, Or.inl rfl⟩
      intro r hr _
      have hrp : p ≠ r := fun h => hr (by rw [hd, h])
      simp only
      rw [List.getElem?_set_ne hrp]

theorem represents_read (s : St T) (xs : List T) (i : Nat) (h : Represents s xs)
    (hi : i < xs.length) : read s.self.data_ i s.world = xs[i]? := by
  cases hd : s.self.data_ with
  | none =>
    obtain ⟨hxs, _, _⟩ := represents_null s xs h hd
    subst hxs
    simp at hi
  | some p =>
    obtain ⟨hreg, _⟩ := represents_data s xs p h hd
    rw [read_live _ p i _ hreg, List.getElem?_append_left (by simpa using hi)]
    simp [List.getElem?_eq_getElem hi]

/-! ## Sequences of insertions and removals -/

theorem run_ops_append (env : Env T) (a b : List (Op T)) :
    ∀ (s s1 s2 : St T) (ta tb : List (St T)), run_ops env a s = .ok ta s1 →
      run_ops env b s1 = .ok tb s2 → run_ops env (a ++ b) s = .ok (ta ++ tb) s2 := by
  induction a with
  | nil =>
    intro s s1 s2 ta tb h1 h2
    simp only [run_ops, Outcome.ok.injEq] at h1
    obtain ⟨rfl, rfl⟩ := h1
    simpa using h2
  | cons op ops ih =>
    intro s s1 s2 ta tb h1 h2
    simp only [run_ops, List.cons_append] at h1 ⊢
    cases hop : op.run env s with
    | ub => rw [hop] at h1; cases h1
    | throw e s0 => rw [hop] at h1; cases h1
    | ok u s0 =>
      rw [hop] at h1
      simp only at h1 ⊢
      cases hrest : run_ops env ops s0 with
      | ub => rw [hrest] at h1; cases h1
      | throw e s3 => rw [hrest] at h1; cases h1
      | ok tr s3 =>
        rw [hrest] at h1
        simp only [Outcome.ok.injEq] at h1
        obtain ⟨rfl, rfl⟩ := h1
        have hih := ih s0 s3 s2 tr tb hrest h2
        show (match run_ops env (ops ++ b) s0 with
          | Outcome.ub => Outcome.ub
          | Outcome.throw e s1 => Outcome.throw e s1
          | Outcome.ok trace s2 => Outcome.ok (s0 :: trace) s2) = _
        rw [hih]
        rfl

/-- An insertion, by either member function, on a valid vector when nothing throws. -/
theorem insert_run_ok (env : Env T) (op : Op T) (s : St T) (xs : List T)
    (hins : op.inserts = true) (hrep : Represents s xs) (hcalm : Calm env s.world) :
    ∃ x s1, (op = .push_back x ∨ op = .emplace_back x) ∧ op.run env s = .ok () s1 ∧
      Represents s1 (xs ++ [x]) ∧ Calm env s1.world ∧ Frame s s1 ∧
      s1.self.size_ = s.self.size_ + 1 ∧ s.self.capacity_ ≤ s1.self.capacity_ ∧
      (s.self.size_ < s.self.capacity_ →
        s1.self.capacity_ = s.self.capacity_ ∧ s1.self.data_ = s.self.data_ ∧
        s1.world.alloc_calls = s.world.alloc_calls) := by
  have hle : s.self.size_ ≤ s.self.capacity_ := hrep.2.1
  have key : ∀ x, ∃ s1, emplace_back env (.temp x) s = .ok (s1.self.data_, s1.self.size_ - 1) s1 ∧
      Represents s1 (xs ++ [x]) ∧ Calm env s1.world ∧ Frame s s1 ∧
      s1.self.size_ = s.self.size_ + 1 ∧ s.self.capacity_ ≤ s1.self.capacity_ ∧
      (s.self.size_ < s.self.capacity_ →
        s1.self.capacity_ = s.self.capacity_ ∧ s1.self.data_ = s.self.data_ ∧
        s1.world.alloc_calls = s.world.alloc_calls) := by
    intro x
    obtain ⟨s1, hrun, hrep1, hcalm1, hfr, hsz, hfull, hroom⟩ :=
      emplace_back_ok env s xs x hrep hcalm
    refine ⟨s1, hrun, hrep1, hcalm1, hfr, hsz, ?_, hroom⟩
    by_cases h : s.self.size_ = s.self.capacity_
    · rw [hfull h]; omega
    · rw [(hroom (by omega)).1]
  cases op with
  | pop_back => simp [Op.inserts] at hins
  | push_back x =>
    obtain ⟨s1, hrun, rest⟩ := key x
    refine ⟨x, s1, Or.inl rfl, ?_, rest⟩
    simp only [Op.run]
    rw [push_back_eq, hrun]
  | emplace_back x =>
    obtain ⟨s1, hrun, rest⟩ := key x
    refine ⟨x, s1, Or.inr rfl, ?_, rest⟩
    simp only [Op.run]
    rw [hrun]

theorem run_pushes (env : Env T) (xs : List T) :
    ∀ (s : St T) (ys : List T), Represents s ys → Calm env s.world →
      ∃ tr s1, run_ops env (xs.map Op.push_back) s = .ok tr s1 ∧ tr.length = xs.length ∧
        Represents s1 (ys ++ xs) ∧ Calm env s1.world ∧
        ∀ tb, List.Chain (fun a b : St T => a.self.capacity_ ≤ b.self.capacity_) s1 tb →
          List.Chain (fun a b : St T => a.self.capacity_ ≤ b.self.capacity_) s (tr ++ tb) := by
  induction xs with
  | nil =>
    intro s ys hrep hcalm
    exact ⟨[], s, rfl, rfl, by simpa using hrep, hcalm, fun tb h => by simpa using h⟩
  | cons x xs ih =>
    intro s ys hrep hcalm
    obtain ⟨x1, s0, hx, hrun, hrep0, hcalm0, _, _, hcap, _⟩ :=
      insert_run_ok env (.push_back x) s ys rfl hrep hcalm
    have hxx : x1 = x := by
      cases hx with
      | inl h => cases h; rfl
      | inr h => cases h
    subst hxx
    obtain ⟨tr, s1, hrun1, hlen, hrep1, hcalm1, hchain⟩ := ih s0 (ys ++ [x1]) hrep0 hcalm0
    refine ⟨s0 :: tr, s1, ?_, by simp [hlen], by simpa using hrep1, hcalm1, ?_⟩
    · simp only [List.map_cons, run_ops]
      rw [hrun]
      simp only
      rw [hrun1]
    · intro tb htb
      simp only [List.cons_append]
      exact List.chain_cons.mpr ⟨hcap, hchain tb htb⟩

theorem run_pops (env : Env T) :
    ∀ (k : Nat) (zs : List T) (s : St T) (ys : List T), zs.length = k →
      Represents s (ys ++ zs) →
      ∃ tr s1, run_ops env (List.replicate k (Op.pop_back : Op T)) s = .ok tr s1 ∧
        tr.length = k ∧ Represents s1 ys ∧ s1.self.capacity_ = s.self.capacity_ ∧
        List.Chain (fun a b : St T => a.self.capacity_ ≤ b.self.capacity_) s tr := by
  intro k
  induction k with
  | zero =>
    intro zs s ys hk hrep
    have : zs = [] := List.length_eq_zero.mp hk
    subst this
    exact ⟨[], s, rfl, rfl, by simpa using hrep, rfl, List.Chain.nil⟩
  | succ k ih =>
    intro zs s ys hk hrep
    rcases List.eq_nil_or_concat zs with h | ⟨zs0, z, h⟩
    · subst h; simp at hk
    · rw [List.concat_eq_append] at h
      subst h
      have hk0 : zs0.length = k := by simpa using hk
      rw [← List.append_assoc] at hrep
      obtain ⟨w, hrun, hrep0, _, _, _⟩ := pop_back_ok s (ys ++ zs0) z hrep
      obtain ⟨tr, s1, hrun1, hlen, hrep1, hcap1, hchain⟩ := ih zs0 _ ys hk0 hrep0
      refine ⟨⟨w, { s.self with size_ := s.self.size_ - 1 }⟩ :: tr, s1, ?_, by simp [hlen],
        hrep1, by rw [hcap1], ?_⟩
      · simp only [List.replicate_succ, run_ops, Op.run]
        rw [hrun]
        simp only
        rw [hrun1]
      · exact List.chain_cons.mpr ⟨Nat.le_refl _, hchain⟩

/-- C5: on every valid vector and for every list of `k` values, when nothing throws,
the `k` calls of `push_back` followed by `k` calls of `pop_back` all return, the
final state holds the original element sequence (and size), and along the `2k`
states reached after each call, starting from the initial one, the capacity never
decreases. -/
theorem push_pop_roundtrip (env : Env T) (s : St T) (ys xs : List T)
    (hrep : Represents s ys) (hcalm : Calm env s.world) :
    ∃ trace s1,
      run_ops env (xs.map Op.push_back ++ List.replicate xs.length Op.pop_back) s
        = .ok trace s1 ∧
      trace.length = 2 * xs.length ∧ Represents s1 ys ∧ elements s1 = elements s ∧
      s1.self.size_ = s.self.size_ ∧
      List.Chain (fun a b : St T => a.self.capacity_ ≤ b.self.capacity_) s trace := by
  obtain ⟨ta, s0, hrun0, hlen0, hrep0, _, hchain0⟩ := run_pushes env xs s ys hrep hcalm
  obtain ⟨tb, s1, hrun1, hlen1, hrep1, _, hchain1⟩ := run_pops env xs.length xs s0 ys rfl hrep0
  refine ⟨ta ++ tb, s1, run_ops_append env _ _ s s0 s1 ta tb hrun0 hrun1, ?_, hrep1, ?_, ?_,
    hchain0 tb hchain1⟩
  · simp [hlen0, hlen1]; omega
  · rw [represents_elements s1 ys hrep1, represents_elements s ys hrep]
  · rw [hrep1.1, hrep.1]

/-- C5 at `{10, 20}` with the values `30, 40, 50`. -/
theorem push_pop_roundtrip_witness :
    Represents vec_two [10, 20] ∧ Calm Env.quiet vec_two.world ∧
    ∃ trace s1,
      run_ops Env.quiet
          ([30, 40, 50].map Op.push_back ++ List.replicate [30, 40, 50].length Op.pop_back)
          vec_two = .ok trace s1 ∧
      trace.length = 2 * [30, 40, 50].length ∧ Represents s1 [10, 20] ∧
      elements s1 = elements vec_two ∧ s1.self.size_ = vec_two.self.size_ ∧
      List.Chain (fun a b : St Nat => a.self.capacity_ ≤ b.self.capacity_) vec_two trace :=
  ⟨vec_two_represents, calm_quiet _,
    push_pop_roundtrip Env.quiet vec_two [10, 20] [30, 40, 50] vec_two_represents
      (calm_quiet _)⟩

theorem run_inserts_room (env : Env T) (ops : List (Op T)) :
    ∀ (s : St T) (xs : List T), Represents s xs → Calm env s.world →
      (∀ op, op ∈ ops → op.inserts = true) → s.self.size_ + ops.length ≤ s.self.capacity_ →
      ∃ tr s1, run_ops env ops s = .ok tr s1 ∧ tr.length = ops.length ∧
        s1.self.size_ = s.self.size_ + ops.length ∧
        (∃ zs, zs.length = ops.length ∧ Represents s1 (xs ++ zs)) ∧
        ∀ st, st ∈ tr → st.self.capacity_ = s.self.capacity_ ∧
          st.self.data_ = s.self.data_ ∧ st.world.alloc_calls = s.world.alloc_calls := by
  induction ops with
  | nil =>
    intro s xs hrep _ _ _
    exact ⟨[], s, rfl, rfl, rfl, ⟨[], rfl, by simpa using hrep⟩, fun st h => by simp at h⟩
  | cons op ops ih =>
    intro s xs hrep hcalm hins hroom
    simp only [List.length_cons] at hroom
    obtain ⟨x, s0, _, hrun, hrep0, hcalm0, _, hsz0, _, hsame⟩ :=
      insert_run_ok env op s xs (hins op (by simp)) hrep hcalm
    obtain ⟨hcap0, hdata0, halloc0⟩ := hsame (by omega)
    obtain ⟨tr, s1, hrun1, hlen, hsz1, ⟨zs, hzl, hrep1⟩, hall⟩ :=
      ih s0 (xs ++ [x]) hrep0 hcalm0 (fun o ho => hins o (by simp [ho])) (by omega)
    refine ⟨s0 :: tr, s1, ?_, by simp [hlen], by simp only [List.length_cons]; omega,
      ⟨x :: zs, by simp [hzl], by simpa using hrep1⟩, ?_⟩
    · simp only [run_ops]
      rw [hrun]
      simp only
      rw [hrun1]
    · intro st hst
      rcases List.mem_cons.mp hst with h | h
      · subst h
        exact ⟨hcap0, hdata0, halloc0⟩
      · obtain ⟨h1, h2, h3⟩ := hall st h
        exact ⟨by rw [h1, hcap0], by rw [h2, hdata0], by rw [h3, halloc0]⟩

/-- C6: on every valid vector and for every `n`, when nothing throws, `reserve(n)`
returns, and any sequence of `push_back` / `emplace_back` calls that brings the
number of elements to at most `n` runs without a further reallocation: after each
insertion the capacity is the one right after `reserve(n)`, it is `>= n`, the
storage pointer is the same and `allocate` has not been called again. -/
theorem reserve_then_insert (env : Env T) (s : St T) (xs : List T) (n : Nat)
    (ops : List (Op T)) (hrep : Represents s xs) (hcalm : Calm env s.world)
    (hins : ∀ op, op ∈ ops → op.inserts = true) (htotal : s.self.size_ + ops.length ≤ n) :
    ∃ s0 trace s1, reserve env n s = .ok () s0 ∧ run_ops env ops s0 = .ok trace s1 ∧
      trace.length = ops.length ∧ s1.self.size_ = s.self.size_ + ops.length ∧
      ∀ st, st ∈ trace → st.self.capacity_ = s0.self.capacity_ ∧ n ≤ st.self.capacity_ ∧
        st.self.data_ = s0.self.data_ ∧ st.world.alloc_calls = s0.world.alloc_calls := by
  obtain ⟨s0, hrun0, hrep0, hcalm0, hsz0, _, hnoop, hgrow⟩ := reserve_frame env s xs n hrep hcalm
  have hcap : n ≤ s0.self.capacity_ := by
    by_cases hn : n ≤ s.self.capacity_
    · rw [hnoop hn]; exact hn
    · rw [hgrow (by omega)]
  obtain ⟨tr, s1, hrun1, hlen, hsz1, _, hall⟩ :=
    run_inserts_room env ops s0 xs hrep0 hcalm0 hins (by omega)
  refine ⟨s0, tr, s1, hrun0, hrun1, hlen, by omega, ?_⟩
  intro st hst
  obtain ⟨h1, h2, h3⟩ := hall st hst
  exact ⟨h1, by omega, h2, h3⟩

/-- C6 at `{10, 20}`, `reserve(5)` and three insertions. -/
theorem reserve_then_insert_witness :
    Represents vec_two [10, 20] ∧ Calm Env.quiet vec_two.world ∧
    (∀ op, op ∈ [Op.push_back 30, Op.emplace_back 40, Op.push_back 50] →
      op.inserts = true) ∧
    vec_two.self.size_ + [Op.push_back 30, Op.emplace_back 40, Op.push_back 50].length ≤ 5 ∧
    ∃ s0 trace s1, reserve Env.quiet 5 vec_two = .ok () s0 ∧
      run_ops Env.quiet [Op.push_back 30, Op.emplace_back 40, Op.push_back 50] s0
        = .ok trace s1 ∧
      trace.length = [Op.push_back 30, Op.emplace_back 40, Op.push_back 50].length ∧
      s1.self.size_ = vec_two.self.size_ +
        [Op.push_back 30, Op.emplace_back 40, Op.push_back 50].length ∧
      ∀ st, st ∈ trace → st.self.capacity_ = s0.self.capacity_ ∧ 5 ≤ st.self.capacity_ ∧
        st.self.data_ = s0.self.data_ ∧ st.world.alloc_calls = s0.world.alloc_calls :=
  have hins : ∀ op, op ∈ [Op.push_back 30, Op.emplace_back 40, Op.push_back 50] →
      op.inserts = true := by
    intro op hop
    simp only [List.mem_cons, List.mem_singleton, List.not_mem_nil, or_false] at hop
    rcases hop with h | h | h <;> subst h <;> rfl
  ⟨vec_two_represents, calm_quiet _, hins, by decide,
    reserve_then_insert Env.quiet vec_two [10, 20] 5
      [Op.push_back 30, Op.emplace_back 40, Op.push_back 50] vec_two_represents
      (calm_quiet _) hins (by decide)⟩

/-! ## `clear` and `resize` -/

theorem pop_while_ok (m : Nat) :
    ∀ (fuel : Nat) (s : St T) (xs : List T), Represents s xs → xs.length - m ≤ fuel →
      ∃ s1, pop_while m fuel s = .ok () s1 ∧ Represents s1 (xs.take m) ∧
        s1.self.capacity_ = s.self.capacity_ ∧ s1.self.data_ = s.self.data_ ∧
        s1.world.ctor_calls = s.world.ctor_calls ∧
        s1.world.alloc_calls = s.world.alloc_calls ∧ Frame s s1 := by
  intro fuel
  induction fuel with
  | zero =>
    intro s xs hrep hf
    refine ⟨s, rfl, ?_, rfl, rfl, rfl, rfl, frame_refl s⟩
    rw [List.take_of_length_le (by omega)]
    exact hrep
  | succ fuel ih =>
    intro s xs hrep hf
    have hsz : s.self.size_ = xs.length := hrep.1
    by_cases hgt : s.self.size_ > m
    · rcases List.eq_nil_or_concat xs with h | ⟨ys, y, h⟩
      · subst h; simp at hsz; omega
      · rw [List.concat_eq_append] at h
        subst h
        have hlen : (ys ++ [y]).length = ys.length + 1 := by simp
        obtain ⟨w, hrun, hrep0, hc0, ha0, hfr0⟩ := pop_back_ok s ys y hrep
        obtain ⟨s1, hrun1, hrep1, hcap1, hd1, hc1, ha1, hfr1⟩ := ih _ ys hrep0 (by omega)
        refine ⟨s1, ?_, ?_, by rw [hcap1], by rw [hd1], by rw [hc1, hc0], by rw [ha1, ha0],
          frame_trans _ _ _ hfr0 hfr1⟩
        · simp only [pop_while]
          rw [if_pos hgt, hrun]
          exact hrun1
        · rw [List.take_append_of_le_length (by omega)]
          exact hrep1
    · refine ⟨s, by simp only [pop_while]; rw [if_neg hgt], ?_, rfl, rfl, rfl, rfl,
        frame_refl s⟩
      rw [List.take_of_length_le (by omega)]
      exact hrep

theorem emplace_while_ok (env : Env T) (m : Nat) (x : T) :
    ∀ (fuel : Nat) (s : St T) (xs : List T), Represents s xs → Calm env s.world →
      m ≤ s.self.capacity_ → m - xs.length ≤ fuel →
      ∃ s1, emplace_while env m (.temp x) fuel s = .ok () s1 ∧
        Represents s1 (xs ++ List.replicate (m - xs.length) x) ∧
        s1.self.capacity_ = s.self.capacity_ ∧ s1.self.data_ = s.self.data_ ∧
        Calm env s1.world ∧ Frame s s1 := by
  intro fuel
  induction fuel with
  | zero =>
    intro s xs hrep hcalm _ hf
    have : m - xs.length = 0 := by omega
    exact ⟨s, rfl, by rw [this]; simpa using hrep, rfl, rfl, hcalm, frame_refl s⟩
  | succ fuel ih =>
    intro s xs hrep hcalm hcap hf
    have hsz : s.self.size_ = xs.length := hrep.1
    by_cases hlt : s.self.size_ < m
    · obtain ⟨s0, hrun, hrep0, hcalm0, hfr0, hsz0, _, hroom⟩ :=
        emplace_back_ok env s xs x hrep hcalm
      obtain ⟨hcap0, hd0, _⟩ := hroom (by omega)
      obtain ⟨s1, hrun1, hrep1, hcap1, hd1, hcalm1, hfr1⟩ :=
        ih s0 (xs ++ [x]) hrep0 hcalm0 (by omega) (by simp; omega)
      refine ⟨s1, ?_, ?_, by rw [hcap1, hcap0], by rw [hd1, hd0], hcalm1,
        frame_trans _ _ _ hfr0 hfr1⟩
      · simp only [emplace_while]
        rw [if_pos hlt, hrun]
        exact hrun1
      · have h1 : m - xs.length = (m - (xs ++ [x]).length) + 1 := by simp; omega
        rw [h1, List.replicate_succ]
        simpa using hrep1
    · have : m - xs.length = 0 := by omega
      refine ⟨s, by simp only [emplace_while]; rw [if_neg hlt], ?_, rfl, rfl, hcalm,
        frame_refl s⟩
      rw [this]
      simpa using hrep

theorem resize_value_ok (env : Env T) (s : St T) (xs : List T) (n : Nat) (value : T)
    (hrep : Represents s xs) (hcalm : Calm env s.world) :
    ∃ s1, resize_value env n (.temp value) s = .ok () s1 ∧
      Represents s1 (xs.take n ++ List.replicate (n - xs.length) value) ∧
      s1.self.size_ = n ∧ s1.self.capacity_ = max s.self.capacity_ n ∧
      Calm env s1.world ∧ Frame s s1 := by
  have hsz : s.self.size_ = xs.length := hrep.1
  have hle : s.self.size_ ≤ s.self.capacity_ := hrep.2.1
  obtain ⟨s0, hrun0, hrep0, hcap0, _, hc0, ha0, hfr0⟩ :=
    pop_while_ok n (s.self.size_ - n) s xs hrep (by omega)
  have hcalm0 : Calm env s0.world := calm_mono env s.world s0.world hcalm (by omega) (by omega)
  have hsz0 : s0.self.size_ = min n xs.length := by
    rw [hrep0.1]; simp
  by_cases hlt : s0.self.size_ < n
  · have hlen : xs.length < n := by
      rw [hsz0] at hlt
      omega
    have htake : xs.take n = xs := List.take_of_length_le (by omega)
    rw [htake] at hrep0 ⊢
    obtain ⟨s2, hrun2, hrep2, hcalm2, hsz2, hfr2, hnoop, hgrow⟩ :=
      reserve_frame env s0 xs n hrep0 hcalm0
    have hcap2 : s2.self.capacity_ = max s.self.capacity_ n := by
      by_cases hn : n ≤ s0.self.capacity_
      · rw [hnoop hn, hcap0]; omega
      · rw [hgrow (by omega)]; omega
    obtain ⟨s1, hrun1, hrep1, hcap1, _, hcalm1, hfr1⟩ :=
      emplace_while_ok env n value (n - s2.self.size_) s2 xs hrep2 hcalm2 (by omega)
        (by rw [hrep2.1])
    refine ⟨s1, ?_, hrep1, ?_, by rw [hcap1, hcap2], hcalm1,
      frame_trans _ _ _ hfr0 (frame_trans _ _ _ hfr2 hfr1)⟩
    · simp only [resize_value]
      rw [hrun0]
      simp only
      rw [if_pos hlt, hrun2]
      exact hrun1
    · rw [hrep1.1]; simp; omega
  · have hlen : n ≤ xs.length := by
      rw [hsz0] at hlt
      omega
    have h0 : n - xs.length = 0 := by omega
    refine ⟨s0, ?_, by rw [h0]; simpa using hrep0, by rw [hsz0]; omega,
      by rw [hcap0]; omega, hcalm0, hfr0⟩
    simp only [resize_value]
    rw [hrun0]
    simp only
    rw [if_neg hlt]

theorem resize_eq [Inhabited T] (env : Env T) (n : Nat) (s : St T) :
    resize env n s = resize_value env n (.temp default) s := rfl

theorem resize_lists (xs : List T) (d : T) (n m : Nat) (h : min m xs.length ≤ n) :
    (xs.take n ++ List.replicate (n - xs.length) d).take m ++
        List.replicate (m - (xs.take n ++ List.replicate (n - xs.length) d).length) d =
      xs.take m ++ List.replicate (m - xs.length) d := by
  apply List.ext_getElem?
  intro i
  simp only [List.getElem?_append, List.getElem?_take, List.getElem?_replicate,
    List.length_take, List.length_append, List.length_replicate]
  by_cases hi : i < xs.length
  · split_ifs <;> first | rfl | omega
  · have hnone : xs[i]? = none := List.getElem?_eq_none (by omega)
    rw [hnone]
    split_ifs <;> first | rfl | omega

/-- C8, as amended: on every valid vector holding `xs` and for all `n`, `m` with
`n >= min(m, |xs|)`, when nothing throws, `resize(n)` followed by `resize(m)` and a
single `resize(m)` all return and end with the same element sequence. -/
theorem resize_twice (env : Env T) [Inhabited T] (s : St T) (xs : List T) (n m : Nat)
    (hrep : Represents s xs) (hcalm : Calm env s.world) (hnm : min m xs.length ≤ n) :
    ∃ s1 s2 s3, resize env n s = .ok () s1 ∧ resize env m s1 = .ok () s2 ∧
      resize env m s = .ok () s3 ∧ elements s2 = elements s3 ∧
      ∃ zs, Represents s2 zs ∧ Represents s3 zs := by
  obtain ⟨s1, hrun1, hrep1, _, _, hcalm1, _⟩ := resize_value_ok env s xs n default hrep hcalm
  obtain ⟨s2, hrun2, hrep2, _, _, _, _⟩ := resize_value_ok env s1 _ m default hrep1 hcalm1
  obtain ⟨s3, hrun3, hrep3, _, _, _, _⟩ := resize_value_ok env s xs m default hrep hcalm
  rw [resize_lists xs default n m hnm] at hrep2
  refine ⟨s1, s2, s3, hrun1, hrun2, hrun3, ?_, _, hrep2, hrep3⟩
  rw [represents_elements s2 _ hrep2, represents_elements s3 _ hrep3]

/-- C8 (amended) at `{10, 20}`, `n = 3`, `m = 1`. -/
theorem resize_twice_witness :
    Represents vec_two [10, 20] ∧ Calm Env.quiet vec_two.world ∧ min 1 [10, 20].length ≤ 3 ∧
    ∃ s1 s2 s3, resize Env.quiet 3 vec_two = .ok () s1 ∧ resize Env.quiet 1 s1 = .ok () s2 ∧
      resize Env.quiet 1 vec_two = .ok () s3 ∧ elements s2 = elements s3 ∧
      ∃ zs, Represents s2 zs ∧ Represents s3 zs :=
  ⟨vec_two_represents, calm_quiet _, by decide,
    resize_twice Env.quiet vec_two [10, 20] 3 1 vec_two_represents (calm_quiet _) (by decide)⟩

/-- C8 as stated fails: on `{10, 20}`, `resize(1)` then `resize(2)` ends with
`{10, 0}`, while a single `resize(2)` leaves `{10, 20}`. -/
theorem resize_twice_fails :
    ∃ s1 s2 s3, resize Env.quiet 1 vec_two = .ok () s1 ∧ resize Env.quiet 2 s1 = .ok () s2 ∧
      resize Env.quiet 2 vec_two = .ok () s3 ∧
      elements s2 = [some 10, some 0] ∧ elements s3 = [some 10, some 20] ∧
      elements s2 ≠ elements s3 :=
  ⟨_, _, _, rfl, rfl, rfl, by decide, by decide, by decide⟩

/-! ## Move construction and move assignment -/

theorem represents_frame (w w1 : World T) (v : vector) (xs : List T)
    (h : Represents ⟨w, v⟩ xs) (hsame : ∀ p, v.data_ = some p → w1.heap[p]? = w.heap[p]?) :
    Represents ⟨w1, v⟩ xs := by
  obtain ⟨h1, h2, h3⟩ := h
  refine ⟨h1, h2, ?_⟩
  simp only at h3 ⊢
  cases hd : v.data_ with
  | none => rw [hd] at h3; exact h3
  | some p =>
    rw [hd] at h3
    simp only at h3 ⊢
    rw [hsame p hd]
    exact h3

theorem represents_empty (w : World T) : Represents ⟨w, vector.empty⟩ ([] : List T) :=
  ⟨rfl, Nat.le_refl _, rfl⟩

/-- C9: when a vector `z` (at address `this`) is move-constructed from a valid
vector `x` (at address `other`) holding `xs`, the heap is untouched, `z` has the
capacity, size and storage `x` had, so it holds `xs`, and `x` is a valid vector
with size 0, capacity 0 and no storage, which `operator==` finds equal to an empty
vector. -/
theorem move_construct_spec [DecidableEq T] (st : Store T) (this other : Nat) (xs : List T)
    (hne : this ≠ other) (hrep : Represents ⟨st.world, st.objs other⟩ xs) :
    (move_construct this other st).world = st.world ∧
    (move_construct this other st).objs this = st.objs other ∧
    Represents ⟨(move_construct this other st).world,
      (move_construct this other st).objs this⟩ xs ∧
    ((move_construct this other st).objs other).size_ = 0 ∧
    ((move_construct this other st).objs other).capacity_ = 0 ∧
    Represents ⟨(move_construct this other st).world,
      (move_construct this other st).objs other⟩ [] ∧
    operator_eq (move_construct this other st).world
      ((move_construct this other st).objs other) vector.empty = some true := by
  have hthis : (move_construct this other st).objs this = st.objs other := by
    simp [move_construct, Function.update_noteq hne]
  have hother : (move_construct this other st).objs other = vector.empty := by
    simp [move_construct, vector.empty]
  refine ⟨rfl, hthis, ?_, ?_, ?_, ?_, ?_⟩
  · rw [hthis]; exact hrep
  · rw [hother]; rfl
  · rw [hother]; rfl
  · rw [hother]; exact represents_empty _
  · rw [hother]; rfl

theorem store_pair_second : Represents ⟨store_pair.world, store_pair.objs 1⟩ [2, 3] :=
  ⟨rfl, by decide, ⟨_, rfl, rfl, rfl⟩⟩

theorem store_pair_first : Represents ⟨store_pair.world, store_pair.objs 0⟩ [1] :=
  ⟨rfl, by decide, ⟨_, rfl, rfl, rfl⟩⟩

/-- C9 with a new vector at address 2 built from the vector `{2, 3}` at address 1. -/
theorem move_construct_spec_witness :
    2 ≠ 1 ∧ Represents ⟨store_pair.world, store_pair.objs 1⟩ [2, 3] ∧
    (move_construct 2 1 store_pair).world = store_pair.world ∧
    (move_construct 2 1 store_pair).objs 2 = store_pair.objs 1 ∧
    Represents ⟨(move_construct 2 1 store_pair).world,
      (move_construct 2 1 store_pair).objs 2⟩ [2, 3] ∧
    ((move_construct 2 1 store_pair).objs 1).size_ = 0 ∧
    ((move_construct 2 1 store_pair).objs 1).capacity_ = 0 ∧
    Represents ⟨(move_construct 2 1 store_pair).world,
      (move_construct 2 1 store_pair).objs 1⟩ [] ∧
    operator_eq (move_construct 2 1 store_pair).world
      ((move_construct 2 1 store_pair).objs 1) vector.empty = some true :=
  ⟨by decide, store_pair_second,
    move_construct_spec store_pair 2 1 [2, 3] (by decide) store_pair_second⟩

theorem clear_ok (s : St T) (xs : List T) (hrep : Represents s xs) :
    ∃ s1, clear s = .ok () s1 ∧ Represents s1 [] ∧ s1.self.size_ = 0 ∧
      s1.self.capacity_ = s.self.capacity_ ∧ s1.self.data_ = s.self.data_ ∧
      s1.world.ctor_calls = s.world.ctor_calls ∧
      s1.world.alloc_calls = s.world.alloc_calls ∧ Frame s s1 := by
  obtain ⟨s1, hrun, hrep1, hcap, hd, hc, ha, hfr⟩ :=
    pop_while_ok 0 s.self.size_ s xs hrep (by rw [hrep.1]; omega)
  rw [List.take_zero] at hrep1
  exact ⟨s1, hrun, hrep1, by simpa using hrep1.1, hcap, hd, hc, ha, hfr⟩

theorem move_assign_ok (st : Store T) (this other : Nat) (ys zs : List T)
    (hne : this ≠ other)
    (hy : Represents ⟨st.world, st.objs this⟩ ys)
    (hz : Represents ⟨st.world, st.objs other⟩ zs)
    (hsep : ∀ p, (st.objs this).data_ = some p → (st.objs other).data_ ≠ some p) :
    ∃ st1, move_assign this other st = .ok () st1 ∧
      st1.objs this = st.objs other ∧ Represents ⟨st1.world, st1.objs this⟩ zs ∧
      Represents ⟨st1.world, st1.objs other⟩ [] ∧
      (st1.objs other).size_ = 0 ∧
      (st1.objs other).capacity_ = (st.objs this).capacity_ ∧
      (st1.objs other).data_ = (st.objs this).data_ := by
  have hswap : (swap this other st).objs other = st.objs this := by
    simp [swap]
  have hswap2 : (swap this other st).objs this = st.objs other := by
    simp [swap, Function.update_noteq hne]
  obtain ⟨s1, hrun, hrep1, hsz1, hcap1, hd1, _, _, hfr⟩ :=
    clear_ok ⟨st.world, st.objs this⟩ ys hy
  refine ⟨⟨s1.world, Function.update (swap this other st).objs other s1.self⟩, ?_, ?_, ?_,
    ?_, ?_, ?_, ?_⟩
  · have hst : (⟨(swap this other st).world, (swap this other st).objs other⟩ : St T) =
        ⟨st.world, st.objs this⟩ := by
      rw [hswap]; rfl
    simp only [move_assign, if_pos hne, Store.call]
    rw [hst, hrun]
  · simp only
    rw [Function.update_noteq hne, hswap2]
  · simp only
    rw [Function.update_noteq hne, hswap2]
    apply represents_frame st.world s1.world _ zs hz
    intro p hp
    obtain ⟨hreg, hpl⟩ := represents_data ⟨st.world, st.objs other⟩ zs p hz hp
    apply hfr.2.1 p _ hpl
    intro hc
    exact hsep p hc.symm hp
  · simp only
    rw [Function.update_same]
    exact hrep1
  · simp only
    rw [Function.update_same]
    exact hsz1
  · simp only
    rw [Function.update_same]
    exact hcap1
  · simp only
    rw [Function.update_same]
    exact hd1

/-- C10, as amended: for vectors `y` (at `this`) and `z` (at `other`), distinct
objects with separate storage, holding `ys` and `zs`, the move assignment
`y = std::move(z)` returns; afterwards `y` has the capacity, size and storage `z`
had, so it holds `zs`, and `z` is a valid vector of size 0 that has taken over the
storage of `y`: its capacity is the capacity `y` had before. -/
theorem move_assign_spec (st : Store T) (this other : Nat) (ys zs : List T)
    (hne : this ≠ other)
    (hy : Represents ⟨st.world, st.objs this⟩ ys)
    (hz : Represents ⟨st.world, st.objs other⟩ zs)
    (hsep : ∀ p, (st.objs this).data_ = some p → (st.objs other).data_ ≠ some p) :
    ∃ st1, move_assign this other st = .ok () st1 ∧
      st1.objs this = st.objs other ∧ Represents ⟨st1.world, st1.objs this⟩ zs ∧
      Represents ⟨st1.world, st1.objs other⟩ [] ∧
      (st1.objs other).size_ = 0 ∧
      (st1.objs other).capacity_ = (st.objs this).capacity_ ∧
      (st1.objs other).data_ = (st.objs this).data_ :=
  move_assign_ok st this other ys zs hne hy hz hsep

/-- C10 (amended) with `y = {1}` at address 0 and `z = {2, 3}` at address 1. -/
theorem move_assign_spec_witness :
    ∃ st1, move_assign 0 1 store_pair = .ok () st1 ∧
      st1.objs 0 = store_pair.objs 1 ∧ Represents ⟨st1.world, st1.objs 0⟩ [2, 3] ∧
      Represents ⟨st1.world, st1.objs 1⟩ [] ∧
      (st1.objs 1).size_ = 0 ∧
      (st1.objs 1).capacity_ = (store_pair.objs 0).capacity_ ∧
      (st1.objs 1).data_ = (store_pair.objs 0).data_ :=
  move_assign_spec store_pair 0 1 [1] [2, 3] (by decide) store_pair_first store_pair_second
    (by intro p hp; cases hp; decide)

/-- C10 as stated fails: after `y = std::move(z)` with `y = {1}` of capacity 1 and
`z = {2, 3}`, the moved-from `z` has size 0 but capacity 1, and owns the former
storage of `y`. -/
theorem move_assign_keeps_capacity :
    0 ≠ 1 ∧ Represents ⟨store_pair.world, store_pair.objs 0⟩ [1] ∧
    Represents ⟨store_pair.world, store_pair.objs 1⟩ [2, 3] ∧
    ∃ st1, move_assign 0 1 store_pair = .ok () st1 ∧
      st1.objs 1 = ⟨1, 0, some 0⟩ ∧ (st1.objs 1).capacity_ ≠ 0 :=
  ⟨by decide, ⟨rfl, by decide, ⟨_, rfl, rfl, rfl⟩⟩, ⟨rfl, by decide, ⟨_, rfl, rfl, rfl⟩⟩,
    ⟨_, rfl, rfl, by decide⟩⟩

/-! ## The checked accessor `at` -/

/-- C16: on every valid vector holding `xs` and for every index `i`: if `i < size`
then `at(i)` returns the slot `data_[i]`, which holds element `i` of `xs`; if
`i >= size` it throws `std::out_of_range`; it throws only if `i >= size`, and only
that kind of exception; whether it returns or throws, the state it leaves is the
state it was called in. -/
theorem vector_at_spec (s : St T) (xs : List T) (i : Nat) (hrep : Represents s xs) :
    (i < s.self.size_ →
      vector_at i s = .ok (s.self.data_, i) s ∧
      ∃ x, xs[i]? = some x ∧ read s.self.data_ i s.world = some x) ∧
    (s.self.size_ ≤ i → ∃ what, vector_at i s = .throw (.out_of_range what) s) ∧
    (∀ e s1, vector_at i s = .throw e s1 →
      s.self.size_ ≤ i ∧ s1 = s ∧ ∃ what, e = .out_of_range what) ∧
    (∀ ref s1, vector_at i s = .ok ref s1 → i < s.self.size_ ∧ s1 = s) := by
  have hsz : s.self.size_ = xs.length := hrep.1
  refine ⟨?_, ?_, ?_, ?_⟩
  · intro hi
    have hb : i < xs.length := by omega
    refine ⟨by simp [vector_at, hi], xs[i], List.getElem?_eq_getElem hb, ?_⟩
    rw [represents_read s xs i hrep hb]
    exact List.getElem?_eq_getElem hb
  · intro hi
    exact ⟨"vector out of range", by simp [vector_at, hi]⟩
  · intro e s1 h
    unfold vector_at at h
    by_cases hi : i ≥ s.self.size_
    · rw [if_pos hi] at h
      simp only [Outcome.throw.injEq] at h
      exact ⟨hi, h.2.symm, _, h.1.symm⟩
    · rw [if_neg hi] at h
      cases h
  · intro ref s1 h
    unfold vector_at at h
    by_cases hi : i ≥ s.self.size_
    · rw [if_pos hi] at h
      cases h
    · rw [if_neg hi] at h
      simp only [Outcome.ok.injEq] at h
      exact ⟨by omega, h.2.symm⟩

/-- C16 at `{10, 20}` and index 1. -/
theorem vector_at_spec_witness :
    Represents vec_two [10, 20] ∧
    (1 < vec_two.self.size_ →
      vector_at 1 vec_two = .ok (vec_two.self.data_, 1) vec_two ∧
      ∃ x, [10, 20][1]? = some x ∧ read vec_two.self.data_ 1 vec_two.world = some x) ∧
    (vec_two.self.size_ ≤ 1 → ∃ what, vector_at 1 vec_two = .throw (.out_of_range what) vec_two) ∧
    (∀ e s1, vector_at 1 vec_two = .throw e s1 →
      vec_two.self.size_ ≤ 1 ∧ s1 = vec_two ∧ ∃ what, e = .out_of_range what) ∧
    (∀ ref s1, vector_at 1 vec_two = .ok ref s1 → 1 < vec_two.self.size_ ∧ s1 = vec_two) :=
  ⟨vec_two_represents, vector_at_spec vec_two [10, 20] 1 vec_two_represents⟩

/-- C17, as amended: for every vector and every index `i >= size`, the error thrown
by `at(i)` is a `std::out_of_range` whose message is the fixed text
`vector out of range`, the same for every invalid index. -/
theorem vector_at_error (s : St T) (i : Nat) (hi : s.self.size_ ≤ i) :
    vector_at i s = .throw (.out_of_range "vector out of range") s := by
  simp [vector_at, hi]

/-- C17 (amended) at `{10, 20}` and index 5. -/
theorem vector_at_error_witness :
    vec_two.self.size_ ≤ 5 ∧
    vector_at 5 vec_two = .throw (.out_of_range "vector out of range") vec_two :=
  ⟨by decide, vector_at_error vec_two 5 (by decide)⟩

/-- C17 as stated fails: on `{10, 20}` the calls `at(5)` and `at(7)` throw one and
the same error, so no reading of the error gives back the invalid index. -/
theorem vector_at_error_has_no_index :
    vector_at 5 vec_two = .throw (.out_of_range "vector out of range") vec_two ∧
    vector_at 7 vec_two = .throw (.out_of_range "vector out of range") vec_two ∧
    ¬ ∃ index_of : Exn → Nat, ∀ i e s1, vec_two.self.size_ ≤ i →
      vector_at i vec_two = .throw e s1 → index_of e = i := by
  refine ⟨rfl, rfl, ?_⟩
  rintro ⟨f, hf⟩
  have h5 := hf 5 (.out_of_range "vector out of range") vec_two (by decide) rfl
  have h7 := hf 7 (.out_of_range "vector out of range") vec_two (by decide) rfl
  omega

/-! ## `shrink_to_fit` -/

theorem shrink_to_fit_ok (env : Env T) (s : St T) (xs : List T)
    (hrep : Represents s xs) (hcalm : Calm env s.world) :
    ∃ s1, shrink_to_fit env s = .ok () s1 ∧ Represents s1 xs ∧ Calm env s1.world ∧
      Frame s s1 ∧ s1.self.size_ = s.self.size_ ∧ s1.self.capacity_ = s1.self.size_ ∧
      (s.self.size_ = s.self.capacity_ → s1 = s) := by
  have hsz : s.self.size_ = xs.length := hrep.1
  have hle : s.self.size_ ≤ s.self.capacity_ := hrep.2.1
  by_cases hlt : s.self.size_ < s.self.capacity_
  · obtain ⟨w, hrun, hrep1, hc1, ha1, hl1, hf1⟩ := reserve_impl_ok env s xs s.self.size_ hrep
      (by omega) (hcalm.2 _ (Nat.le_refl _) _) (fun j _ => hcalm.1 _ (by omega))
    refine ⟨_, by simp only [shrink_to_fit, if_pos hlt]; exact hrun, hrep1, ?_, ?_, rfl, rfl,
      fun h => by omega⟩
    · exact calm_mono env s.world w hcalm (by simp [hc1]) (by simp [ha1])
    · exact ⟨by simp [hl1], hf1, Or.inr ⟨_, rfl, Nat.le_refl _⟩⟩
  · exact ⟨s, by simp only [shrink_to_fit, if_neg hlt], hrep, hcalm, frame_refl s, rfl,
      by omega, fun _ => rfl⟩

/-- C12: on every valid vector holding `xs`, when nothing throws, `shrink_to_fit()`
returns with the element sequence and the size unchanged and with the capacity equal
to the size, hence 0 for an empty vector; if size and capacity were equal before the
call, the state is unchanged. -/
theorem shrink_to_fit_spec (env : Env T) (s : St T) (xs : List T)
    (hrep : Represents s xs) (hcalm : Calm env s.world) :
    ∃ s1, shrink_to_fit env s = .ok () s1 ∧ Represents s1 xs ∧ elements s1 = elements s ∧
      s1.self.size_ = s.self.size_ ∧ s1.self.capacity_ = s1.self.size_ ∧
      (xs = [] → s1.self.capacity_ = 0) ∧
      (s.self.size_ = s.self.capacity_ → s1 = s) := by
  obtain ⟨s1, hrun, hrep1, _, _, hsz, hcap, hsame⟩ := shrink_to_fit_ok env s xs hrep hcalm
  refine ⟨s1, hrun, hrep1, ?_, hsz, hcap, ?_, hsame⟩
  · rw [represents_elements s1 xs hrep1, represents_elements s xs hrep]
  · intro hx
    rw [hcap, hrep1.1, hx]
    rfl

theorem vec_slack_represents : Represents vec_slack [10, 20] :=
  ⟨rfl, by decide, ⟨_, rfl, rfl, rfl⟩⟩

/-- C12 at the vector `{10, 20}` of capacity 4; and, evaluated, the scenario that
starts empty, inserts `1, 2, 3, 4, 5`, removes the last element and shrinks
(capacity 4, elements `1, 2, 3, 4`), then assigns three copies of 7. -/
theorem shrink_to_fit_spec_witness :
    (Represents vec_slack [10, 20] ∧ Calm Env.quiet vec_slack.world ∧
    ∃ s1, shrink_to_fit Env.quiet vec_slack = .ok () s1 ∧ Represents s1 [10, 20] ∧
      elements s1 = elements vec_slack ∧
      s1.self.size_ = vec_slack.self.size_ ∧ s1.self.capacity_ = s1.self.size_ ∧
      (([10, 20] : List Nat) = [] → s1.self.capacity_ = 0) ∧
      (vec_slack.self.size_ = vec_slack.self.capacity_ → s1 = vec_slack)) ∧
    (∃ s1 s2,
      run_mutations Env.quiet
          [.emplace_back 1, .emplace_back 2, .emplace_back 3, .emplace_back 4,
            .emplace_back 5, .pop_back, .shrink_to_fit]
          ⟨(⟨[], 0, 0⟩ : World Nat), vector.empty⟩ = .ok () s1 ∧
      elements s1 = [some 1, some 2, some 3, some 4] ∧ s1.self.size_ = 4 ∧
      s1.self.capacity_ = 4 ∧
      assign_count Env.quiet 3 (.temp 7) s1 = .ok () s2 ∧
      elements s2 = [some 7, some 7, some 7] ∧ s2.self.size_ = 3) :=
  ⟨⟨vec_slack_represents, calm_quiet _,
    shrink_to_fit_spec Env.quiet vec_slack [10, 20] vec_slack_represents (calm_quiet _)⟩,
    ⟨_, _, rfl, by decide, rfl, rfl, rfl, by decide, rfl⟩⟩

/-! ## Equality and ordering -/

theorem operator_eq_loop_spec [DecidableEq T] (w : World T) (a b : vector) (xs ys : List T)
    (ha : Represents ⟨w, a⟩ xs) (hb : Represents ⟨w, b⟩ ys) (hlen : xs.length = ys.length) :
    ∀ fuel i, xs.length - i ≤ fuel →
      ∃ r, operator_eq_loop w a b fuel i = some r ∧
        (r = true ↔ ∀ j, i ≤ j → j < xs.length → xs[j]? = ys[j]?) := by
  have hsa : a.size_ = xs.length := ha.1
  intro fuel
  induction fuel with
  | zero =>
    intro i hf
    exact ⟨true, rfl, by simp; intro j h1 h2; omega⟩
  | succ fuel ih =>
    intro i hf
    by_cases hi : i < xs.length
    · have hi2 : i < ys.length := by omega
      have hra : read a.data_ i w = some xs[i] := by
        rw [represents_read ⟨w, a⟩ xs i ha hi]; exact List.getElem?_eq_getElem hi
      have hrb : read b.data_ i w = some ys[i] := by
        rw [represents_read ⟨w, b⟩ ys i hb hi2]; exact List.getElem?_eq_getElem hi2
      simp only [operator_eq_loop, hsa, if_pos hi, hra, hrb]
      by_cases hne : xs[i] ≠ ys[i]
      · refine ⟨false, by rw [if_pos hne], ?_⟩
        constructor
        · intro h; cases h
        · intro h
          have := h i (Nat.le_refl _) hi
          rw [List.getElem?_eq_getElem hi, List.getElem?_eq_getElem hi2] at this
          exact absurd (Option.some.inj this) hne
      · obtain ⟨r, hr, hiff⟩ := ih (i + 1) (by omega)
        refine ⟨r, by rw [if_neg hne]; exact hr, ?_⟩
        rw [hiff]
        constructor
        · intro h j hj hjl
          by_cases hji : j = i
          · subst hji
            rw [List.getElem?_eq_getElem hi, List.getElem?_eq_getElem hi2]
            congr 1
            exact not_not.mp hne
          · exact h j (by omega) hjl
        · intro h j hj hjl
          exact h j (by omega) hjl
    · refine ⟨true, by simp only [operator_eq_loop, hsa, if_neg hi], ?_⟩
      simp only [true_iff]
      intro j h1 h2
      omega

theorem operator_eq_ok [DecidableEq T] (w : World T) (a b : vector) (xs ys : List T)
    (ha : Represents ⟨w, a⟩ xs) (hb : Represents ⟨w, b⟩ ys) :
    ∃ r, operator_eq w a b = some r ∧
      (r = true ↔ (a.size_ = b.size_ ∧
        ∀ i, i < a.size_ → read a.data_ i w = read b.data_ i w)) ∧
      (r = true ↔ xs = ys) := by
  have hsa : a.size_ = xs.length := ha.1
  have hsb : b.size_ = ys.length := hb.1
  have hreads : ∀ i, i < xs.length → i < ys.length →
      (read a.data_ i w = read b.data_ i w ↔ xs[i]? = ys[i]?) := by
    intro i h1 h2
    rw [represents_read ⟨w, a⟩ xs i ha h1, represents_read ⟨w, b⟩ ys i hb h2]
  by_cases hlen : xs.length = ys.length
  · obtain ⟨r, hr, hiff⟩ := operator_eq_loop_spec w a b xs ys ha hb hlen xs.length 0 (by omega)
    have hall : (∀ j, 0 ≤ j → j < xs.length → xs[j]? = ys[j]?) ↔ xs = ys := by
      constructor
      · intro h
        apply List.ext_getElem?
        intro j
        by_cases hj : j < xs.length
        · exact h j (Nat.zero_le _) hj
        · rw [List.getElem?_eq_none (by omega), List.getElem?_eq_none (by omega)]
      · intro h j _ _
        rw [h]
    refine ⟨r, ?_, ?_, ?_⟩
    · simp only [operator_eq, hsa, hsb, hlen, ne_eq, not_true_eq_false, if_false]
      rw [← hlen]
      exact hr
    · rw [hiff, hsa, hsb]
      constructor
      · intro h
        exact ⟨hlen, fun i hi => (hreads i hi (by omega)).mpr (h i (Nat.zero_le _) hi)⟩
      · intro h j _ hj
        exact (hreads j hj (by omega)).mp (h.2 j hj)
    · rw [hiff, hall]
  · refine ⟨false, ?_, ?_, ?_⟩
    · simp [operator_eq, hsa, hsb, hlen]
    · rw [hsa, hsb]
      constructor
      · intro h; cases h
      · intro h; exact absurd h.1 hlen
    · constructor
      · intro h; cases h
      · intro h; rw [h] at hlen; exact absurd rfl hlen

/-- C15: for all valid vectors `a` and `b` in one heap, `a == b` returns a value, and
that value is `true` if and only if the sizes are equal and `a[i]` equals `b[i]` for
every `i < size(a)`; the capacities do not occur in the condition. -/
theorem operator_eq_spec [DecidableEq T] (w : World T) (a b : vector) (xs ys : List T)
    (ha : Represents ⟨w, a⟩ xs) (hb : Represents ⟨w, b⟩ ys) :
    ∃ r, operator_eq w a b = some r ∧
      (r = true ↔ (a.size_ = b.size_ ∧
        ∀ i, i < a.size_ → read a.data_ i w = read b.data_ i w)) ∧
      (r = true ↔ xs = ys) :=
  operator_eq_ok w a b xs ys ha hb

/-- C15 at the vectors `{1}` and `{2, 3}` of `store_pair`. -/
theorem operator_eq_spec_witness :
    Represents ⟨store_pair.world, store_pair.objs 0⟩ [1] ∧
    Represents ⟨store_pair.world, store_pair.objs 1⟩ [2, 3] ∧
    ∃ r, operator_eq store_pair.world (store_pair.objs 0) (store_pair.objs 1) = some r ∧
      (r = true ↔ ((store_pair.objs 0).size_ = (store_pair.objs 1).size_ ∧
        ∀ i, i < (store_pair.objs 0).size_ →
          read (store_pair.objs 0).data_ i store_pair.world =
            read (store_pair.objs 1).data_ i store_pair.world)) ∧
      (r = true ↔ ([1] : List Nat) = [2, 3]) :=
  ⟨store_pair_first, store_pair_second,
    operator_eq_spec store_pair.world (store_pair.objs 0) (store_pair.objs 1) [1] [2, 3]
      store_pair_first store_pair_second⟩

theorem operator_cmp_loop_spec [LinearOrder T] (w : World T) (a b : vector) (xs ys : List T)
    (ha : Represents ⟨w, a⟩ xs) (hb : Represents ⟨w, b⟩ ys) :
    ∀ fuel i, min xs.length ys.length - i ≤ fuel →
      ∃ r, operator_cmp_loop w a b fuel i = some r ∧
        ((∃ k x y, i ≤ k ∧ k < min xs.length ys.length ∧ xs[k]? = some x ∧ ys[k]? = some y ∧
            x ≠ y ∧ (∀ j, i ≤ j → j < k → xs[j]? = ys[j]?) ∧ r = compare x y) ∨
          ((∀ j, i ≤ j → j < min xs.length ys.length → xs[j]? = ys[j]?) ∧
            r = compare xs.length ys.length)) := by
  have hsa : a.size_ = xs.length := ha.1
  have hsb : b.size_ = ys.length := hb.1
  intro fuel
  induction fuel with
  | zero =>
    intro i hf
    refine ⟨compare xs.length ys.length, by simp [operator_cmp_loop, hsa, hsb], Or.inr ⟨?_, rfl⟩⟩
    intro j h1 h2
    omega
  | succ fuel ih =>
    intro i hf
    by_cases hi : i < xs.length ∧ i < ys.length
    · obtain ⟨hi1, hi2⟩ := hi
      have hra : read a.data_ i w = some xs[i] := by
        rw [represents_read ⟨w, a⟩ xs i ha hi1]; exact List.getElem?_eq_getElem hi1
      have hrb : read b.data_ i w = some ys[i] := by
        rw [represents_read ⟨w, b⟩ ys i hb hi2]; exact List.getElem?_eq_getElem hi2
      simp only [operator_cmp_loop, hsa, hsb, hi1, hi2, and_self, if_true, hra, hrb]
      by_cases hne : compare xs[i] ys[i] ≠ Ordering.eq
      · refine ⟨compare xs[i] ys[i], by rw [if_pos hne], Or.inl ⟨i, xs[i], ys[i], Nat.le_refl _,
          by omega, List.getElem?_eq_getElem hi1, List.getElem?_eq_getElem hi2, ?_, ?_, rfl⟩⟩
        · intro h
          exact hne (compare_eq_iff_eq.mpr h)
        · intro j h1 h2
          omega
      · have heq : xs[i] = ys[i] := compare_eq_iff_eq.mp (not_not.mp hne)
        have hopt : xs[i]? = ys[i]? := by
          rw [List.getElem?_eq_getElem hi1, List.getElem?_eq_getElem hi2, heq]
        obtain ⟨r, hr, hcase⟩ := ih (i + 1) (by omega)
        refine ⟨r, by rw [if_neg hne]; exact hr, ?_⟩
        rcases hcase with ⟨k, x, y, hk1, hk2, hx, hy, hxy, hbefore, hres⟩ | ⟨hall, hres⟩
        · refine Or.inl ⟨k, x, y, by omega, hk2, hx, hy, hxy, ?_, hres⟩
          intro j h1 h2
          by_cases hji : j = i
          · rw [hji]; exact hopt
          · exact hbefore j (by omega) h2
        · refine Or.inr ⟨?_, hres⟩
          intro j h1 h2
          by_cases hji : j = i
          · rw [hji]; exact hopt
          · exact hall j (by omega) h2
    · refine ⟨compare xs.length ys.length,
        by simp only [operator_cmp_loop, hsa, hsb, if_neg hi], Or.inr ⟨?_, rfl⟩⟩
      intro j h1 h2
      have : ¬ (i < xs.length ∧ i < ys.length) := hi
      omega

theorem operator_cmp_ok [LinearOrder T] (w : World T) (a b : vector) (xs ys : List T)
    (ha : Represents ⟨w, a⟩ xs) (hb : Represents ⟨w, b⟩ ys) :
    ∃ r, operator_cmp w a b = some r ∧
      ((∃ i x y, i < min a.size_ b.size_ ∧ xs[i]? = some x ∧ ys[i]? = some y ∧ x ≠ y ∧
          (∀ j, j < i → xs[j]? = ys[j]?) ∧ r = compare x y) ∨
        ((∀ j, j < min a.size_ b.size_ → xs[j]? = ys[j]?) ∧ r = compare a.size_ b.size_)) := by
  have hsa : a.size_ = xs.length := ha.1
  have hsb : b.size_ = ys.length := hb.1
  obtain ⟨r, hr, hcase⟩ :=
    operator_cmp_loop_spec w a b xs ys ha hb (min xs.length ys.length) 0 (by omega)
  refine ⟨r, by simp only [operator_cmp, hsa, hsb]; exact hr, ?_⟩
  rw [hsa, hsb]
  rcases hcase with ⟨k, x, y, _, hk2, hx, hy, hxy, hbefore, hres⟩ | ⟨hall, hres⟩
  · exact Or.inl ⟨k, x, y, hk2, hx, hy, hxy, fun j hj => hbefore j (Nat.zero_le _) hj, hres⟩
  · exact Or.inr ⟨fun j hj => hall j (Nat.zero_le _) hj, hres⟩

/-- C14: for all valid vectors `a` and `b` in one heap, over a linearly ordered
element type, `a <=> b` returns a value `r`: either there is a first index
`i < min(size(a), size(b))` at which the elements differ and `r` is their
comparison, or the elements agree at every common index and `r` is
`size(a) <=> size(b)`.  Hence equal sequences compare `equal`, and a strict prefix
compares `less` than the longer vector (which compares `greater`). -/
theorem operator_cmp_spec [LinearOrder T] (w : World T) (a b : vector) (xs ys : List T)
    (ha : Represents ⟨w, a⟩ xs) (hb : Represents ⟨w, b⟩ ys) :
    ∃ r, operator_cmp w a b = some r ∧
      ((∃ i x y, i < min a.size_ b.size_ ∧ xs[i]? = some x ∧ ys[i]? = some y ∧ x ≠ y ∧
          (∀ j, j < i → xs[j]? = ys[j]?) ∧ r = compare x y) ∨
        ((∀ j, j < min a.size_ b.size_ → xs[j]? = ys[j]?) ∧ r = compare a.size_ b.size_)) ∧
      (xs = ys → r = .eq) ∧
      ((∃ zs, zs ≠ [] ∧ ys = xs ++ zs) → r = .lt) ∧
      ((∃ zs, zs ≠ [] ∧ xs = ys ++ zs) → r = .gt) := by
  have hsa : a.size_ = xs.length := ha.1
  have hsb : b.size_ = ys.length := hb.1
  obtain ⟨r, hr, hcase⟩ := operator_cmp_ok w a b xs ys ha hb
  -- when the sequences agree on the common indices, the sizes decide
  have hsizes : (∀ j, j < min a.size_ b.size_ → xs[j]? = ys[j]?) →
      r = compare a.size_ b.size_ := by
    intro hagree
    rcases hcase with ⟨i, x, y, hi, hx, hy, hxy, _, _⟩ | ⟨_, hres⟩
    · have := hagree i hi
      rw [hx, hy] at this
      exact absurd (Option.some.inj this) hxy
    · exact hres
  refine ⟨r, hr, hcase, ?_, ?_, ?_⟩
  · intro h
    rw [hsizes (fun j _ => by rw [h]), hsa, hsb, h]
    exact compare_eq_iff_eq.mpr rfl
  · rintro ⟨zs, hzs, rfl⟩
    have hpos : 0 < zs.length := List.length_pos.mpr hzs
    rw [hsizes (fun j hj => by
      rw [hsa, hsb] at hj
      rw [List.getElem?_append_left (by simp at hj; omega)]), hsa, hsb]
    exact compare_lt_iff_lt.mpr (by simp; omega)
  · rintro ⟨zs, hzs, rfl⟩
    have hpos : 0 < zs.length := List.length_pos.mpr hzs
    rw [hsizes (fun j hj => by
      rw [hsa, hsb] at hj
      rw [List.getElem?_append_left (by simp at hj; omega)]), hsa, hsb]
    exact compare_gt_iff_gt.mpr (by simp; omega)

theorem world_cmp_represents :
    Represents ⟨world_cmp, ⟨3, 3, some 0⟩⟩ [1, 2, 3] ∧
    Represents ⟨world_cmp, ⟨3, 3, some 1⟩⟩ [1, 2, 4] ∧
    Represents ⟨world_cmp, ⟨2, 2, some 2⟩⟩ [1, 2] :=
  ⟨⟨rfl, by decide, ⟨_, rfl, rfl, rfl⟩⟩, ⟨rfl, by decide, ⟨_, rfl, rfl, rfl⟩⟩,
    ⟨rfl, by decide, ⟨_, rfl, rfl, rfl⟩⟩⟩

/-- C14 at `{1, 2, 3}` and `{1, 2, 4}`, with the three examples of the claim
evaluated: `{1,2,3} < {1,2,4}`, `{1,2} < {1,2,3}`, `{1,2,3} == {1,2,3}`. -/
theorem operator_cmp_spec_witness :
    (∃ r, operator_cmp world_cmp ⟨3, 3, some 0⟩ ⟨3, 3, some 1⟩ = some r ∧
      ((∃ i x y, i < min 3 3 ∧ [1, 2, 3][i]? = some x ∧ [1, 2, 4][i]? = some y ∧ x ≠ y ∧
          (∀ j, j < i → [1, 2, 3][j]? = [1, 2, 4][j]?) ∧ r = compare x y) ∨
        ((∀ j, j < min 3 3 → [1, 2, 3][j]? = [1, 2, 4][j]?) ∧ r = compare 3 3)) ∧
      (([1, 2, 3] : List Nat) = [1, 2, 4] → r = .eq) ∧
      ((∃ zs, zs ≠ [] ∧ ([1, 2, 4] : List Nat) = [1, 2, 3] ++ zs) → r = .lt) ∧
      ((∃ zs, zs ≠ [] ∧ ([1, 2, 3] : List Nat) = [1, 2, 4] ++ zs) → r = .gt)) ∧
    operator_cmp world_cmp ⟨3, 3, some 0⟩ ⟨3, 3, some 1⟩ = some .lt ∧
    operator_cmp world_cmp ⟨2, 2, some 2⟩ ⟨3, 3, some 0⟩ = some .lt ∧
    operator_cmp world_cmp ⟨3, 3, some 0⟩ ⟨3, 3, some 0⟩ = some .eq ∧
    operator_eq world_cmp ⟨3, 3, some 0⟩ ⟨3, 3, some 0⟩ = some true :=
  ⟨operator_cmp_spec world_cmp ⟨3, 3, some 0⟩ ⟨3, 3, some 1⟩ [1, 2, 3] [1, 2, 4]
      world_cmp_represents.1 world_cmp_represents.2.1,
    by decide, by decide, by decide, by decide⟩

/-! ## Iterators -/

theorem deref_forward (s : St T) (xs : List T) (i : Nat) (hrep : Represents s xs)
    (hi : i < xs.length) :
    (vector_iterator.operator_plus false s.self.begin i).operator_deref s.world = xs[i]? := by
  simp only [vector_iterator.operator_deref, vector_iterator.operator_plus,
    vector_iterator.ptr_add, vector.begin, Bool.false_eq_true, if_false]
  rw [if_neg (by omega)]
  have : ((0 : Int) + (i : Int)).toNat = i := by omega
  rw [this]
  exact represents_read s xs i hrep hi

theorem deref_reverse (s : St T) (xs : List T) (i : Nat) (hrep : Represents s xs)
    (hi : i < xs.length) :
    (vector_iterator.operator_plus true s.self.rbegin i).operator_deref s.world =
      xs[xs.length - 1 - i]? := by
  have hsz : s.self.size_ = xs.length := hrep.1
  simp only [vector_iterator.operator_deref, vector_iterator.operator_plus,
    vector_iterator.ptr_add, vector.rbegin, if_true]
  rw [if_neg (by omega)]
  have : ((s.self.size_ : Int) - 1 - (i : Int)).toNat = xs.length - 1 - i := by omega
  rw [this]
  exact represents_read s xs _ hrep (by omega)

theorem position_moves (reverse : Bool) (v : vector) (it : vector_iterator) (k : Int) :
    position reverse v (it.operator_inc reverse) = position reverse v it + 1 ∧
    position reverse v (it.operator_dec reverse) = position reverse v it - 1 ∧
    position reverse v (it.operator_add_assign reverse k) = position reverse v it + k ∧
    position reverse v (it.operator_sub_assign reverse k) = position reverse v it - k ∧
    position reverse v (it.operator_plus reverse k) = position reverse v it + k ∧
    position reverse v (it.operator_minus reverse k) = position reverse v it - k ∧
    (it.operator_post_inc reverse).1 = it ∧
    position reverse v (it.operator_post_inc reverse).2 = position reverse v it + 1 ∧
    (it.operator_post_dec reverse).1 = it ∧
    position reverse v (it.operator_post_dec reverse).2 = position reverse v it - 1 := by
  cases reverse
  · refine ⟨?_, ?_, ?_, ?_, ?_, ?_, rfl, ?_, rfl, ?_⟩
    all_goals
      simp only [position, vector_iterator.operator_inc, vector_iterator.operator_dec,
        vector_iterator.operator_add_assign, vector_iterator.operator_sub_assign,
        vector_iterator.operator_plus, vector_iterator.operator_minus,
        vector_iterator.operator_post_inc, vector_iterator.operator_post_dec,
        vector_iterator.ptr_add, Bool.false_eq_true, if_false]
      first | done | omega
  · refine ⟨?_, ?_, ?_, ?_, ?_, ?_, rfl, ?_, rfl, ?_⟩
    all_goals
      simp only [position, vector_iterator.operator_inc, vector_iterator.operator_dec,
        vector_iterator.operator_add_assign, vector_iterator.operator_sub_assign,
        vector_iterator.operator_plus, vector_iterator.operator_minus,
        vector_iterator.operator_post_inc, vector_iterator.operator_post_dec,
        vector_iterator.ptr_add, if_true]
      omega

theorem diff_positions (reverse : Bool) (v : vector) (a b : vector_iterator)
    (hbase : a.ptr_.base = b.ptr_.base) :
    b.operator_diff reverse a = some (position reverse v b - position reverse v a) := by
  cases reverse
  · simp only [vector_iterator.operator_diff, Ptr.diff, position, hbase, Bool.false_eq_true,
      if_false, if_true]
  · simp only [vector_iterator.operator_diff, Ptr.diff, position, hbase, if_true,
      Option.some.injEq]
    omega

/-- C18: on every valid vector holding `xs`, with `n = |xs|`: for `i < n`,
`*(begin() + i)` is element `i` and `*(rbegin() + i)` is element `n - 1 - i`; for two
iterators of one direction into one storage, `b - a` is `position(b) - position(a)`;
`end() - begin()` and `rend() - rbegin()` are both `n`; `begin() + n == end()` and
`rbegin() + n == rend()`; and `++`, `--`, `+= k`, `-= k` (as well as `+ k`, `- k` and
the postfix forms, which return the old iterator) change the position by `+1`, `-1`,
`+k`, `-k`, in both directions. -/
theorem iterator_spec (s : St T) (xs : List T) (hrep : Represents s xs) :
    (∀ i, i < xs.length →
      (vector_iterator.operator_plus false s.self.begin i).operator_deref s.world = xs[i]? ∧
      (vector_iterator.operator_plus true s.self.rbegin i).operator_deref s.world =
        xs[xs.length - 1 - i]?) ∧
    (∀ reverse (a b : vector_iterator), a.ptr_.base = b.ptr_.base →
      b.operator_diff reverse a =
        some (position reverse s.self b - position reverse s.self a)) ∧
    s.self.end_.operator_diff false s.self.begin = some (xs.length : Int) ∧
    s.self.rend.operator_diff true s.self.rbegin = some (xs.length : Int) ∧
    vector_iterator.operator_plus false s.self.begin xs.length = s.self.end_ ∧
    vector_iterator.operator_plus true s.self.rbegin xs.length = s.self.rend ∧
    (vector_iterator.operator_plus false s.self.begin xs.length).operator_eq s.self.end_
      = true ∧
    (vector_iterator.operator_plus true s.self.rbegin xs.length).operator_eq s.self.rend
      = true ∧
    (∀ reverse (it : vector_iterator) (k : Int),
      position reverse s.self (it.operator_inc reverse) = position reverse s.self it + 1 ∧
      position reverse s.self (it.operator_dec reverse) = position reverse s.self it - 1 ∧
      position reverse s.self (it.operator_add_assign reverse k)
        = position reverse s.self it + k ∧
      position reverse s.self (it.operator_sub_assign reverse k)
        = position reverse s.self it - k ∧
      position reverse s.self (it.operator_plus reverse k) = position reverse s.self it + k ∧
      position reverse s.self (it.operator_minus reverse k) = position reverse s.self it - k ∧
      (it.operator_post_inc reverse).1 = it ∧
      position reverse s.self (it.operator_post_inc reverse).2
        = position reverse s.self it + 1 ∧
      (it.operator_post_dec reverse).1 = it ∧
      position reverse s.self (it.operator_post_dec reverse).2
        = position reverse s.self it - 1) := by
  have hsz : s.self.size_ = xs.length := hrep.1
  have hplus : vector_iterator.operator_plus false s.self.begin xs.length = s.self.end_ := by
    simp [vector_iterator.operator_plus, vector_iterator.ptr_add, vector.begin, vector.end_,
      hsz]
  have hrplus : vector_iterator.operator_plus true s.self.rbegin xs.length = s.self.rend := by
    simp [vector_iterator.operator_plus, vector_iterator.ptr_add, vector.rbegin, vector.rend,
      hsz]
  refine ⟨fun i hi => ⟨deref_forward s xs i hrep hi, deref_reverse s xs i hrep hi⟩,
    fun reverse a b h => diff_positions reverse s.self a b h, ?_, ?_, hplus, hrplus, ?_, ?_,
    fun reverse it k => position_moves reverse s.self it k⟩
  · simp [vector_iterator.operator_diff, Ptr.diff, vector.begin, vector.end_, hsz]
  · simp [vector_iterator.operator_diff, Ptr.diff, vector.rbegin, vector.rend, hsz]
  · rw [hplus]; simp [vector_iterator.operator_eq]
  · rw [hrplus]; simp [vector_iterator.operator_eq]

/-- C18 at `{10, 20}`. -/
theorem iterator_spec_witness :
    Represents vec_two [10, 20] ∧
    (vector_iterator.operator_plus true vec_two.self.rbegin 1).operator_deref vec_two.world
      = some 10 ∧
    vec_two.self.rend.operator_diff true vec_two.self.rbegin = some 2 ∧
    vector_iterator.operator_plus true vec_two.self.rbegin 2 = vec_two.self.rend :=
  have h := iterator_spec vec_two [10, 20] vec_two_represents
  ⟨vec_two_represents, (h.1 1 (by decide)).2, h.2.2.2.1, h.2.2.2.2.2.1⟩

/-! ## The growth of the capacity under insertions -/

/-- An insertion calls `allocate` once if it finds `size == capacity`, and not at all
otherwise. -/
theorem insert_run_allocs (env : Env T) (op : Op T) (s : St T) (xs : List T)
    (hins : op.inserts = true) (hrep : Represents s xs) (hcalm : Calm env s.world) :
    ∃ x s1, op.run env s = .ok () s1 ∧ Represents s1 (xs ++ [x]) ∧ Calm env s1.world ∧
      s1.self.size_ = s.self.size_ + 1 ∧
      (s.self.size_ = s.self.capacity_ →
        s1.self.capacity_ = 2 * s.self.capacity_ + 1 ∧
        s1.world.alloc_calls = s.world.alloc_calls + 1) ∧
      (s.self.size_ < s.self.capacity_ →
        s1.self.capacity_ = s.self.capacity_ ∧
        s1.world.alloc_calls = s.world.alloc_calls) := by
  obtain ⟨x, s1, hx, hrun, hrep1, hcalm1, _, hsz1, _, hroom⟩ :=
    insert_run_ok env op s xs hins hrep hcalm
  refine ⟨x, s1, hrun, hrep1, hcalm1, hsz1, ?_, fun h => ⟨(hroom h).1, (hroom h).2.2⟩⟩
  intro hfull
  -- replay the call: `reserve` reallocates, then `construct` fills the slot
  have hlen : xs.length ≤ 2 * s.self.capacity_ + 1 := by
    have := hrep.1; have := hrep.2.1; omega
  obtain ⟨w, hres, hrep0, hc0, ha0, _, _⟩ :=
    reserve_impl_ok env s xs (2 * s.self.capacity_ + 1) hrep hlen
      (hcalm.2 _ (Nat.le_refl _) _) (fun j _ => hcalm.1 _ (by omega))
  have hcalm0 : Calm env w := calm_mono env s.world w hcalm (by omega) (by omega)
  obtain ⟨w1, hcon, _, _, ha1, _⟩ :=
    construct_end env ⟨w, ⟨2 * s.self.capacity_ + 1, s.self.size_, some s.world.heap.length⟩⟩
      xs x hrep0 (by show s.self.size_ < 2 * s.self.capacity_ + 1; omega)
      (hcalm0.1 _ (Nat.le_refl _))
  have hemp : emplace_back env (.temp x) s =
      .ok (some s.world.heap.length, s.self.size_ + 1 - 1)
        ⟨w1, ⟨2 * s.self.capacity_ + 1, s.self.size_ + 1, some s.world.heap.length⟩⟩ := by
    unfold emplace_back
    rw [if_pos hfull.symm]
    simp only [reserve, show ¬ 2 * s.self.capacity_ + 1 ≤ s.self.capacity_ by omega, if_false]
    rw [hres]
    simp only
    rw [construct_forward_temp, hcon]
  have hs1 : s1 = ⟨w1, ⟨2 * s.self.capacity_ + 1, s.self.size_ + 1,
      some s.world.heap.length⟩⟩ := by
    rcases hx with h | h
    · subst h
      simp only [Op.run] at hrun
      rw [push_back_eq, hemp] at hrun
      simp only [Outcome.ok.injEq, true_and] at hrun
      exact hrun.symm
    · subst h
      simp only [Op.run] at hrun
      rw [hemp] at hrun
      simp only [Outcome.ok.injEq, true_and] at hrun
      exact hrun.symm
  subst hs1
  exact ⟨rfl, ha1.trans ha0⟩

theorem growth_run (env : Env T) (ops : List (Op T)) :
    ∀ (s : St T) (xs : List T) (k : Nat), Represents s xs → Calm env s.world →
      (∀ op, op ∈ ops → op.inserts = true) → s.self.capacity_ = 2 ^ k - 1 →
      (k = 0 ∨ 2 ^ (k - 1) ≤ xs.length) →
      ∃ tr s1 k1, run_ops env ops s = .ok tr s1 ∧
        s1.self.size_ = xs.length + ops.length ∧ s1.self.size_ ≤ s1.self.capacity_ ∧
        s1.self.capacity_ = 2 ^ k1 - 1 ∧ (k1 = 0 ∨ 2 ^ (k1 - 1) ≤ s1.self.size_) ∧
        k ≤ k1 ∧ s1.world.alloc_calls = s.world.alloc_calls + (k1 - k) := by
  induction ops with
  | nil =>
    intro s xs k hrep _ _ hcap hk
    refine ⟨[], s, k, rfl, by simpa using hrep.1, hrep.2.1, hcap, ?_, Nat.le_refl _, by simp⟩
    rw [hrep.1]; exact hk
  | cons op ops ih =>
    intro s xs k hrep hcalm hins hcap hk
    have hsz : s.self.size_ = xs.length := hrep.1
    have hle : s.self.size_ ≤ s.self.capacity_ := hrep.2.1
    have hpow : 1 ≤ 2 ^ k := Nat.one_le_two_pow
    obtain ⟨x, s0, hrun, hrep0, hcalm0, hsz0, hfull, hroom⟩ :=
      insert_run_allocs env op s xs (hins op (by simp)) hrep hcalm
    have hlen0 : (xs ++ [x]).length = xs.length + 1 := by simp
    by_cases hf : s.self.size_ = s.self.capacity_
    · obtain ⟨hcap0, ha0⟩ := hfull hf
      have hpk : 2 ^ (k + 1) = 2 * 2 ^ k := by rw [Nat.pow_succ]; omega
      obtain ⟨tr, s1, k1, hrun1, hsz1, hle1, hcap1, hk1, hkk, ha1⟩ :=
        ih s0 (xs ++ [x]) (k + 1) hrep0 hcalm0 (fun o ho => hins o (by simp [ho]))
          (by rw [hcap0, hcap, hpk]; omega)
          (Or.inr (by rw [hlen0, Nat.add_sub_cancel]; omega))
      refine ⟨s0 :: tr, s1, k1, ?_, by rw [hsz1, hlen0]; simp; omega, hle1, hcap1, hk1,
        by omega, by rw [ha1, ha0]; omega⟩
      simp only [run_ops]
      rw [hrun]
      simp only
      rw [hrun1]
    · obtain ⟨hcap0, ha0⟩ := hroom (by omega)
      obtain ⟨tr, s1, k1, hrun1, hsz1, hle1, hcap1, hk1, hkk, ha1⟩ :=
        ih s0 (xs ++ [x]) k hrep0 hcalm0 (fun o ho => hins o (by simp [ho]))
          (by rw [hcap0, hcap])
          (by
            rcases hk with h | h
            · subst h
              simp at hcap
              omega
            · exact Or.inr (by rw [hlen0]; omega))
      refine ⟨s0 :: tr, s1, k1, ?_, by rw [hsz1, hlen0]; simp; omega, hle1, hcap1, hk1,
        hkk, by rw [ha1, ha0]⟩
      simp only [run_ops]
      rw [hrun]
      simp only
      rw [hrun1]

/-- C20: starting from a default-constructed vector (no storage, capacity 0) in any
heap, when nothing throws, `n >= 1` consecutive `emplace_back` / `push_back` calls
all return and leave size `n` and a capacity `2^k - 1` where `k` is the least
exponent with `n <= 2^k - 1`; so `n <= capacity <= 2n - 1`, and `allocate` was called
exactly `k` times, once per reallocation. -/
theorem growth_spec (env : Env T) (w : World T) (ops : List (Op T))
    (hcalm : Calm env w) (hins : ∀ op, op ∈ ops → op.inserts = true)
    (hn : 1 ≤ ops.length) :
    ∃ trace s1 k, run_ops env ops ⟨w, vector.empty⟩ = .ok trace s1 ∧
      s1.self.size_ = ops.length ∧ s1.self.capacity_ = 2 ^ k - 1 ∧
      ops.length ≤ 2 ^ k - 1 ∧ (∀ j, ops.length ≤ 2 ^ j - 1 → k ≤ j) ∧
      ops.length ≤ s1.self.capacity_ ∧ s1.self.capacity_ ≤ 2 * ops.length - 1 ∧
      s1.world.alloc_calls = w.alloc_calls + k := by
  obtain ⟨tr, s1, k, hrun, hsz, hle, hcap, hk, _, ha⟩ :=
    growth_run env ops ⟨w, vector.empty⟩ [] 0 (represents_empty w) hcalm hins rfl (Or.inl rfl)
  simp only [List.length_nil, Nat.zero_add] at hsz
  have hk0 : k ≠ 0 := by
    intro h
    subst h
    simp at hcap
    omega
  have hlow : 2 ^ (k - 1) ≤ ops.length := by
    rcases hk with h | h
    · exact absurd h hk0
    · rw [← hsz]; exact h
  have hpk : 2 ^ k = 2 * 2 ^ (k - 1) := by
    have : k = (k - 1) + 1 := by omega
    rw [this, Nat.pow_succ]
    simp
    omega
  refine ⟨tr, s1, k, hrun, hsz, hcap, by omega, ?_, by omega, by omega, by simpa using ha⟩
  intro j hj
  have hj1 : 1 ≤ 2 ^ j := Nat.one_le_two_pow
  have hlt : 2 ^ (k - 1) < 2 ^ j := by omega
  have := (Nat.pow_lt_pow_iff_right (by decide : 1 < 2)).mp hlt
  omega

/-- C20 with five insertions into a default-constructed vector in the empty heap. -/
theorem growth_spec_witness :
    Calm Env.quiet (⟨[], 0, 0⟩ : World Nat) ∧
    ∃ trace s1 k,
      run_ops Env.quiet
          [Op.push_back 1, Op.push_back 2, Op.emplace_back 3, Op.push_back 4, Op.push_back 5]
          ⟨(⟨[], 0, 0⟩ : World Nat), vector.empty⟩ = .ok trace s1 ∧
      s1.self.size_ = 5 ∧ s1.self.capacity_ = 2 ^ k - 1 ∧
      5 ≤ 2 ^ k - 1 ∧ (∀ j, 5 ≤ 2 ^ j - 1 → k ≤ j) ∧
      5 ≤ s1.self.capacity_ ∧ s1.self.capacity_ ≤ 2 * 5 - 1 ∧
      s1.world.alloc_calls = 0 + k :=
  ⟨calm_quiet _,
    growth_spec Env.quiet ⟨[], 0, 0⟩
      [Op.push_back 1, Op.push_back 2, Op.emplace_back 3, Op.push_back 4, Op.push_back 5]
      (calm_quiet _)
      (by
        intro op hop
        simp only [List.mem_cons, List.mem_singleton, List.not_mem_nil, or_false] at hop
        rcases hop with h | h | h | h | h <;> subst h <;> rfl)
      (by decide)⟩

/-! ## Ranges of iterators as sources of elements -/

theorem plus_zero (reverse : Bool) (it : vector_iterator) :
    it.operator_plus reverse (0 : Nat) = it := by
  cases reverse <;> simp [vector_iterator.operator_plus, vector_iterator.ptr_add]

theorem inc_plus (reverse : Bool) (it : vector_iterator) (k : Nat) :
    (it.operator_inc reverse).operator_plus reverse k = it.operator_plus reverse (k + 1 : Nat) := by
  cases reverse
  · simp only [vector_iterator.operator_plus, vector_iterator.operator_inc,
      vector_iterator.ptr_add, Bool.false_eq_true, if_false, vector_iterator.mk.injEq,
      Ptr.mk.injEq, true_and]
    push_cast
    omega
  · simp only [vector_iterator.operator_plus, vector_iterator.operator_inc,
      vector_iterator.ptr_add, if_true, vector_iterator.mk.injEq, Ptr.mk.injEq, true_and]
    push_cast
    omega

theorem plus_base (reverse : Bool) (it : vector_iterator) (k : Int) :
    (it.operator_plus reverse k).ptr_.base = it.ptr_.base := by
  cases reverse <;> simp [vector_iterator.operator_plus, vector_iterator.ptr_add]

theorem inc_base (reverse : Bool) (it : vector_iterator) :
    (it.operator_inc reverse).ptr_.base = it.ptr_.base := by
  cases reverse <;> simp [vector_iterator.operator_inc, vector_iterator.ptr_add]

theorem plus_succ_ne (reverse : Bool) (it : vector_iterator) (n : Nat) :
    it.operator_eq (it.operator_plus reverse (n + 1 : Nat)) = false := by
  cases reverse
  · simp only [vector_iterator.operator_eq, vector_iterator.operator_plus,
      vector_iterator.ptr_add, Bool.false_eq_true, if_false, decide_eq_false_iff_not]
    intro h
    have := congrArg Ptr.off h
    simp only at this
    push_cast at this
    omega
  · simp only [vector_iterator.operator_eq, vector_iterator.operator_plus,
      vector_iterator.ptr_add, if_true, decide_eq_false_iff_not]
    intro h
    have := congrArg Ptr.off h
    simp only at this
    push_cast at this
    omega

theorem distance_range (reverse : Bool) (first : vector_iterator) (n : Nat) :
    distance reverse first (first.operator_plus reverse n) = some (n : Int) := by
  cases reverse
  · simp only [distance, vector_iterator.operator_diff, vector_iterator.operator_plus,
      vector_iterator.ptr_add, Ptr.diff, Bool.false_eq_true, if_false, if_true,
      Option.some.injEq]
    omega
  · simp only [distance, vector_iterator.operator_diff, vector_iterator.operator_plus,
      vector_iterator.ptr_add, Ptr.diff, if_true, Option.some.injEq]
    omega

/-- An iterator that reads an element names its slot. -/
theorem star_of_deref (it : vector_iterator) (w : World T) (z : T)
    (h : it.operator_deref w = some z) :
    (it.operator_star : Option (Arg T)) = some (.lvalue it.ptr_.base it.ptr_.off.toNat) ∧
      read it.ptr_.base it.ptr_.off.toNat w = some z := by
  unfold vector_iterator.operator_deref at h
  unfold vector_iterator.operator_star
  by_cases hneg : it.ptr_.off < 0
  · simp [hneg] at h
  · simp only [hneg, if_false] at h ⊢
    exact ⟨trivial, h⟩

/-- Reading through an iterator gives the same element after a call that left the
region it points into alone. -/
theorem deref_frame (s s1 : St T) (it : vector_iterator) (hfr : Frame s s1)
    (hout : ∀ r, it.ptr_.base = some r → some r ≠ s.self.data_ ∧ r < s.world.heap.length) :
    it.operator_deref s1.world = it.operator_deref s.world := by
  unfold vector_iterator.operator_deref
  by_cases hneg : it.ptr_.off < 0
  · simp [hneg]
  · simp only [hneg, if_false]
    cases hb : it.ptr_.base with
    | none => simp [read]
    | some r =>
      obtain ⟨h1, h2⟩ := hout r hb
      simp only [read]
      rw [hfr.2.1 r h1 h2]

theorem outside_frame (s s1 : St T) (it : vector_iterator) (hfr : Frame s s1)
    (hout : Outside it s) : Outside it s1 := by
  intro r hr
  obtain ⟨h1, h2⟩ := hout r hr
  refine ⟨?_, by have := hfr.1; omega⟩
  rcases hfr.2.2 with h | ⟨q, hq, hql⟩
  · rw [h]; exact h1
  · rw [hq]
    intro hc
    cases hc
    omega

theorem range_frame (s s1 : St T) (reverse : Bool) (first last : vector_iterator)
    (zs : List T) (hfr : Frame s s1) (hout : Outside first s)
    (hrange : RangeHolds s.world reverse first last zs) :
    RangeHolds s1.world reverse first last zs := by
  refine ⟨hrange.1, fun k hk => ?_⟩
  rw [deref_frame s s1 _ hfr (by rw [plus_base]; exact hout)]
  exact hrange.2 k hk

theorem append_range_ok (env : Env T) (reverse : Bool) (last : vector_iterator) :
    ∀ (zs : List T) (fuel : Nat) (first : vector_iterator) (s : St T) (xs : List T),
      Represents s xs → Calm env s.world → RangeHolds s.world reverse first last zs →
      Outside first s → xs.length + zs.length ≤ s.self.capacity_ → zs.length ≤ fuel →
      ∃ s1, append_range env reverse last fuel first s = .ok () s1 ∧
        Represents s1 (xs ++ zs) ∧ s1.self.capacity_ = s.self.capacity_ ∧
        s1.self.data_ = s.self.data_ ∧ Calm env s1.world ∧ Frame s s1 := by
  intro zs
  induction zs with
  | nil =>
    intro fuel first s xs hrep hcalm hrange _ _ _
    have hlast : first.operator_eq last = true := by
      rw [hrange.1]
      simp only [List.length_nil]
      rw [plus_zero]
      simp [vector_iterator.operator_eq]
    refine ⟨s, ?_, by simpa using hrep, rfl, rfl, hcalm, frame_refl s⟩
    cases fuel <;> simp [append_range, hlast]
  | cons z zs ih =>
    intro fuel first s xs hrep hcalm hrange hout hroom hfuel
    obtain ⟨fuel, rfl⟩ : ∃ f, fuel = f + 1 := ⟨fuel - 1, by simp at hfuel; omega⟩
    have hsz : s.self.size_ = xs.length := hrep.1
    have hne : first.operator_eq last = false := by
      rw [hrange.1]
      exact plus_succ_ne reverse first zs.length
    have hread : first.operator_deref s.world = some z := by
      have := hrange.2 0 (by simp)
      rw [plus_zero] at this
      simpa using this
    obtain ⟨s0, hrun, hrep0, hcalm0, hfr0, hsz0, _, hsame⟩ :=
      emplace_back_ok env s xs z hrep hcalm
    obtain ⟨hcap0, hd0, _⟩ := hsame (by simp at hroom; omega)
    have hout0 : Outside (first.operator_inc reverse) s0 := by
      intro r hr
      rw [inc_base] at hr
      exact outside_frame s s0 first hfr0 hout r hr
    have hrange0 : RangeHolds s0.world reverse (first.operator_inc reverse) last zs := by
      refine ⟨?_, fun k hk => ?_⟩
      · rw [inc_plus, hrange.1]
        rfl
      · rw [inc_plus, deref_frame s s0 _ hfr0 (by rw [plus_base]; exact hout)]
        have := hrange.2 (k + 1) (by simp; omega)
        simpa using this
    obtain ⟨s1, hrun1, hrep1, hcap1, hd1, hcalm1, hfr1⟩ :=
      ih fuel (first.operator_inc reverse) s0 (xs ++ [z]) hrep0 hcalm0 hrange0 hout0
        (by simp at hroom ⊢; omega) (by simp at hfuel; omega)
    refine ⟨s1, ?_, by simpa using hrep1, by rw [hcap1, hcap0], by rw [hd1, hd0], hcalm1,
      frame_trans _ _ _ hfr0 hfr1⟩
    obtain ⟨hstar, hslot⟩ := star_of_deref first s.world z hread
    simp only [append_range, hne, Bool.false_eq_true, if_false, hstar]
    rw [emplace_back_room env s _ _ z (by simp at hroom; omega) hslot, hrun]
    exact hrun1

/-! ## `assign` -/

theorem emplace_times_ok (env : Env T) (value : T) :
    ∀ (count : Nat) (s : St T) (xs : List T), Represents s xs → Calm env s.world →
      xs.length + count ≤ s.self.capacity_ →
      ∃ s1, emplace_times env (.temp value) count s = .ok () s1 ∧
        Represents s1 (xs ++ List.replicate count value) ∧
        s1.self.capacity_ = s.self.capacity_ ∧ Calm env s1.world ∧ Frame s s1 := by
  intro count
  induction count with
  | zero =>
    intro s xs hrep hcalm _
    exact ⟨s, rfl, by simpa using hrep, rfl, hcalm, frame_refl s⟩
  | succ count ih =>
    intro s xs hrep hcalm hroom
    have hsz : s.self.size_ = xs.length := hrep.1
    obtain ⟨s0, hrun, hrep0, hcalm0, hfr0, _, _, hsame⟩ :=
      emplace_back_ok env s xs value hrep hcalm
    obtain ⟨hcap0, _, _⟩ := hsame (by omega)
    obtain ⟨s1, hrun1, hrep1, hcap1, hcalm1, hfr1⟩ :=
      ih s0 (xs ++ [value]) hrep0 hcalm0 (by simp; omega)
    refine ⟨s1, ?_, ?_, by rw [hcap1, hcap0], hcalm1, frame_trans _ _ _ hfr0 hfr1⟩
    · simp only [emplace_times]
      rw [hrun]
      exact hrun1
    · rw [List.replicate_succ]
      simpa using hrep1

theorem emplace_list_ok (env : Env T) :
    ∀ (zs : List T) (s : St T) (xs : List T), Represents s xs → Calm env s.world →
      xs.length + zs.length ≤ s.self.capacity_ →
      ∃ s1, emplace_list env zs s = .ok () s1 ∧ Represents s1 (xs ++ zs) ∧
        s1.self.capacity_ = s.self.capacity_ ∧ Calm env s1.world ∧ Frame s s1 := by
  intro zs
  induction zs with
  | nil =>
    intro s xs hrep hcalm _
    exact ⟨s, rfl, by simpa using hrep, rfl, hcalm, frame_refl s⟩
  | cons z zs ih =>
    intro s xs hrep hcalm hroom
    have hsz : s.self.size_ = xs.length := hrep.1
    obtain ⟨s0, hrun, hrep0, hcalm0, hfr0, _, _, hsame⟩ :=
      emplace_back_ok env s xs z hrep hcalm
    obtain ⟨hcap0, _, _⟩ := hsame (by simp at hroom; omega)
    obtain ⟨s1, hrun1, hrep1, hcap1, hcalm1, hfr1⟩ :=
      ih s0 (xs ++ [z]) hrep0 hcalm0 (by simp at hroom ⊢; omega)
    refine ⟨s1, ?_, by simpa using hrep1, by rw [hcap1, hcap0], hcalm1,
      frame_trans _ _ _ hfr0 hfr1⟩
    simp only [emplace_list]
    rw [hrun]
    exact hrun1

/-- The capacity `reserve(n)` leaves is the larger of the old capacity and `n`. -/
theorem reserve_max (env : Env T) (s : St T) (xs : List T) (n : Nat)
    (hrep : Represents s xs) (hcalm : Calm env s.world) :
    ∃ s1, reserve env n s = .ok () s1 ∧ Represents s1 xs ∧ Calm env s1.world ∧
      Frame s s1 ∧ s1.self.capacity_ = max s.self.capacity_ n := by
  obtain ⟨s1, hrun, hrep1, hcalm1, _, hfr, hnoop, hgrow⟩ := reserve_frame env s xs n hrep hcalm
  refine ⟨s1, hrun, hrep1, hcalm1, hfr, ?_⟩
  by_cases hn : n ≤ s.self.capacity_
  · rw [hnoop hn]; omega
  · rw [hgrow (by omega)]; omega

theorem assign_count_ok (env : Env T) (s : St T) (xs : List T) (count : Nat) (value : T)
    (hrep : Represents s xs) (hcalm : Calm env s.world) :
    ∃ s1, assign_count env count (.temp value) s = .ok () s1 ∧
      Represents s1 (List.replicate count value) ∧
      s1.self.capacity_ = max s.self.capacity_ count ∧ Calm env s1.world ∧ Frame s s1 := by
  obtain ⟨s0, hrun0, hrep0, _, hcap0, _, hc0, ha0, hfr0⟩ := clear_ok s xs hrep
  have hcalm0 : Calm env s0.world := calm_mono env s.world s0.world hcalm (by omega) (by omega)
  obtain ⟨s2, hrun2, hrep2, hcalm2, hfr2, hcap2⟩ := reserve_max env s0 [] count hrep0 hcalm0
  obtain ⟨s1, hrun1, hrep1, hcap1, hcalm1, hfr1⟩ :=
    emplace_times_ok env value count s2 [] hrep2 hcalm2 (by simp; omega)
  refine ⟨s1, ?_, by simpa using hrep1, by rw [hcap1, hcap2, hcap0], hcalm1,
    frame_trans _ _ _ hfr0 (frame_trans _ _ _ hfr2 hfr1)⟩
  simp only [assign_count]
  rw [hrun0]
  simp only
  rw [hrun2]
  exact hrun1

theorem reserve_and_append_ok (env : Env T) (reverse : Bool) (first last : vector_iterator)
    (s : St T) (zs : List T) (hrep : Represents s []) (hcalm : Calm env s.world)
    (hrange : RangeHolds s.world reverse first last zs) (hout : Outside first s) :
    ∃ s1, reserve_and_append env reverse first last s = .ok () s1 ∧ Represents s1 zs ∧
      s1.self.capacity_ = max s.self.capacity_ zs.length ∧ Calm env s1.world ∧
      Frame s s1 := by
  have hdist : distance reverse first last = some (zs.length : Int) := by
    rw [hrange.1]; exact distance_range reverse first zs.length
  obtain ⟨s2, hrun2, hrep2, hcalm2, hfr2, hcap2⟩ := reserve_max env s [] zs.length hrep hcalm
  obtain ⟨s1, hrun1, hrep1, hcap1, _, hcalm1, hfr1⟩ :=
    append_range_ok env reverse last zs zs.length first s2 [] hrep2 hcalm2
      (range_frame s s2 reverse first last zs hfr2 hout hrange)
      (outside_frame s s2 first hfr2 hout) (by simp; omega) (Nat.le_refl _)
  refine ⟨s1, ?_, by simpa using hrep1, by rw [hcap1, hcap2], hcalm1,
    frame_trans _ _ _ hfr2 hfr1⟩
  have hconv : size_t_of_ptrdiff (zs.length : Int) = zs.length := by
    simp [size_t_of_ptrdiff]
  simp only [reserve_and_append, hdist, hconv]
  rw [hrun2]
  exact hrun1

theorem assign_range_ok (env : Env T) (reverse : Bool) (first last : vector_iterator)
    (s : St T) (xs zs : List T) (hrep : Represents s xs) (hcalm : Calm env s.world)
    (hrange : RangeHolds s.world reverse first last zs) (hout : Outside first s) :
    ∃ s1, assign_range env reverse first last s = .ok () s1 ∧ Represents s1 zs ∧
      s1.self.capacity_ = max s.self.capacity_ zs.length ∧ Calm env s1.world ∧
      Frame s s1 := by
  obtain ⟨s0, hrun0, hrep0, _, hcap0, _, hc0, ha0, hfr0⟩ := clear_ok s xs hrep
  have hcalm0 : Calm env s0.world := calm_mono env s.world s0.world hcalm (by omega) (by omega)
  obtain ⟨s1, hrun1, hrep1, hcap1, hcalm1, hfr1⟩ :=
    reserve_and_append_ok env reverse first last s0 zs hrep0 hcalm0
      (range_frame s s0 reverse first last zs hfr0 hout hrange)
      (outside_frame s s0 first hfr0 hout)
  refine ⟨s1, ?_, hrep1, by rw [hcap1, hcap0], hcalm1, frame_trans _ _ _ hfr0 hfr1⟩
  simp only [assign_range]
  rw [hrun0]
  exact hrun1

/-! ## Any one member function, and what it leaves alone -/

/-- Every mutation called within its precondition on a valid vector, when nothing
throws, returns and leaves a valid vector, touching no storage but its own. -/
theorem mutation_ok [Inhabited T] (env : Env T) (m : Mutation T) (s : St T) (xs : List T)
    (hrep : Represents s xs) (hcalm : Calm env s.world) (hpre : m.pre s) :
    ∃ s1 xs1, m.run env s = .ok () s1 ∧ Represents s1 xs1 ∧ Calm env s1.world ∧
      Frame s s1 := by
  cases m with
  | reserve n =>
    obtain ⟨s1, hrun, hrep1, hcalm1, _, hfr, _, _⟩ := reserve_frame env s xs n hrep hcalm
    exact ⟨s1, xs, hrun, hrep1, hcalm1, hfr⟩
  | push_back x =>
    obtain ⟨s1, hrun, hrep1, hcalm1, hfr, _⟩ := emplace_back_ok env s xs x hrep hcalm
    refine ⟨s1, xs ++ [x], ?_, hrep1, hcalm1, hfr⟩
    simp only [Mutation.run]
    rw [push_back_eq, hrun]
  | emplace_back x =>
    obtain ⟨s1, hrun, hrep1, hcalm1, hfr, _⟩ := emplace_back_ok env s xs x hrep hcalm
    refine ⟨s1, xs ++ [x], ?_, hrep1, hcalm1, hfr⟩
    simp only [Mutation.run]
    rw [hrun]
  | pop_back =>
    have hpos : 0 < s.self.size_ := hpre
    rcases List.eq_nil_or_concat xs with h | ⟨ys, y, h⟩
    · subst h
      have := hrep.1
      simp at this
      omega
    · rw [List.concat_eq_append] at h
      subst h
      obtain ⟨w, hrun, hrep1, hc, ha, hfr⟩ := pop_back_ok s ys y hrep
      exact ⟨_, ys, hrun, hrep1, calm_mono env s.world w hcalm (by omega) (by omega), hfr⟩
  | clear =>
    obtain ⟨s1, hrun, hrep1, _, _, _, hc, ha, hfr⟩ := clear_ok s xs hrep
    exact ⟨s1, [], hrun, hrep1, calm_mono env s.world s1.world hcalm (by omega) (by omega),
      hfr⟩
  | resize n =>
    obtain ⟨s1, hrun, hrep1, _, _, hcalm1, hfr⟩ :=
      resize_value_ok env s xs n default hrep hcalm
    exact ⟨s1, _, by simp only [Mutation.run]; rw [resize_eq]; exact hrun, hrep1, hcalm1, hfr⟩
  | resize_value n value =>
    obtain ⟨s1, hrun, hrep1, _, _, hcalm1, hfr⟩ :=
      resize_value_ok env s xs n value hrep hcalm
    exact ⟨s1, _, hrun, hrep1, hcalm1, hfr⟩
  | assign_count count value =>
    obtain ⟨s1, hrun, hrep1, _, hcalm1, hfr⟩ := assign_count_ok env s xs count value hrep hcalm
    exact ⟨s1, _, hrun, hrep1, hcalm1, hfr⟩
  | assign_range reverse first last =>
    obtain ⟨zs, hrange, hout⟩ := hpre
    obtain ⟨s1, hrun, hrep1, _, hcalm1, hfr⟩ :=
      assign_range_ok env reverse first last s xs zs hrep hcalm hrange hout
    exact ⟨s1, zs, hrun, hrep1, hcalm1, hfr⟩
  | shrink_to_fit =>
    obtain ⟨s1, hrun, hrep1, hcalm1, hfr, _⟩ := shrink_to_fit_ok env s xs hrep hcalm
    exact ⟨s1, xs, hrun, hrep1, hcalm1, hfr⟩

/-- A vector with separate storage is untouched by a call that stays in its frame,
and the storage stays separate. -/
theorem independent_frame (s s1 : St T) (y : vector) (ys : List T) (hfr : Frame s s1)
    (hy : Represents ⟨s.world, y⟩ ys)
    (hsep : ∀ p, s.self.data_ = some p → y.data_ ≠ some p) :
    Represents ⟨s1.world, y⟩ ys ∧ ∀ p, s1.self.data_ = some p → y.data_ ≠ some p := by
  have hreg : ∀ p, y.data_ = some p → some p ≠ s.self.data_ ∧ p < s.world.heap.length := by
    intro p hp
    obtain ⟨_, hpl⟩ := represents_data ⟨s.world, y⟩ ys p hy hp
    refine ⟨?_, hpl⟩
    intro hc
    exact hsep p hc.symm hp
  refine ⟨represents_frame s.world s1.world y ys hy
    (fun p hp => hfr.2.1 p (hreg p hp).1 (hreg p hp).2), ?_⟩
  intro p hp hyp
  obtain ⟨h1, h2⟩ := hreg p hyp
  rcases hfr.2.2 with h | ⟨q, hq, hql⟩
  · rw [h] at hp
    exact h1 hp.symm
  · rw [hq] at hp
    cases hp
    omega

theorem range_of_vector (w : World T) (y : vector) (ys : List T)
    (hy : Represents ⟨w, y⟩ ys) : RangeHolds w false y.begin y.end_ ys := by
  have hsz : y.size_ = ys.length := hy.1
  refine ⟨?_, fun k hk => deref_forward ⟨w, y⟩ ys k hy hk⟩
  simp [vector_iterator.operator_plus, vector_iterator.ptr_add, vector.begin, vector.end_,
    hsz]

/-- A mutation of one vector of a store leaves a vector with separate storage as
it was, and the two stay valid and separate. -/
theorem mutation_independent [Inhabited T] (env : Env T) (m : Mutation T) (st : Store T)
    (this other : Nat) (ys : List T) (hne : this ≠ other)
    (hind : Independent st this other ys) (hcalm : Calm env st.world)
    (hpre : m.pre ⟨st.world, st.objs this⟩) :
    ∃ st1, Store.call this (m.run env) st = .ok () st1 ∧ st1.objs other = st.objs other ∧
      Independent st1 this other ys ∧ Calm env st1.world := by
  obtain ⟨⟨xs, hx⟩, hy, hsep⟩ := hind
  obtain ⟨s1, xs1, hrun, hrep1, hcalm1, hfr⟩ :=
    mutation_ok env m ⟨st.world, st.objs this⟩ xs hx hcalm hpre
  obtain ⟨hy1, hsep1⟩ := independent_frame ⟨st.world, st.objs this⟩ s1 (st.objs other) ys hfr
    hy hsep
  have hother : Function.update st.objs this s1.self other = st.objs other :=
    Function.update_noteq (Ne.symm hne) _ _
  refine ⟨⟨s1.world, Function.update st.objs this s1.self⟩, ?_, hother, ⟨⟨xs1, ?_⟩, ?_, ?_⟩,
    hcalm1⟩
  · simp only [Store.call]
    rw [hrun]
  · simp only [Function.update_same]
    exact hrep1
  · simp only
    rw [hother]
    exact hy1
  · simp only [Function.update_same]
    rw [hother]
    exact hsep1

/-! ## Copy construction and copy assignment -/

theorem copy_assign_ok (env : Env T) (st : Store T) (this other : Nat) (xs ys : List T)
    (hne : this ≠ other)
    (hx : Represents ⟨st.world, st.objs this⟩ xs)
    (hy : Represents ⟨st.world, st.objs other⟩ ys)
    (hsep : ∀ p, (st.objs this).data_ = some p → (st.objs other).data_ ≠ some p)
    (hcalm : Calm env st.world) :
    ∃ st1, copy_assign env this other st = .ok () st1 ∧ st1.objs other = st.objs other ∧
      Represents ⟨st1.world, st1.objs this⟩ ys ∧ Independent st1 this other ys ∧
      (st1.objs this).capacity_ = max (st.objs this).capacity_ (st.objs other).capacity_ ∧
      Calm env st1.world := by
  have hysz : (st.objs other).size_ = ys.length := hy.1
  have hycap : ys.length ≤ (st.objs other).capacity_ := by
    have h1 := hy.2.1
    simp only at h1
    omega
  obtain ⟨s0, hrun0, hrep0, _, hcap0, _, hc0, ha0, hfr0⟩ :=
    clear_ok ⟨st.world, st.objs this⟩ xs hx
  simp only at hcap0 hc0 ha0
  have hcalm0 : Calm env s0.world :=
    calm_mono env st.world s0.world hcalm (by omega) (by omega)
  obtain ⟨s2, hrun2, hrep2, hcalm2, hfr2, hcap2⟩ :=
    reserve_max env s0 [] (st.objs other).capacity_ hrep0 hcalm0
  have hfr02 := frame_trans _ _ _ hfr0 hfr2
  have hout : Outside (st.objs other).begin ⟨st.world, st.objs this⟩ := by
    intro r hr
    have hr1 : (st.objs other).data_ = some r := hr
    obtain ⟨_, hrl⟩ := represents_data ⟨st.world, st.objs other⟩ ys r hy hr1
    refine ⟨?_, hrl⟩
    intro hc
    exact hsep r hc.symm hr1
  obtain ⟨s1, hrun1, hrep1, hcap1, _, hcalm1, hfr1⟩ :=
    append_range_ok env false (st.objs other).end_ ys (st.objs other).size_
      (st.objs other).begin s2 [] hrep2 hcalm2
      (range_frame _ s2 false _ _ ys hfr02 hout (range_of_vector st.world _ ys hy))
      (outside_frame _ s2 _ hfr02 hout) (by simp; omega) (by omega)
  have hfr := frame_trans _ _ _ hfr02 hfr1
  obtain ⟨hy1, hsep1⟩ := independent_frame ⟨st.world, st.objs this⟩ s1 (st.objs other) ys hfr
    hy hsep
  have hother : Function.update st.objs this s1.self other = st.objs other :=
    Function.update_noteq (Ne.symm hne) _ _
  have hrep1b : Represents s1 ys := by simpa using hrep1
  refine ⟨⟨s1.world, Function.update st.objs this s1.self⟩, ?_, hother, ?_,
    ⟨⟨ys, ?_⟩, ?_, ?_⟩, ?_, hcalm1⟩
  · simp only [copy_assign, if_pos hne, Store.call]
    rw [hrun0]
    simp only
    rw [hrun2]
    simp only
    rw [hrun1]
  · simp only [Function.update_same]
    exact hrep1b
  · simp only [Function.update_same]
    exact hrep1b
  · simp only
    rw [hother]
    exact hy1
  · simp only [Function.update_same]
    rw [hother]
    exact hsep1
  · simp only [Function.update_same]
    rw [hcap1, hcap2, hcap0]

theorem copy_construct_ok (env : Env T) (st : Store T) (this other : Nat) (ys : List T)
    (hne : this ≠ other) (hy : Represents ⟨st.world, st.objs other⟩ ys)
    (hcalm : Calm env st.world) :
    ∃ st1, copy_construct env this other st = .ok () st1 ∧ st1.objs other = st.objs other ∧
      Represents ⟨st1.world, st1.objs this⟩ ys ∧ Independent st1 this other ys ∧
      (st1.objs this).capacity_ = ys.length ∧ Calm env st1.world := by
  have hout : Outside (st.objs other).begin ⟨st.world, vector.empty⟩ := by
    intro r hr
    have hr1 : (st.objs other).data_ = some r := hr
    obtain ⟨_, hrl⟩ := represents_data ⟨st.world, st.objs other⟩ ys r hy hr1
    exact ⟨by simp [vector.empty], hrl⟩
  obtain ⟨s1, hrun1, hrep1, hcap1, hcalm1, hfr⟩ :=
    reserve_and_append_ok env false (st.objs other).begin (st.objs other).end_
      ⟨st.world, vector.empty⟩ ys (represents_empty st.world) hcalm
      (range_of_vector st.world _ ys hy) hout
  obtain ⟨hy1, hsep1⟩ := independent_frame ⟨st.world, vector.empty⟩ s1 (st.objs other) ys hfr
    hy (by intro p hp; simp [vector.empty] at hp)
  have hother : Function.update st.objs this s1.self other = st.objs other :=
    Function.update_noteq (Ne.symm hne) _ _
  refine ⟨⟨s1.world, Function.update st.objs this s1.self⟩, ?_, hother, ?_,
    ⟨⟨ys, ?_⟩, ?_, ?_⟩, ?_, hcalm1⟩
  · simp only [copy_construct, construct_range]
    rw [hrun1]
  · simp only [Function.update_same]
    exact hrep1
  · simp only [Function.update_same]
    exact hrep1
  · simp only
    rw [hother]
    exact hy1
  · simp only [Function.update_same]
    rw [hother]
    exact hsep1
  · simp only [Function.update_same]
    rw [hcap1]
    simp [vector.empty]

theorem operator_eq_same [DecidableEq T] (w : World T) (a b : vector) (ys : List T)
    (ha : Represents ⟨w, a⟩ ys) (hb : Represents ⟨w, b⟩ ys) :
    operator_eq w a b = some true := by
  obtain ⟨r, hr, _, hiff⟩ := operator_eq_ok w a b ys ys ha hb
  rw [hr, hiff.mpr rfl]

/-! ## Arguments passed by reference -/

theorem represents_read_some (s : St T) (xs : List T) (j : Nat) (x : T)
    (h : Represents s xs) (hr : read s.self.data_ j s.world = some x) :
    j < xs.length ∧ xs[j]? = some x := by
  by_cases hj : j < xs.length
  · exact ⟨hj, by rw [← represents_read s xs j h hj]; exact hr⟩
  · exfalso
    cases hd : s.self.data_ with
    | none => rw [hd] at hr; simp [read] at hr
    | some p =>
      obtain ⟨hreg, _⟩ := represents_data s xs p h hd
      rw [hd, read_live _ p j _ hreg,
        List.getElem?_append_right (by simpa using Nat.le_of_not_lt hj),
        List.getElem?_replicate] at hr
      split_ifs at hr <;> simp [Option.join] at hr

/-- An object read before a call that neither reallocates nor removes elements is
read with the same value after it. -/
theorem read_kept (s s1 : St T) (xs ys : List T) (q j : Nat) (x : T)
    (hrep : Represents s xs) (hrep1 : Represents s1 (xs ++ ys)) (hfr : Frame s s1)
    (hd : s1.self.data_ = s.self.data_) (h : read (some q) j s.world = some x) :
    read (some q) j s1.world = some x := by
  by_cases hq : some q = s.self.data_
  · rw [hq] at h
    obtain ⟨hj, hxj⟩ := represents_read_some s xs j x hrep h
    rw [hq, ← hd, represents_read s1 (xs ++ ys) j hrep1 (by simp; omega),
      List.getElem?_append_left hj]
    exact hxj
  · rw [read_congr _ _ q j (hfr.2.1 q hq (read_lt _ q j x h))]
    exact h

theorem emplace_while_lvalue (env : Env T) (m q j : Nat) (x : T) :
    ∀ (fuel : Nat) (s : St T) (xs : List T), Represents s xs → Calm env s.world →
      m ≤ s.self.capacity_ → read (some q) j s.world = some x →
      emplace_while env m (.lvalue (some q) j) fuel s =
        emplace_while env m (.temp x) fuel s := by
  intro fuel
  induction fuel with
  | zero => intro s xs _ _ _ _; rfl
  | succ fuel ih =>
    intro s xs hrep hcalm hcap h
    simp only [emplace_while]
    by_cases hlt : s.self.size_ < m
    · rw [if_pos hlt, if_pos hlt, emplace_back_room env s _ j x (by omega) h]
      obtain ⟨s0, hrun, hrep0, hcalm0, hfr0, _, _, hroom⟩ :=
        emplace_back_ok env s xs x hrep hcalm
      obtain ⟨hcap0, hd0, _⟩ := hroom (by omega)
      rw [hrun]
      simp only
      exact ih s0 (xs ++ [x]) hrep0 hcalm0 (by omega)
        (read_kept s s0 xs [x] q j x hrep hrep0 hfr0 hd0 h)
    · rw [if_neg hlt, if_neg hlt]

theorem emplace_times_lvalue (env : Env T) (q j : Nat) (x : T) :
    ∀ (count : Nat) (s : St T) (xs : List T), Represents s xs → Calm env s.world →
      xs.length + count ≤ s.self.capacity_ → read (some q) j s.world = some x →
      emplace_times env (.lvalue (some q) j) count s = emplace_times env (.temp x) count s := by
  intro count
  induction count with
  | zero => intro s xs _ _ _ _; rfl
  | succ count ih =>
    intro s xs hrep hcalm hcap h
    have hsz : s.self.size_ = xs.length := hrep.1
    simp only [emplace_times]
    rw [emplace_back_room env s _ j x (by omega) h]
    obtain ⟨s0, hrun, hrep0, hcalm0, hfr0, _, _, hroom⟩ :=
      emplace_back_ok env s xs x hrep hcalm
    obtain ⟨hcap0, hd0, _⟩ := hroom (by omega)
    rw [hrun]
    simp only
    exact ih s0 (xs ++ [x]) hrep0 hcalm0 (by simp; omega)
      (read_kept s s0 xs [x] q j x hrep hrep0 hfr0 hd0 h)

/-- The member `resize(n, value)` on a reference to an object holding `x` that is not
an element of the vector, or on any such reference when `n` does not exceed the
capacity, does what it does on a temporary holding `x`. -/
theorem resize_value_lvalue (env : Env T) (s : St T) (xs : List T) (n q j : Nat) (x : T)
    (hrep : Represents s xs) (hcalm : Calm env s.world)
    (h : read (some q) j s.world = some x)
    (hok : some q ≠ s.self.data_ ∨ n ≤ s.self.capacity_) :
    resize_value env n (.lvalue (some q) j) s = resize_value env n (.temp x) s := by
  have hsz : s.self.size_ = xs.length := hrep.1
  obtain ⟨s0, hrun0, hrep0, hcap0, hd0, hc0, ha0, hfr0⟩ :=
    pop_while_ok n (s.self.size_ - n) s xs hrep (by omega)
  have hcalm0 : Calm env s0.world := calm_mono env s.world s0.world hcalm (by omega) (by omega)
  simp only [resize_value, Arg.as_const]
  rw [hrun0]
  simp only
  by_cases hlt : s0.self.size_ < n
  · have hlen : xs.length < n := by
      have := hrep0.1
      simp only [List.length_take] at this
      omega
    have htake : xs.take n = xs := List.take_of_length_le (by omega)
    rw [htake] at hrep0
    have h0 : read (some q) j s0.world = some x :=
      read_kept s s0 xs [] q j x hrep (by simpa using hrep0) hfr0 hd0 h
    obtain ⟨s2, hrun2, hrep2, hcalm2, _, hfr2, hnoop, hgrow⟩ :=
      reserve_frame env s0 xs n hrep0 hcalm0
    have h2 : read (some q) j s2.world = some x := by
      by_cases hn : n ≤ s0.self.capacity_
      · rw [hnoop hn]; exact h0
      · have hq : some q ≠ s0.self.data_ := by
          rcases hok with hk | hk
          · rw [hd0]; exact hk
          · omega
        rw [read_congr _ _ q j (hfr2.2.1 q hq (read_lt _ q j x h0))]
        exact h0
    have hcap2 : n ≤ s2.self.capacity_ := by
      by_cases hn : n ≤ s0.self.capacity_
      · rw [hnoop hn]; exact hn
      · rw [hgrow (by omega)]
    rw [if_pos hlt, if_pos hlt, hrun2]
    simp only
    exact emplace_while_lvalue env n q j x _ s2 xs hrep2 hcalm2 hcap2 h2
  · rw [if_neg hlt, if_neg hlt]

/-- The member `assign(count, value)` on a reference to an object holding `x` that
is not an element of the vector does what it does on a temporary holding `x`. -/
theorem assign_count_lvalue (env : Env T) (s : St T) (xs : List T) (count q j : Nat) (x : T)
    (hrep : Represents s xs) (hcalm : Calm env s.world)
    (h : read (some q) j s.world = some x) (hq : some q ≠ s.self.data_) :
    assign_count env count (.lvalue (some q) j) s = assign_count env count (.temp x) s := by
  obtain ⟨s0, hrun0, hrep0, _, hcap0, hd0, hc0, ha0, hfr0⟩ := clear_ok s xs hrep
  have hcalm0 : Calm env s0.world := calm_mono env s.world s0.world hcalm (by omega) (by omega)
  have hlt := read_lt _ q j x h
  have h0 : read (some q) j s0.world = some x := by
    rw [read_congr _ _ q j (hfr0.2.1 q hq hlt)]; exact h
  obtain ⟨s2, hrun2, hrep2, hcalm2, hfr2, hcap2⟩ := reserve_max env s0 [] count hrep0 hcalm0
  have h2 : read (some q) j s2.world = some x := by
    rw [read_congr _ _ q j (hfr2.2.1 q (by rw [hd0]; exact hq) (read_lt _ q j x h0))]
    exact h0
  simp only [assign_count, Arg.as_const]
  rw [hrun0]
  simp only
  rw [hrun2]
  simp only
  exact emplace_times_lvalue env q j x count s2 [] hrep2 hcalm2 (by simp; omega) h2

theorem overwrite_other (p : Option Nat) (i : Nat) (y : T) (w : World T) (r : Nat)
    (h : p ≠ some r) : (overwrite p i y w).heap[r]? = w.heap[r]? := by
  unfold overwrite
  cases p with
  | none => rfl
  | some r0 =>
    simp only
    cases hreg : w.heap[r0]? with
    | none => rfl
    | some reg =>
      simp only
      by_cases hl : reg.live = true
      · rw [if_pos hl]
        cases hc : reg.cells[i]? with
        | none => rfl
        | some c =>
          cases c with
          | none => rfl
          | some z =>
            simp only
            exact List.getElem?_set_ne (fun hc1 => h (by rw [hc1]))
      · rw [if_neg hl]

theorem overwrite_calls (p : Option Nat) (i : Nat) (y : T) (w : World T) :
    (overwrite p i y w).ctor_calls = w.ctor_calls ∧
      (overwrite p i y w).alloc_calls = w.alloc_calls := by
  unfold overwrite
  cases p with
  | none => exact ⟨rfl, rfl⟩
  | some r0 =>
    simp only
    cases hreg : w.heap[r0]? with
    | none => exact ⟨rfl, rfl⟩
    | some reg =>
      simp only
      by_cases hl : reg.live = true
      · rw [if_pos hl]
        cases hc : reg.cells[i]? with
        | none => exact ⟨rfl, rfl⟩
        | some c =>
          cases c with
          | none => exact ⟨rfl, rfl⟩
          | some z => exact ⟨rfl, rfl⟩
      · rw [if_neg hl]; exact ⟨rfl, rfl⟩

/-- What a construction leaves in the object it was given does not reach another region. -/
theorem left_other (env : Env T) (k : Nat) (x : T) (arg : Arg T) (w : World T) (r : Nat)
    (h : ∀ p j, arg = .rvalue p j → p ≠ some r) :
    (arg.left env k x w).heap[r]? = w.heap[r]? := by
  cases arg with
  | temp y => rfl
  | lvalue p j => rfl
  | rvalue p j =>
    simp only [Arg.left]
    split_ifs
    · exact overwrite_other p j _ w r (h p j rfl)
    · rfl

theorem left_calls (env : Env T) (k : Nat) (x : T) (arg : Arg T) (w : World T) :
    (arg.left env k x w).ctor_calls = w.ctor_calls ∧
      (arg.left env k x w).alloc_calls = w.alloc_calls := by
  cases arg with
  | temp y => exact ⟨rfl, rfl⟩
  | lvalue p j => exact ⟨rfl, rfl⟩
  | rvalue p j =>
    simp only [Arg.left]
    split_ifs
    · exact overwrite_calls p j _ w
    · exact ⟨rfl, rfl⟩

theorem move_read (a : Arg T) (w : World T) : a.move.read w = a.read w := by
  cases a <;> rfl

theorem move_inside (a : Arg T) (v : vector) : a.move.inside v ↔ a.inside v := by
  cases a <;> exact Iff.rfl

/-- The first step of an insertion, on a valid vector when nothing throws: after it
the vector has room, and it has moved to new storage only if it was full. -/
theorem grow_ok (env : Env T) (s : St T) (xs : List T)
    (hrep : Represents s xs) (hcalm : Calm env s.world) :
    ∃ s0, (if s.self.capacity_ = s.self.size_ then
        reserve env (2 * s.self.capacity_ + 1) s else .ok () s) = .ok () s0 ∧
      Represents s0 xs ∧ Calm env s0.world ∧ Frame s s0 ∧ s0.self.size_ = s.self.size_ ∧
      s0.self.size_ < s0.self.capacity_ ∧
      (s.self.size_ = s.self.capacity_ → s0.self.capacity_ = 2 * s.self.capacity_ + 1) ∧
      (s.self.size_ < s.self.capacity_ → s0 = s) := by
  have hle : s.self.size_ ≤ s.self.capacity_ := hrep.2.1
  by_cases hfull : s.self.capacity_ = s.self.size_
  · obtain ⟨s0, hrun, hrep0, hcalm0, hsz0, hfr0, _, hcap0⟩ :=
      reserve_frame env s xs (2 * s.self.capacity_ + 1) hrep hcalm
    have hc := hcap0 (by omega)
    exact ⟨s0, by rw [if_pos hfull]; exact hrun, hrep0, hcalm0, hfr0, hsz0, by omega,
      fun _ => hc, fun h => by omega⟩
  · exact ⟨s, by rw [if_neg hfull], hrep, hcalm, frame_refl s, rfl, by omega,
      fun h => absurd h.symm hfull, fun _ => rfl⟩

/-- An insertion of an object holding `x` that is not an element of the vector, or of
an element of the vector passed as an lvalue when there is room, appends `x`. -/
theorem emplace_back_arg_ok (env : Env T) (s : St T) (xs : List T) (a : Arg T) (x : T)
    (hrep : Represents s xs) (hcalm : Calm env s.world) (hx : a.read s.world = some x)
    (hok : ¬ a.inside s.self ∨ (a.copied ∧ s.self.size_ < s.self.capacity_)) :
    ∃ s1, emplace_back env a s = .ok (s1.self.data_, s1.self.size_ - 1) s1 ∧
      Represents s1 (xs ++ [x]) ∧ Calm env s1.world ∧
      s1.self.size_ = s.self.size_ + 1 ∧
      (s.self.size_ = s.self.capacity_ → s1.self.capacity_ = 2 * s.self.capacity_ + 1) ∧
      (s.self.size_ < s.self.capacity_ → s1.self.capacity_ = s.self.capacity_) := by
  cases a with
  | temp y =>
    simp only [Arg.read, Option.some.injEq] at hx
    subst hx
    obtain ⟨s1, hrun, hrep1, hcalm1, _, hsz, hfull, hroom⟩ :=
      emplace_back_ok env s xs y hrep hcalm
    exact ⟨s1, hrun, hrep1, hcalm1, hsz, hfull, fun h => (hroom h).1⟩
  | lvalue p j =>
    cases p with
    | none => simp [Arg.read, read] at hx
    | some q =>
      have hx0 : read (some q) j s.world = some x := hx
      obtain ⟨s1, hrun, hrep1, hcalm1, _, hsz, hfull, hroom⟩ :=
        emplace_back_ok env s xs x hrep hcalm
      refine ⟨s1, ?_, hrep1, hcalm1, hsz, hfull, fun h => (hroom h).1⟩
      rcases hok with hout | ⟨_, hr⟩
      · rw [emplace_back_outside env s xs q j x hrep hcalm hout hx0]
        exact hrun
      · rw [emplace_back_room env s _ j x hr hx0]
        exact hrun
  | rvalue p j =>
    have hout : ¬ p = s.self.data_ := by
      rcases hok with h | h
      · exact h
      · exact absurd h.1 (fun hc => hc)
    cases p with
    | none => simp [Arg.read, read] at hx
    | some q =>
      have hx0 : read (some q) j s.world = some x := hx
      obtain ⟨s0, hrun0, hrep0, hcalm0, hfr0, hsz0, hroom0, hcapf, hsame⟩ :=
        grow_ok env s xs hrep hcalm
      have hq : q < s.world.heap.length := read_lt _ q j x hx0
      have h0 : read (some q) j s0.world = some x := by
        rw [read_congr _ _ q j (hfr0.2.1 q hout hq)]; exact hx0
      have hq0 : s0.self.data_ ≠ some q := by
        rcases hfr0.2.2 with h | ⟨q1, h, hq1⟩
        · rw [h]; exact fun hc => hout hc.symm
        · rw [h]; intro hc; cases hc; omega
      obtain ⟨w, hcon, hrep1, hc1, ha1, _⟩ :=
        construct_end env s0 xs x hrep0 hroom0 (hcalm0.1 _ (Nat.le_refl _))
      have hcalls := left_calls env s0.world.ctor_calls x (.rvalue (some q) j) w
      refine ⟨⟨(Arg.rvalue (some q) j).left env s0.world.ctor_calls x w,
        { s0.self with size_ := s0.self.size_ + 1 }⟩, ?_, ?_, ?_, by simp [hsz0], hcapf, ?_⟩
      · unfold emplace_back
        rw [hrun0]
        simp only [construct_forward, Arg.read, h0, hcon]
      · apply represents_frame w _ _ _ hrep1
        intro p0 hp0
        apply left_other
        intro p1 j1 h1
        cases h1
        intro hc
        cases hc
        exact hq0 hp0
      · exact calm_mono env s0.world _ hcalm0 (by rw [hcalls.1]; omega)
          (by rw [hcalls.2]; omega)
      · intro h
        have := hsame h
        subst this
        rfl

/-- C4, as amended: on every valid vector holding `xs`, with size `s` and capacity
`c`, when nothing throws, and for every value `x` held by the object the argument
names: if that object is not an element of the vector (a temporary, an element of
other storage), or it is an element of the vector passed as an lvalue while `s < c`,
then `emplace_back` returns with the element sequence `xs ++ [x]`, the size
`s + 1`, the capacity `2 * c + 1` (so at least 1) if `s = c` before the call and `c`
if `s < c`, and the reference returned names the slot `back()` reads, which holds
`x`; if the object is not an element of the vector, `push_back` returns with the
same sequence, size and capacity; and on a temporary the two calls leave the same
state. -/
theorem emplace_back_spec (env : Env T) (s : St T) (xs : List T) (a : Arg T) (x : T)
    (hrep : Represents s xs) (hcalm : Calm env s.world) (hx : a.read s.world = some x)
    (hok : ¬ a.inside s.self ∨ (a.copied ∧ s.self.size_ < s.self.capacity_)) :
    (∃ ref s1, emplace_back env a s = .ok ref s1 ∧
      Represents s1 (xs ++ [x]) ∧ elements s1 = elements s ++ [some x] ∧
      s1.self.size_ = s.self.size_ + 1 ∧
      (s.self.size_ = s.self.capacity_ →
        s1.self.capacity_ = 2 * s.self.capacity_ + 1 ∧ 1 ≤ s1.self.capacity_) ∧
      (s.self.size_ < s.self.capacity_ → s1.self.capacity_ = s.self.capacity_) ∧
      read ref.1 ref.2 s1.world = some x ∧ back s1 = read ref.1 ref.2 s1.world) ∧
    (¬ a.inside s.self →
      ∃ s2, push_back env a s = .ok () s2 ∧
        Represents s2 (xs ++ [x]) ∧ elements s2 = elements s ++ [some x] ∧
        s2.self.size_ = s.self.size_ + 1 ∧
        (s.self.size_ = s.self.capacity_ →
          s2.self.capacity_ = 2 * s.self.capacity_ + 1 ∧ 1 ≤ s2.self.capacity_) ∧
        (s.self.size_ < s.self.capacity_ → s2.self.capacity_ = s.self.capacity_) ∧
        back s2 = some x) ∧
    (∀ y, a = .temp y →
      ∃ ref s1, emplace_back env a s = .ok ref s1 ∧ push_back env a s = .ok () s1) := by
  have hmain : ∀ (b : Arg T), b.read s.world = some x →
      (¬ b.inside s.self ∨ (b.copied ∧ s.self.size_ < s.self.capacity_)) →
      ∃ ref s1, emplace_back env b s = .ok ref s1 ∧
        Represents s1 (xs ++ [x]) ∧ elements s1 = elements s ++ [some x] ∧
        s1.self.size_ = s.self.size_ + 1 ∧
        (s.self.size_ = s.self.capacity_ →
          s1.self.capacity_ = 2 * s.self.capacity_ + 1 ∧ 1 ≤ s1.self.capacity_) ∧
        (s.self.size_ < s.self.capacity_ → s1.self.capacity_ = s.self.capacity_) ∧
        read ref.1 ref.2 s1.world = some x ∧ back s1 = read ref.1 ref.2 s1.world := by
    intro b hb hbok
    obtain ⟨s1, hrun, hrep1, _, hsz, hfull, hroom⟩ :=
      emplace_back_arg_ok env s xs b x hrep hcalm hb hbok
    have hlen : s1.self.size_ = xs.length + 1 := by simpa using hrep1.1
    have hread : read s1.self.data_ (s1.self.size_ - 1) s1.world = some x := by
      rw [represents_read s1 (xs ++ [x]) _ hrep1 (by simp; omega)]
      have : s1.self.size_ - 1 = xs.length := by omega
      rw [this]
      simp
    refine ⟨(s1.self.data_, s1.self.size_ - 1), s1, hrun, hrep1, ?_, hsz, ?_, hroom, hread, ?_⟩
    · rw [represents_elements s1 _ hrep1, represents_elements s xs hrep]
      simp
    · intro h
      have := hfull h
      exact ⟨this, by omega⟩
    · unfold back
      rw [if_neg (by omega)]
  refine ⟨hmain a hx hok, ?_, ?_⟩
  · intro hout
    obtain ⟨ref, s2, hrun, hrep2, hel, hsz, hfull, hroom, hread, hback⟩ :=
      hmain a.move (by rw [move_read]; exact hx) (Or.inl (fun h => hout ((move_inside a _).mp h)))
    refine ⟨s2, ?_, hrep2, hel, hsz, hfull, hroom, by rw [hback, hread]⟩
    rw [push_back_forward, hrun]
  · intro y hy
    subst hy
    obtain ⟨ref, s1, hrun, _⟩ := hmain (.temp y) hx (Or.inl (fun h => h))
    exact ⟨ref, s1, hrun, by rw [push_back_eq, hrun]⟩

/-- C4 (amended) at the full vector `{1}` of capacity 1, the argument being the first
element of another vector, which holds 2: the storage grows and the element is read
after that. -/
theorem emplace_back_spec_witness :
    Represents vec_first [1] ∧ Calm Env.quiet vec_first.world ∧
    (Arg.lvalue (some 1) 0 : Arg Nat).read vec_first.world = some 2 ∧
    ¬ (Arg.lvalue (some 1) 0 : Arg Nat).inside vec_first.self ∧
    ∃ ref s1, emplace_back Env.quiet (.lvalue (some 1) 0) vec_first = .ok ref s1 ∧
      Represents s1 ([1] ++ [2]) ∧ elements s1 = elements vec_first ++ [some 2] ∧
      s1.self.size_ = vec_first.self.size_ + 1 ∧
      (vec_first.self.size_ = vec_first.self.capacity_ →
        s1.self.capacity_ = 2 * vec_first.self.capacity_ + 1 ∧ 1 ≤ s1.self.capacity_) ∧
      (vec_first.self.size_ < vec_first.self.capacity_ →
        s1.self.capacity_ = vec_first.self.capacity_) ∧
      read ref.1 ref.2 s1.world = some 2 ∧ back s1 = read ref.1 ref.2 s1.world :=
  have hout : ¬ (Arg.lvalue (some 1) 0 : Arg Nat).inside vec_first.self := by
    show ¬ (some 1 = vec_first.self.data_)
    decide
  ⟨store_pair_first, calm_quiet _, rfl, hout,
    (emplace_back_spec Env.quiet vec_first [1] (.lvalue (some 1) 0) 2 store_pair_first
      (calm_quiet _) rfl (Or.inl hout)).1⟩

/-- C4 as stated fails.  On the full vector `{10, 20}` of capacity 2,
`emplace_back(v[0])` first moves the elements to new storage and deallocates the
old one, then reads `v[0]` there: the call is undefined and does not end with
`{10, 20, 10}`.  On `{10, 20}` with capacity 4, `push_back(std::move(v[0]))`, for a
type whose move leaves 0 behind, ends with `{0, 20, 10}`. -/
theorem emplace_back_spec_fails :
    Represents vec_two [10, 20] ∧ Calm Env.quiet vec_two.world ∧
    (Arg.lvalue (some 0) 0 : Arg Nat).read vec_two.world = some 10 ∧
    emplace_back Env.quiet (.lvalue (some 0) 0) vec_two = .ub ∧
    (¬ ∃ ref s1, emplace_back Env.quiet (.lvalue (some 0) 0) vec_two = .ok ref s1 ∧
      Represents s1 ([10, 20] ++ [10])) ∧
    Represents vec_slack [10, 20] ∧ Calm env_emptying vec_slack.world ∧
    (Arg.rvalue (some 0) 0 : Arg Nat).read vec_slack.world = some 10 ∧
    (∃ s2, push_back env_emptying (.rvalue (some 0) 0) vec_slack = .ok () s2 ∧
      elements s2 = [some 0, some 20, some 10] ∧ ¬ Represents s2 ([10, 20] ++ [10])) := by
  have hub : emplace_back Env.quiet (.lvalue (some 0) 0) vec_two = .ub := rfl
  refine ⟨vec_two_represents, calm_quiet _, rfl, hub, ?_, vec_slack_represents,
    ⟨fun _ _ => rfl, fun _ _ _ => rfl⟩, rfl, _, rfl, by decide, ?_⟩
  · rintro ⟨ref, s1, h, _⟩
    rw [hub] at h
    cases h
  · intro h
    have := represents_elements _ _ h
    revert this
    decide

/-- C7, as amended: on every valid vector holding `xs` and for every `n`, when
nothing throws, `resize(n)` returns with the first `min(n, |xs|)` elements of `xs`
followed by `n - |xs|` (truncated at 0) default values; and `resize(n, value)`, for
an argument that holds `x` and is not an element of the vector, or for any
argument holding `x` when `n` does not exceed the capacity, returns with the same
prefix followed by as many copies of `x`; in both cases the size is `n` and the
capacity is `max(old capacity, n)`. -/
theorem resize_spec [Inhabited T] (env : Env T) (s : St T) (xs : List T) (n : Nat)
    (value : Arg T) (x : T)
    (hrep : Represents s xs) (hcalm : Calm env s.world)
    (hx : value.read s.world = some x)
    (hok : ¬ value.inside s.self ∨ n ≤ s.self.capacity_) :
    (∃ s1, resize env n s = .ok () s1 ∧
      Represents s1 (xs.take (min n xs.length) ++ List.replicate (n - xs.length) default) ∧
      s1.self.size_ = n ∧ s1.self.capacity_ = max s.self.capacity_ n) ∧
    (∃ s1, resize_value env n value s = .ok () s1 ∧
      Represents s1 (xs.take (min n xs.length) ++ List.replicate (n - xs.length) x) ∧
      s1.self.size_ = n ∧ s1.self.capacity_ = max s.self.capacity_ n) := by
  have htake : xs.take (min n xs.length) = xs.take n := by
    by_cases h : n ≤ xs.length
    · rw [Nat.min_eq_left h]
    · rw [Nat.min_eq_right (by omega), List.take_length, List.take_of_length_le (by omega)]
  have heq : resize_value env n value s = resize_value env n (.temp x) s := by
    cases value with
    | temp y =>
      simp only [Arg.read, Option.some.injEq] at hx
      rw [hx]
    | lvalue p j =>
      cases p with
      | none => simp [Arg.read, read] at hx
      | some q => exact resize_value_lvalue env s xs n q j x hrep hcalm hx hok
    | rvalue p j =>
      cases p with
      | none => simp [Arg.read, read] at hx
      | some q => exact resize_value_lvalue env s xs n q j x hrep hcalm hx hok
  rw [htake]
  constructor
  · obtain ⟨s1, hrun, hrep1, hsz, hcap, _, _⟩ := resize_value_ok env s xs n default hrep hcalm
    exact ⟨s1, by rw [resize_eq]; exact hrun, hrep1, hsz, hcap⟩
  · obtain ⟨s1, hrun, hrep1, hsz, hcap, _, _⟩ := resize_value_ok env s xs n x hrep hcalm
    exact ⟨s1, by rw [heq]; exact hrun, hrep1, hsz, hcap⟩

/-- C7 (amended) at `{10, 20}` with capacity 4, `n = 4` and `value` the first element
of the vector itself, which holds 10: no reallocation is needed. -/
theorem resize_spec_witness :
    Represents vec_slack [10, 20] ∧ Calm Env.quiet vec_slack.world ∧
    (Arg.lvalue (some 0) 0 : Arg Nat).read vec_slack.world = some 10 ∧
    4 ≤ vec_slack.self.capacity_ ∧
    (∃ s1, resize Env.quiet 4 vec_slack = .ok () s1 ∧
      Represents s1 ([10, 20].take (min 4 [10, 20].length) ++
        List.replicate (4 - [10, 20].length) default) ∧
      s1.self.size_ = 4 ∧ s1.self.capacity_ = max vec_slack.self.capacity_ 4) ∧
    (∃ s1, resize_value Env.quiet 4 (.lvalue (some 0) 0) vec_slack = .ok () s1 ∧
      Represents s1 ([10, 20].take (min 4 [10, 20].length) ++
        List.replicate (4 - [10, 20].length) 10) ∧
      s1.self.size_ = 4 ∧ s1.self.capacity_ = max vec_slack.self.capacity_ 4) :=
  ⟨vec_slack_represents, calm_quiet _, rfl, by decide,
    resize_spec Env.quiet vec_slack [10, 20] 4 (.lvalue (some 0) 0) 10 vec_slack_represents
      (calm_quiet _) rfl (Or.inr (by decide))⟩

/-- C7 as stated fails.  On the vector `{10, 20}` of capacity 2, `resize(5, v[0])`
reserves new storage, which destroys the elements and deallocates the old one,
and then reads `v[0]` there: the call is undefined and does not end with
`{10, 20, 10, 10, 10}`. -/
theorem resize_spec_fails :
    Represents vec_two [10, 20] ∧ Calm Env.quiet vec_two.world ∧
    (Arg.lvalue (some 0) 0 : Arg Nat).read vec_two.world = some 10 ∧
    resize_value Env.quiet 5 (.lvalue (some 0) 0) vec_two = .ub ∧
    ¬ ∃ s1, resize_value Env.quiet 5 (.lvalue (some 0) 0) vec_two = .ok () s1 ∧
      Represents s1 ([10, 20].take (min 5 [10, 20].length) ++
        List.replicate (5 - [10, 20].length) 10) := by
  have hub : resize_value Env.quiet 5 (.lvalue (some 0) 0) vec_two = .ub := rfl
  refine ⟨vec_two_represents, calm_quiet _, rfl, hub, ?_⟩
  rintro ⟨s1, h, _⟩
  rw [hub] at h
  cases h

theorem assign_count_arg (env : Env T) (s : St T) (xs : List T) (count : Nat)
    (value : Arg T) (x : T) (hrep : Represents s xs) (hcalm : Calm env s.world)
    (hx : value.read s.world = some x) (hval : ¬ value.inside s.self ∨ count = 0) :
    assign_count env count value s = assign_count env count (.temp x) s := by
  rcases hval with hout | h0
  · cases value with
    | temp y =>
      simp only [Arg.read, Option.some.injEq] at hx
      rw [hx]
    | lvalue p j =>
      cases p with
      | none => simp [Arg.read, read] at hx
      | some q => exact assign_count_lvalue env s xs count q j x hrep hcalm hx hout
    | rvalue p j =>
      cases p with
      | none => simp [Arg.read, read] at hx
      | some q => exact assign_count_lvalue env s xs count q j x hrep hcalm hx hout
  · subst h0
    unfold assign_count
    cases clear s with
    | ub => rfl
    | throw e s1 => rfl
    | ok u s1 =>
      simp only
      cases reserve env 0 s1 <;> rfl

/-- Assigning an empty range leaves the vector empty, wherever the range lies. -/
theorem assign_range_empty (env : Env T) (reverse : Bool) (first : vector_iterator)
    (s : St T) (xs : List T) (hrep : Represents s xs) :
    ∃ s1, assign_range env reverse first first s = .ok () s1 ∧ Represents s1 [] ∧
      s1.self.capacity_ = s.self.capacity_ := by
  obtain ⟨s0, hrun0, hrep0, _, hcap0, _⟩ := clear_ok s xs hrep
  have hdist : distance reverse first first = some 0 := by
    have := distance_range reverse first 0
    rw [plus_zero] at this
    simpa using this
  refine ⟨s0, ?_, hrep0, hcap0⟩
  simp only [assign_range]
  rw [hrun0]
  simp only [reserve_and_append, hdist]
  have hconv : size_t_of_ptrdiff 0 = 0 := by simp [size_t_of_ptrdiff]
  rw [hconv]
  simp [reserve, append_range, vector_iterator.operator_eq]

/-- C13, as amended: on every valid vector, whatever it holds, when nothing throws:
`assign(count, value)`, for an argument that holds `x` and is not an element of the
vector (or with `count = 0`), returns with exactly `count` copies of `x` (size
`count`); and `assign(first, last)`, for iterators of the container bounding a
valid range that lies outside the vector itself (or is empty), returns with
exactly the elements of that range in order; in both cases the capacity is
`max(old capacity, new size)`. -/
theorem assign_spec (env : Env T) (s : St T) (xs : List T) (count : Nat) (value : Arg T)
    (x : T) (reverse : Bool) (first last : vector_iterator) (zs : List T)
    (hrep : Represents s xs) (hcalm : Calm env s.world)
    (hx : value.read s.world = some x) (hval : ¬ value.inside s.self ∨ count = 0)
    (hrange : RangeHolds s.world reverse first last zs)
    (hout : Outside first s ∨ zs = []) :
    (∃ s1, assign_count env count value s = .ok () s1 ∧
      Represents s1 (List.replicate count x) ∧ s1.self.size_ = count ∧
      s1.self.capacity_ = max s.self.capacity_ s1.self.size_) ∧
    (∃ s1, assign_range env reverse first last s = .ok () s1 ∧
      Represents s1 zs ∧ s1.self.size_ = zs.length ∧
      s1.self.capacity_ = max s.self.capacity_ s1.self.size_) := by
  constructor
  · obtain ⟨s1, hrun, hrep1, hcap, _, _⟩ := assign_count_ok env s xs count x hrep hcalm
    have hsz : s1.self.size_ = count := by simpa using hrep1.1
    refine ⟨s1, ?_, hrep1, hsz, by rw [hsz]; exact hcap⟩
    rw [assign_count_arg env s xs count value x hrep hcalm hx hval]
    exact hrun
  · rcases hout with ho | hnil
    · obtain ⟨s1, hrun, hrep1, hcap, _, _⟩ :=
        assign_range_ok env reverse first last s xs zs hrep hcalm hrange ho
      have hsz : s1.self.size_ = zs.length := hrep1.1
      exact ⟨s1, hrun, hrep1, hsz, by rw [hsz]; exact hcap⟩
    · subst hnil
      have hlast : last = first := by
        rw [hrange.1]
        exact plus_zero reverse first
      subst hlast
      obtain ⟨s1, hrun, hrep1, hcap⟩ := assign_range_empty env reverse last s xs hrep
      have hsz : s1.self.size_ = 0 := hrep1.1
      exact ⟨s1, hrun, hrep1, hsz, by rw [hsz, hcap]; simp⟩

/-- C13 (amended) at `store_pair`: the vector `{1}` at address 0 is assigned three
copies of the second element of the vector `{2, 3}` at address 1, and the range
`[begin(), end())` of that vector. -/
theorem assign_spec_witness :
    Represents vec_first [1] ∧ Calm Env.quiet vec_first.world ∧
    (Arg.lvalue (some 1) 1 : Arg Nat).read vec_first.world = some 3 ∧
    ¬ (Arg.lvalue (some 1) 1 : Arg Nat).inside vec_first.self ∧
    RangeHolds vec_first.world false (store_pair.objs 1).begin (store_pair.objs 1).end_
      [2, 3] ∧
    Outside (store_pair.objs 1).begin vec_first ∧
    (∃ s1, assign_count Env.quiet 3 (.lvalue (some 1) 1) vec_first = .ok () s1 ∧
      Represents s1 (List.replicate 3 3) ∧ s1.self.size_ = 3 ∧
      s1.self.capacity_ = max vec_first.self.capacity_ s1.self.size_) ∧
    (∃ s1, assign_range Env.quiet false (store_pair.objs 1).begin (store_pair.objs 1).end_
        vec_first = .ok () s1 ∧
      Represents s1 [2, 3] ∧ s1.self.size_ = [2, 3].length ∧
      s1.self.capacity_ = max vec_first.self.capacity_ s1.self.size_) :=
  have hin : ¬ (Arg.lvalue (some 1) 1 : Arg Nat).inside vec_first.self := by
    show ¬ (some 1 = vec_first.self.data_)
    decide
  have hrange : RangeHolds vec_first.world false (store_pair.objs 1).begin
      (store_pair.objs 1).end_ [2, 3] :=
    range_of_vector store_pair.world (store_pair.objs 1) [2, 3] store_pair_second
  have hout : Outside (store_pair.objs 1).begin vec_first := by
    intro r hr
    have : r = 1 := by
      have h : some 1 = some r := hr
      exact (Option.some.inj h).symm
    subst this
    exact ⟨by decide, by decide⟩
  ⟨store_pair_first, calm_quiet _, rfl, hin, hrange, hout,
    assign_spec Env.quiet vec_first [1] 3 (.lvalue (some 1) 1) 3 false
      (store_pair.objs 1).begin (store_pair.objs 1).end_ [2, 3] store_pair_first
      (calm_quiet _) rfl (Or.inl hin) hrange (Or.inl hout)⟩

/-- C13 as stated fails.  On the vector `{10, 20}`, `assign(3, v[0])` clears the
vector, which destroys `v[0]`, reserves new storage and then reads `v[0]`: the call
is undefined and does not end with `{10, 10, 10}`.  Likewise `assign(begin(), end())`
on the vector's own range reads elements that `clear()` has destroyed, and does not
end with `{10, 20}`. -/
theorem assign_spec_fails :
    Represents vec_two [10, 20] ∧ Calm Env.quiet vec_two.world ∧
    (Arg.lvalue (some 0) 0 : Arg Nat).read vec_two.world = some 10 ∧
    assign_count Env.quiet 3 (.lvalue (some 0) 0) vec_two = .ub ∧
    (¬ ∃ s1, assign_count Env.quiet 3 (.lvalue (some 0) 0) vec_two = .ok () s1 ∧
      Represents s1 (List.replicate 3 10)) ∧
    RangeHolds vec_two.world false vec_two.self.begin vec_two.self.end_ [10, 20] ∧
    assign_range Env.quiet false vec_two.self.begin vec_two.self.end_ vec_two = .ub ∧
    (¬ ∃ s1, assign_range Env.quiet false vec_two.self.begin vec_two.self.end_ vec_two
        = .ok () s1 ∧ Represents s1 [10, 20]) := by
  have hub : assign_count Env.quiet 3 (.lvalue (some 0) 0) vec_two = .ub := rfl
  have hub2 : assign_range Env.quiet false vec_two.self.begin vec_two.self.end_ vec_two
      = .ub := rfl
  refine ⟨vec_two_represents, calm_quiet _, rfl, hub, ?_,
    range_of_vector vec_two.world vec_two.self [10, 20] vec_two_represents, hub2, ?_⟩
  · rintro ⟨s1, h, _⟩
    rw [hub] at h
    cases h
  · rintro ⟨s1, h, _⟩
    rw [hub2] at h
    cases h

/-- A range whose `last` lies before its `first`: the negative distance reaches
`reserve` as a number of elements no allocator can serve, `allocate` throws, and
the vector is left cleared with its old storage. -/
theorem assign_range_backwards :
    distance false (store_pair.objs 1).end_ (store_pair.objs 1).begin = some (-2) ∧
    ∃ s1, assign_range env_bounded false (store_pair.objs 1).end_ (store_pair.objs 1).begin
        vec_first = .throw .bad_alloc s1 ∧
      s1.self.size_ = 0 ∧ s1.self.capacity_ = 1 ∧ s1.self.data_ = vec_first.self.data_ :=
  ⟨by decide, _, rfl, rfl, rfl, rfl⟩

/-! ## The invariant `size <= capacity` on every exit -/

theorem reserve_impl_sat (env : Env T) (n : Nat) (s : St T) :
    (reserve_impl env n s).sat
      (fun s1 => s1.self.size_ = s.self.size_ ∧ s1.self.capacity_ = n)
      (fun s1 => s1.self = s.self) := by
  unfold reserve_impl
  cases allocate env n s.world with
  | ub => trivial
  | throw e w => exact rfl
  | ok q w0 =>
    simp only
    cases relocate env s.self q s.self.size_ 0 w0 with
    | ub => trivial
    | throw e p =>
      obtain ⟨w1, i⟩ := p
      simp only
      by_cases hstd : e.is_std = true
      · rw [if_pos hstd]
        cases rollback env s.self q i i 0 w1 with
        | ub => trivial
        | throw e2 w2 => exact rfl
        | ok u w2 => exact rfl
      · rw [if_neg hstd]
        exact rfl
    | ok u p =>
      obtain ⟨w1, i⟩ := p
      simp only
      cases deallocate s.self.data_ s.self.capacity_ w1 with
      | none => trivial
      | some w2 => exact ⟨rfl, rfl⟩

theorem reserve_sat (env : Env T) (n : Nat) (s : St T) :
    (reserve env n s).sat
      (fun s1 => s1.self.size_ = s.self.size_ ∧ n ≤ s1.self.capacity_ ∧
        s.self.capacity_ ≤ s1.self.capacity_)
      (fun s1 => s1.self = s.self) := by
  unfold reserve
  by_cases hn : n ≤ s.self.capacity_
  · rw [if_pos hn]
    exact ⟨rfl, hn, Nat.le_refl _⟩
  · rw [if_neg hn]
    have h := reserve_impl_sat env n s
    cases hr : reserve_impl env n s with
    | ub => trivial
    | throw e s1 => rw [hr] at h; exact h
    | ok u s1 =>
      rw [hr] at h
      obtain ⟨h1, h2⟩ := h
      exact ⟨h1, by rw [h2], by rw [h2]; omega⟩

theorem emplace_back_sat (env : Env T) (x : Arg T) (s : St T) (hb : s.bounded) :
    (emplace_back env x s).sat (fun s1 => s1.bounded ∧ s1.self.size_ = s.self.size_ + 1)
      (fun s1 => s1.bounded) := by
  have hb1 : s.self.size_ ≤ s.self.capacity_ := hb
  have hgrow : (if s.self.capacity_ = s.self.size_ then
        reserve env (2 * s.self.capacity_ + 1) s else Outcome.ok () s).sat
      (fun s1 => s1.self.size_ = s.self.size_ ∧ s1.self.size_ < s1.self.capacity_)
      (fun s1 => s1.bounded) := by
    by_cases hfull : s.self.capacity_ = s.self.size_
    · rw [if_pos hfull]
      have h := reserve_sat env (2 * s.self.capacity_ + 1) s
      cases hr : reserve env (2 * s.self.capacity_ + 1) s with
      | ub => trivial
      | throw e s1 =>
        rw [hr] at h
        have h0 : s1.self = s.self := h
        show s1.self.size_ ≤ s1.self.capacity_
        rw [h0]; exact hb1
      | ok u s1 =>
        rw [hr] at h
        obtain ⟨h1, h2, _⟩ := h
        exact ⟨h1, by omega⟩
    · rw [if_neg hfull]
      exact ⟨rfl, by omega⟩
  unfold emplace_back
  cases hr : (if s.self.capacity_ = s.self.size_ then
      reserve env (2 * s.self.capacity_ + 1) s else Outcome.ok () s) with
  | ub => trivial
  | throw e s1 => rw [hr] at hgrow; exact hgrow
  | ok u s1 =>
    rw [hr] at hgrow
    obtain ⟨h1, h2⟩ := hgrow
    simp only
    cases construct_forward env s1.self.data_ s1.self.size_ x s1.world with
    | ub => trivial
    | throw e w =>
      show s1.self.size_ ≤ s1.self.capacity_
      omega
    | ok u2 w =>
      exact ⟨by show s1.self.size_ + 1 ≤ s1.self.capacity_; omega,
        by show s1.self.size_ + 1 = s.self.size_ + 1; omega⟩

theorem emplace_back_keeps (env : Env T) (x : Arg T) (s : St T) (hb : s.bounded) :
    (emplace_back env x s).sat St.bounded St.bounded := by
  have h := emplace_back_sat env x s hb
  cases hr : emplace_back env x s with
  | ub => trivial
  | throw e s1 => rw [hr] at h; exact h
  | ok u s1 => rw [hr] at h; exact h.1

theorem push_back_keeps (env : Env T) (x : Arg T) (s : St T) (hb : s.bounded) :
    (push_back env x s).sat St.bounded St.bounded := by
  have h := emplace_back_keeps env x.move s hb
  rw [push_back_forward]
  cases hr : emplace_back env x.move s with
  | ub => trivial
  | throw e s1 => rw [hr] at h; exact h
  | ok u s1 => rw [hr] at h; exact h

theorem pop_back_keeps (s : St T) (hb : s.bounded) :
    (pop_back s).sat St.bounded St.bounded := by
  have hb1 : s.self.size_ ≤ s.self.capacity_ := hb
  unfold pop_back
  by_cases h0 : s.self.size_ = 0
  · rw [if_pos h0]; trivial
  · rw [if_neg h0]
    cases destroy s.self.data_ (s.self.size_ - 1) s.world with
    | none => trivial
    | some w =>
      show s.self.size_ - 1 ≤ s.self.capacity_
      omega

theorem pop_while_keeps (m : Nat) :
    ∀ (fuel : Nat) (s : St T), s.bounded → (pop_while m fuel s).sat St.bounded St.bounded := by
  intro fuel
  induction fuel with
  | zero => intro s hb; exact hb
  | succ fuel ih =>
    intro s hb
    simp only [pop_while]
    by_cases hgt : s.self.size_ > m
    · rw [if_pos hgt]
      have h := pop_back_keeps s hb
      cases hr : pop_back s with
      | ub => trivial
      | throw e s1 => rw [hr] at h; exact h
      | ok u s1 => rw [hr] at h; exact ih s1 h
    · rw [if_neg hgt]; exact hb

theorem emplace_while_keeps (env : Env T) (m : Nat) (x : Arg T) :
    ∀ (fuel : Nat) (s : St T), s.bounded →
      (emplace_while env m x fuel s).sat St.bounded St.bounded := by
  intro fuel
  induction fuel with
  | zero => intro s hb; exact hb
  | succ fuel ih =>
    intro s hb
    simp only [emplace_while]
    by_cases hlt : s.self.size_ < m
    · rw [if_pos hlt]
      have h := emplace_back_keeps env x s hb
      cases hr : emplace_back env x s with
      | ub => trivial
      | throw e s1 => rw [hr] at h; exact h
      | ok u s1 => rw [hr] at h; exact ih s1 h
    · rw [if_neg hlt]; exact hb

theorem emplace_times_keeps (env : Env T) (x : Arg T) :
    ∀ (count : Nat) (s : St T), s.bounded →
      (emplace_times env x count s).sat St.bounded St.bounded := by
  intro count
  induction count with
  | zero => intro s hb; exact hb
  | succ count ih =>
    intro s hb
    simp only [emplace_times]
    have h := emplace_back_keeps env x s hb
    cases hr : emplace_back env x s with
    | ub => trivial
    | throw e s1 => rw [hr] at h; exact h
    | ok u s1 => rw [hr] at h; exact ih s1 h

theorem emplace_list_keeps (env : Env T) :
    ∀ (zs : List T) (s : St T), s.bounded →
      (emplace_list env zs s).sat St.bounded St.bounded := by
  intro zs
  induction zs with
  | nil => intro s hb; exact hb
  | cons z zs ih =>
    intro s hb
    simp only [emplace_list]
    have h := emplace_back_keeps env (.temp z) s hb
    cases hr : emplace_back env (.temp z) s with
    | ub => trivial
    | throw e s1 => rw [hr] at h; exact h
    | ok u s1 => rw [hr] at h; exact ih s1 h

theorem append_range_keeps (env : Env T) (reverse : Bool) (last : vector_iterator) :
    ∀ (fuel : Nat) (first : vector_iterator) (s : St T), s.bounded →
      (append_range env reverse last fuel first s).sat St.bounded St.bounded := by
  intro fuel
  induction fuel with
  | zero =>
    intro first s hb
    simp only [append_range]
    by_cases he : first.operator_eq last = true
    · rw [if_pos he]; exact hb
    · rw [if_neg he]; trivial
  | succ fuel ih =>
    intro first s hb
    simp only [append_range]
    by_cases he : first.operator_eq last = true
    · rw [if_pos he]; exact hb
    · rw [if_neg he]
      cases (first.operator_star : Option (Arg T)) with
      | none => trivial
      | some x =>
        simp only
        have h := emplace_back_keeps env x s hb
        cases hr : emplace_back env x s with
        | ub => trivial
        | throw e s1 => rw [hr] at h; exact h
        | ok u s1 => rw [hr] at h; exact ih _ s1 h

theorem reserve_keeps (env : Env T) (n : Nat) (s : St T) (hb : s.bounded) :
    (reserve env n s).sat St.bounded St.bounded := by
  have hb1 : s.self.size_ ≤ s.self.capacity_ := hb
  have h := reserve_sat env n s
  cases hr : reserve env n s with
  | ub => trivial
  | throw e s1 =>
    rw [hr] at h
    have h0 : s1.self = s.self := h
    show s1.self.size_ ≤ s1.self.capacity_
    rw [h0]; exact hb1
  | ok u s1 =>
    rw [hr] at h
    obtain ⟨h1, _, h3⟩ := h
    show s1.self.size_ ≤ s1.self.capacity_
    omega

theorem clear_keeps (s : St T) (hb : s.bounded) : (clear s).sat St.bounded St.bounded :=
  pop_while_keeps 0 s.self.size_ s hb

theorem resize_value_keeps (env : Env T) (n : Nat) (value : Arg T) (s : St T) (hb : s.bounded) :
    (resize_value env n value s).sat St.bounded St.bounded := by
  unfold resize_value
  have h := pop_while_keeps n (s.self.size_ - n) s hb
  cases hr : pop_while n (s.self.size_ - n) s with
  | ub => trivial
  | throw e s1 => rw [hr] at h; exact h
  | ok u s1 =>
    rw [hr] at h
    simp only
    by_cases hlt : s1.self.size_ < n
    · rw [if_pos hlt]
      have h2 := reserve_keeps env n s1 h
      cases hr2 : reserve env n s1 with
      | ub => trivial
      | throw e s2 => rw [hr2] at h2; exact h2
      | ok u2 s2 => rw [hr2] at h2; exact emplace_while_keeps env n value.as_const _ s2 h2
    · rw [if_neg hlt]; exact h

theorem assign_count_keeps (env : Env T) (count : Nat) (value : Arg T) (s : St T)
    (hb : s.bounded) : (assign_count env count value s).sat St.bounded St.bounded := by
  unfold assign_count
  have h := clear_keeps s hb
  cases hr : clear s with
  | ub => trivial
  | throw e s1 => rw [hr] at h; exact h
  | ok u s1 =>
    rw [hr] at h
    simp only
    have h2 := reserve_keeps env count s1 h
    cases hr2 : reserve env count s1 with
    | ub => trivial
    | throw e s2 => rw [hr2] at h2; exact h2
    | ok u2 s2 => rw [hr2] at h2; exact emplace_times_keeps env value.as_const count s2 h2

theorem reserve_and_append_keeps (env : Env T) (reverse : Bool) (first last : vector_iterator)
    (s : St T) (hb : s.bounded) :
    (reserve_and_append env reverse first last s).sat St.bounded St.bounded := by
  unfold reserve_and_append
  cases distance reverse first last with
  | none => trivial
  | some d =>
    simp only
    have h2 := reserve_keeps env (size_t_of_ptrdiff d) s hb
    cases hr2 : reserve env (size_t_of_ptrdiff d) s with
    | ub => trivial
    | throw e s2 => rw [hr2] at h2; exact h2
    | ok u2 s2 =>
      rw [hr2] at h2
      exact append_range_keeps env reverse last _ first s2 h2

theorem assign_range_keeps (env : Env T) (reverse : Bool) (first last : vector_iterator)
    (s : St T) (hb : s.bounded) :
    (assign_range env reverse first last s).sat St.bounded St.bounded := by
  unfold assign_range
  have h := clear_keeps s hb
  cases hr : clear s with
  | ub => trivial
  | throw e s1 => rw [hr] at h; exact h
  | ok u s1 =>
    rw [hr] at h
    exact reserve_and_append_keeps env reverse first last s1 h

theorem shrink_to_fit_keeps (env : Env T) (s : St T) (hb : s.bounded) :
    (shrink_to_fit env s).sat St.bounded St.bounded := by
  have hb1 : s.self.size_ ≤ s.self.capacity_ := hb
  unfold shrink_to_fit
  by_cases hlt : s.self.size_ < s.self.capacity_
  · rw [if_pos hlt]
    have h := reserve_impl_sat env s.self.size_ s
    cases hr : reserve_impl env s.self.size_ s with
    | ub => trivial
    | throw e s1 =>
      rw [hr] at h
      have h0 : s1.self = s.self := h
      show s1.self.size_ ≤ s1.self.capacity_
      rw [h0]; exact hb1
    | ok u s1 =>
      rw [hr] at h
      obtain ⟨h1, h2⟩ := h
      show s1.self.size_ ≤ s1.self.capacity_
      omega
  · rw [if_neg hlt]; exact hb

/-- Whatever the heap holds and whatever throws, a mutation that ends in a state,
by returning or by an exception, ends with `size <= capacity` if it started so. -/
theorem mutation_keeps [Inhabited T] (env : Env T) (m : Mutation T) (s : St T)
    (hb : s.bounded) : (m.run env s).sat St.bounded St.bounded := by
  cases m with
  | reserve n => exact reserve_keeps env n s hb
  | push_back x => exact push_back_keeps env (.temp x) s hb
  | emplace_back x =>
    have h := emplace_back_keeps env (.temp x) s hb
    simp only [Mutation.run]
    cases hr : emplace_back env (.temp x) s with
    | ub => trivial
    | throw e s1 => rw [hr] at h; exact h
    | ok u s1 => rw [hr] at h; exact h
  | pop_back => exact pop_back_keeps s hb
  | clear => exact clear_keeps s hb
  | resize n => exact resize_value_keeps env n (.temp default) s hb
  | resize_value n value => exact resize_value_keeps env n (.temp value) s hb
  | assign_count count value => exact assign_count_keeps env count (.temp value) s hb
  | assign_range reverse first last => exact assign_range_keeps env reverse first last s hb
  | shrink_to_fit => exact shrink_to_fit_keeps env s hb

theorem sat_invariant {α : Type} (o : Outcome (St T) α) (h : o.sat St.bounded St.bounded) :
    o.sat (fun s => size_invariant s.self) (fun s => size_invariant s.self) := by
  cases o with
  | ub => trivial
  | throw e s => exact ⟨Nat.zero_le _, h⟩
  | ok a s => exact ⟨Nat.zero_le _, h⟩

theorem sat_constructed {α : Type} (o : Outcome (St T) α) (h : o.sat St.bounded St.bounded) :
    o.sat (fun s => size_invariant s.self) (fun _ => True) := by
  cases o with
  | ub => trivial
  | throw e s => trivial
  | ok a s => exact ⟨Nat.zero_le _, h⟩

theorem empty_bounded (w : World T) : St.bounded ⟨w, vector.empty⟩ :=
  Nat.le_refl 0

theorem store_call_keeps {α : Type} (a : Nat) (m : St T → Outcome (St T) α) (st : Store T)
    (hm : ∀ s, s.bounded → (m s).sat St.bounded St.bounded) (hst : st.invariant) :
    (Store.call a m st).sat Store.invariant Store.invariant := by
  have h := hm ⟨st.world, st.objs a⟩ (hst a).2
  have key : ∀ s1 : St T, s1.bounded →
      Store.invariant ⟨s1.world, Function.update st.objs a s1.self⟩ := by
    intro s1 h1 b
    by_cases hb : b = a
    · subst hb
      simp only [Function.update_same]
      exact ⟨Nat.zero_le _, h1⟩
    · simp only [Function.update_noteq hb]
      exact hst b
  unfold Store.call
  cases hr : m ⟨st.world, st.objs a⟩ with
  | ub => trivial
  | throw e s1 => rw [hr] at h; exact key s1 h
  | ok u s1 => rw [hr] at h; exact key s1 h

theorem swap_keeps (this other : Nat) (st : Store T) (hst : st.invariant) :
    (swap this other st).invariant := by
  intro b
  simp only [swap]
  by_cases h1 : b = other
  · subst h1
    simp only [Function.update_same]
    exact hst this
  · rw [Function.update_noteq h1]
    by_cases h2 : b = this
    · subst h2
      simp only [Function.update_same]
      exact hst other
    · rw [Function.update_noteq h2]
      exact hst b

theorem move_construct_keeps (this other : Nat) (st : Store T) (hst : st.invariant) :
    (move_construct this other st).invariant := by
  intro b
  simp only [move_construct]
  by_cases h1 : b = other
  · subst h1
    simp only [Function.update_same]
    exact ⟨Nat.le_refl _, Nat.le_refl _⟩
  · rw [Function.update_noteq h1]
    by_cases h2 : b = this
    · subst h2
      simp only [Function.update_same]
      exact hst other
    · rw [Function.update_noteq h2]
      exact hst b

theorem move_assign_keeps (this other : Nat) (st : Store T) (hst : st.invariant) :
    (move_assign this other st).sat Store.invariant Store.invariant := by
  unfold move_assign
  by_cases hne : this ≠ other
  · rw [if_pos hne]
    exact store_call_keeps other clear _ (fun s hb => clear_keeps s hb)
      (swap_keeps this other st hst)
  · rw [if_neg hne]
    exact hst

theorem copy_assign_keeps (env : Env T) (this other : Nat) (st : Store T)
    (hst : st.invariant) :
    (copy_assign env this other st).sat Store.invariant Store.invariant := by
  unfold copy_assign
  by_cases hne : this ≠ other
  · rw [if_pos hne]
    apply store_call_keeps this _ st _ hst
    intro s hb
    have h := clear_keeps s hb
    cases hr : clear s with
    | ub => trivial
    | throw e s1 => rw [hr] at h; exact h
    | ok u s1 =>
      rw [hr] at h
      simp only
      have h2 := reserve_keeps env (st.objs other).capacity_ s1 h
      cases hr2 : reserve env (st.objs other).capacity_ s1 with
      | ub => trivial
      | throw e s2 => rw [hr2] at h2; exact h2
      | ok u2 s2 =>
        rw [hr2] at h2
        exact append_range_keeps env false _ _ _ s2 h2
  · rw [if_neg hne]
    exact hst

theorem copy_construct_keeps (env : Env T) (this other : Nat) (st : Store T)
    (hst : st.invariant) :
    (copy_construct env this other st).sat Store.invariant Store.invariant := by
  unfold copy_construct construct_range
  have h := reserve_and_append_keeps env false (st.objs other).begin (st.objs other).end_
    ⟨st.world, vector.empty⟩ (empty_bounded st.world)
  cases hr : reserve_and_append env false (st.objs other).begin (st.objs other).end_
      ⟨st.world, vector.empty⟩ with
  | ub => trivial
  | throw e s1 =>
    simp only
    cases destruct s1 with
    | ub => trivial
    | throw e1 w => exact hst
    | ok u w => exact hst
  | ok u s1 =>
    rw [hr] at h
    intro b
    by_cases hb : b = this
    · subst hb
      simp only [Function.update_same]
      exact ⟨Nat.zero_le _, h⟩
    · simp only [Function.update_noteq hb]
      exact hst b

theorem construct_init_list_keeps (env : Env T) (init : List T) (w : World T) :
    (construct_init_list env init w).sat St.bounded St.bounded := by
  unfold construct_init_list
  have h2 := reserve_keeps env init.length ⟨w, vector.empty⟩ (empty_bounded w)
  cases hr2 : reserve env init.length ⟨w, vector.empty⟩ with
  | ub => trivial
  | throw e s2 => rw [hr2] at h2; exact h2
  | ok u2 s2 => rw [hr2] at h2; exact emplace_list_keeps env init s2 h2

theorem construct_init_list_ok (env : Env T) (init : List T) (w : World T)
    (hcalm : Calm env w) :
    ∃ s1, construct_init_list env init w = .ok () s1 ∧ Represents s1 init := by
  obtain ⟨s2, hrun2, hrep2, hcalm2, _, hcap2⟩ :=
    reserve_max env ⟨w, vector.empty⟩ [] init.length (represents_empty w) hcalm
  obtain ⟨s1, hrun1, hrep1, _, _, _⟩ :=
    emplace_list_ok env init s2 [] hrep2 hcalm2 (by simp; omega)
  refine ⟨s1, ?_, by simpa using hrep1⟩
  simp only [construct_init_list]
  rw [hrun2]
  exact hrun1

/-- C19: the invariant `0 <= size <= capacity` holds for every newly constructed
vector (default, `(count, value)`, `(count)`, range, initializer list, copy and move
construction), and every operation keeps it: whatever throws, if `reserve`,
`push_back`, `emplace_back`, `pop_back`, `clear`, `resize`, `assign` or
`shrink_to_fit` ends in a state, by returning or by an exception, the invariant
holds there if it held before, and so it does for every vector of the store after
`swap`, copy assignment and move assignment; and on a valid vector, within the
precondition of the call and when nothing throws, each of these calls and each
constructor does return.  The calls listed pass their values in temporaries; the
last part says the same of `emplace_back`, `push_back`, `resize` and `assign` on
any argument, wherever the object it names lives. -/
theorem invariant_spec [Inhabited T] (env : Env T) :
    size_invariant vector.empty ∧
    (∀ (w : World T) (count : Nat) (value : Arg T),
      (construct_count_value env count value w).sat
        (fun s => size_invariant s.self) (fun _ => True)) ∧
    (∀ (w : World T) (count : Nat),
      (construct_count env count w).sat (fun s => size_invariant s.self) (fun _ => True)) ∧
    (∀ (w : World T) (reverse : Bool) (first last : vector_iterator),
      (construct_range env reverse first last w).sat
        (fun s => size_invariant s.self) (fun _ => True)) ∧
    (∀ (w : World T) (init : List T),
      (construct_init_list env init w).sat
        (fun s => size_invariant s.self) (fun _ => True)) ∧
    (∀ (st : Store T) (this other : Nat), st.invariant →
      (copy_construct env this other st).sat Store.invariant Store.invariant) ∧
    (∀ (st : Store T) (this other : Nat), st.invariant →
      (move_construct this other st).invariant) ∧
    (∀ (m : Mutation T) (s : St T), size_invariant s.self →
      (m.run env s).sat (fun s1 => size_invariant s1.self)
        (fun s1 => size_invariant s1.self)) ∧
    (∀ (st : Store T) (this other : Nat), st.invariant → (swap this other st).invariant) ∧
    (∀ (st : Store T) (this other : Nat), st.invariant →
      (copy_assign env this other st).sat Store.invariant Store.invariant) ∧
    (∀ (st : Store T) (this other : Nat), st.invariant →
      (move_assign this other st).sat Store.invariant Store.invariant) ∧
    (∀ (m : Mutation T) (s : St T) (xs : List T), Represents s xs → Calm env s.world →
      m.pre s → ∃ s1, m.run env s = .ok () s1 ∧ size_invariant s1.self) ∧
    (∀ (st : Store T) (this other : Nat) (xs ys : List T), this ≠ other →
      Represents ⟨st.world, st.objs this⟩ xs → Represents ⟨st.world, st.objs other⟩ ys →
      (∀ p, (st.objs this).data_ = some p → (st.objs other).data_ ≠ some p) →
      Calm env st.world →
      (∃ st1, copy_assign env this other st = .ok () st1 ∧
        size_invariant (st1.objs this) ∧ size_invariant (st1.objs other)) ∧
      (∃ st1, move_assign this other st = .ok () st1 ∧
        size_invariant (st1.objs this) ∧ size_invariant (st1.objs other))) ∧
    (∀ (w : World T) (count : Nat) (value : T) (init : List T), Calm env w →
      (∃ s1, construct_count_value env count (.temp value) w = .ok () s1 ∧
        size_invariant s1.self) ∧
      (∃ s1, construct_count env count w = .ok () s1 ∧ size_invariant s1.self) ∧
      (∃ s1, construct_init_list env init w = .ok () s1 ∧ size_invariant s1.self)) ∧
    (∀ (w : World T) (reverse : Bool) (first last : vector_iterator) (zs : List T),
      Calm env w → RangeHolds w reverse first last zs → Outside first ⟨w, vector.empty⟩ →
      ∃ s1, construct_range env reverse first last w = .ok () s1 ∧
        size_invariant s1.self) ∧
    (∀ (st : Store T) (this other : Nat) (ys : List T), this ≠ other →
      Represents ⟨st.world, st.objs other⟩ ys → Calm env st.world →
      ∃ st1, copy_construct env this other st = .ok () st1 ∧
        size_invariant (st1.objs this) ∧ size_invariant (st1.objs other)) ∧
    (∀ (a : Arg T) (n : Nat) (s : St T), size_invariant s.self →
      (emplace_back env a s).sat (fun s1 => size_invariant s1.self)
        (fun s1 => size_invariant s1.self) ∧
      (push_back env a s).sat (fun s1 => size_invariant s1.self)
        (fun s1 => size_invariant s1.self) ∧
      (resize_value env n a s).sat (fun s1 => size_invariant s1.self)
        (fun s1 => size_invariant s1.self) ∧
      (assign_count env n a s).sat (fun s1 => size_invariant s1.self)
        (fun s1 => size_invariant s1.self)) := by
  refine ⟨⟨Nat.le_refl _, Nat.le_refl _⟩, ?_, ?_, ?_, ?_, ?_, ?_, ?_, ?_, ?_, ?_, ?_, ?_,
    ?_, ?_, ?_, ?_⟩
  · intro w count value
    exact sat_constructed _ (resize_value_keeps env count value _ (empty_bounded w))
  · intro w count
    exact sat_constructed _
      (resize_value_keeps env count (.temp default) _ (empty_bounded w))
  · intro w reverse first last
    exact sat_constructed _
      (reserve_and_append_keeps env reverse first last _ (empty_bounded w))
  · intro w init
    exact sat_constructed _ (construct_init_list_keeps env init w)
  · intro st this other hst
    exact copy_construct_keeps env this other st hst
  · intro st this other hst
    exact move_construct_keeps this other st hst
  · intro m s hs
    exact sat_invariant _ (mutation_keeps env m s hs.2)
  · intro st this other hst
    exact swap_keeps this other st hst
  · intro st this other hst
    exact copy_assign_keeps env this other st hst
  · intro st this other hst
    exact move_assign_keeps this other st hst
  · intro m s xs hrep hcalm hpre
    obtain ⟨s1, xs1, hrun, hrep1, _, _⟩ := mutation_ok env m s xs hrep hcalm hpre
    exact ⟨s1, hrun, Nat.zero_le _, hrep1.2.1⟩
  · intro st this other xs ys hne hx hy hsep hcalm
    constructor
    · obtain ⟨st1, hrun, _, hrep, hind, _, _⟩ :=
        copy_assign_ok env st this other xs ys hne hx hy hsep hcalm
      exact ⟨st1, hrun, ⟨Nat.zero_le _, hrep.2.1⟩, ⟨Nat.zero_le _, hind.2.1.2.1⟩⟩
    · obtain ⟨st1, hrun, _, hrep, hrep2, _, _, _⟩ :=
        move_assign_ok st this other xs ys hne hx hy hsep
      exact ⟨st1, hrun, ⟨Nat.zero_le _, hrep.2.1⟩, ⟨Nat.zero_le _, hrep2.2.1⟩⟩
  · intro w count value init hcalm
    refine ⟨?_, ?_, ?_⟩
    · obtain ⟨s1, hrun, hrep1, _⟩ :=
        resize_value_ok env ⟨w, vector.empty⟩ [] count value (represents_empty w) hcalm
      exact ⟨s1, hrun, Nat.zero_le _, hrep1.2.1⟩
    · obtain ⟨s1, hrun, hrep1, _⟩ :=
        resize_value_ok env ⟨w, vector.empty⟩ [] count default (represents_empty w) hcalm
      exact ⟨s1, hrun, Nat.zero_le _, hrep1.2.1⟩
    · obtain ⟨s1, hrun, hrep1⟩ := construct_init_list_ok env init w hcalm
      exact ⟨s1, hrun, Nat.zero_le _, hrep1.2.1⟩
  · intro w reverse first last zs hcalm hrange hout
    obtain ⟨s1, hrun, hrep1, _⟩ :=
      reserve_and_append_ok env reverse first last ⟨w, vector.empty⟩ zs (represents_empty w)
        hcalm hrange hout
    exact ⟨s1, hrun, Nat.zero_le _, hrep1.2.1⟩
  · intro st this other ys hne hy hcalm
    obtain ⟨st1, hrun, _, hrep, hind, _, _⟩ :=
      copy_construct_ok env st this other ys hne hy hcalm
    exact ⟨st1, hrun, ⟨Nat.zero_le _, hrep.2.1⟩, ⟨Nat.zero_le _, hind.2.1.2.1⟩⟩
  · intro a n s hs
    exact ⟨sat_invariant _ (emplace_back_keeps env a s hs.2),
      sat_invariant _ (push_back_keeps env a s hs.2),
      sat_invariant _ (resize_value_keeps env n a s hs.2),
      sat_invariant _ (assign_count_keeps env n a s hs.2)⟩

/-- C19 on `{10, 20}`: after `pop_back`, and after `shrink_to_fit` once it has shed
an element. -/
theorem invariant_spec_witness :
    size_invariant vec_two.self ∧ Represents vec_two [10, 20] ∧
    (Mutation.pop_back : Mutation Nat).pre vec_two ∧
    (∃ s1, (Mutation.pop_back : Mutation Nat).run Env.quiet vec_two = .ok () s1 ∧
      size_invariant s1.self) ∧
    ((Mutation.shrink_to_fit : Mutation Nat).run Env.quiet vec_slack).sat
      (fun s1 => size_invariant s1.self) (fun s1 => size_invariant s1.self) :=
  have h := @invariant_spec Nat _ Env.quiet
  have hpre : 0 < vec_two.self.size_ := by decide
  have hinv : vec_two.self.size_ ≤ vec_two.self.capacity_ := by decide
  have hinv2 : vec_slack.self.size_ ≤ vec_slack.self.capacity_ := by decide
  ⟨⟨Nat.zero_le _, hinv⟩, vec_two_represents, hpre,
    h.2.2.2.2.2.2.2.2.2.2.2.1 Mutation.pop_back vec_two [10, 20] vec_two_represents
      (calm_quiet _) hpre,
    h.2.2.2.2.2.2.2.1 Mutation.shrink_to_fit vec_slack ⟨Nat.zero_le _, hinv2⟩⟩

/-! ## What a call can touch, on every exit -/

theorem sat_mono {σ α : Type} (o : Outcome σ α) (A B A1 B1 : σ → Prop) (h : o.sat A B)
    (hA : ∀ x, A x → A1 x) (hB : ∀ x, B x → B1 x) : o.sat A1 B1 := by
  cases o with
  | ub => trivial
  | throw e x => exact hB x h
  | ok a x => exact hA x h

theorem onlyAt_refl (a : Option Nat) (q : Nat) (w : World T) : OnlyAt a q w w :=
  ⟨rfl, fun _ _ _ => rfl⟩

theorem onlyAt_trans (a : Option Nat) (q : Nat) (w w1 w2 : World T)
    (h1 : OnlyAt a q w w1) (h2 : OnlyAt a q w1 w2) : OnlyAt a q w w2 :=
  ⟨h2.1.trans h1.1, fun r hr hq => (h2.2 r hr hq).trans (h1.2 r hr hq)⟩

theorem construct_touches (env : Env T) (p : Option Nat) (i : Nat) (x : T) (w : World T)
    (a : Option Nat) (q : Nat) (hp : p = a ∨ p = some q) :
    (construct env p i x w).sat (OnlyAt a q w) (OnlyAt a q w) := by
  unfold construct
  cases p with
  | none => trivial
  | some r =>
    simp only
    cases hreg : w.heap[r]? with
    | none => trivial
    | some reg =>
      simp only
      by_cases hl : reg.live = true
      · rw [if_pos hl]
        cases hc : reg.cells[i]? with
        | none => trivial
        | some c =>
          cases c with
          | some y => trivial
          | none =>
            simp only
            cases he : env.ctor_throws w.ctor_calls with
            | some e => exact ⟨rfl, fun _ _ _ => rfl⟩
            | none =>
              refine ⟨by simp, fun r1 h1 h2 => ?_⟩
              simp only
              apply List.getElem?_set_ne
              intro hc1
              subst hc1
              rcases hp with h | h
              · exact h1 h
              · exact h2 (Option.some.inj h)
      · rw [if_neg hl]; trivial

theorem destroy_touches (p : Option Nat) (i : Nat) (w w1 : World T)
    (a : Option Nat) (q : Nat) (hp : p = a ∨ p = some q) (h : destroy p i w = some w1) :
    OnlyAt a q w w1 := by
  unfold destroy at h
  cases p with
  | none => cases h
  | some r =>
    simp only at h
    cases hreg : w.heap[r]? with
    | none => rw [hreg] at h; cases h
    | some reg =>
      rw [hreg] at h
      simp only at h
      by_cases hl : reg.live = true
      · rw [if_pos hl] at h
        cases hc : reg.cells[i]? with
        | none => rw [hc] at h; cases h
        | some c =>
          rw [hc] at h
          cases c with
          | none => cases h
          | some y =>
            simp only [Option.some.injEq] at h
            subst h
            refine ⟨by simp, fun r1 h1 h2 => ?_⟩
            simp only
            apply List.getElem?_set_ne
            intro hc1
            subst hc1
            rcases hp with h | h
            · exact h1 h
            · exact h2 (Option.some.inj h)
      · rw [if_neg hl] at h; cases h

theorem deallocate_touches (p : Option Nat) (n : Nat) (w w1 : World T) (q : Nat)
    (h : deallocate p n w = some w1) : OnlyAt p q w w1 := by
  unfold deallocate at h
  cases p with
  | none =>
    simp only at h
    by_cases hn : n = 0
    · rw [if_pos hn] at h
      simp only [Option.some.injEq] at h
      subst h
      exact onlyAt_refl _ _ _
    · rw [if_neg hn] at h; cases h
  | some r =>
    simp only at h
    cases hreg : w.heap[r]? with
    | none => rw [hreg] at h; cases h
    | some reg =>
      rw [hreg] at h
      simp only at h
      by_cases hl : reg.live = true ∧ reg.cells.length = n
      · rw [if_pos hl] at h
        simp only [Option.some.injEq] at h
        subst h
        refine ⟨by simp, fun r1 h1 _ => ?_⟩
        simp only
        apply List.getElem?_set_ne
        intro hc1
        subst hc1
        exact h1 rfl
      · rw [if_neg hl] at h; cases h

theorem overwrite_touches (p : Option Nat) (i : Nat) (y : T) (w : World T)
    (a : Option Nat) (q : Nat) (hp : p = a ∨ p = some q) : OnlyAt a q w (overwrite p i y w) := by
  unfold overwrite
  cases p with
  | none => exact onlyAt_refl _ _ _
  | some r =>
    simp only
    cases hreg : w.heap[r]? with
    | none => exact onlyAt_refl _ _ _
    | some reg =>
      simp only
      by_cases hl : reg.live = true
      · rw [if_pos hl]
        cases hc : reg.cells[i]? with
        | none => exact onlyAt_refl _ _ _
        | some c =>
          cases c with
          | none => exact onlyAt_refl _ _ _
          | some z =>
            refine ⟨by simp, fun r1 h1 h2 => ?_⟩
            simp only
            apply List.getElem?_set_ne
            intro hc1
            subst hc1
            rcases hp with h | h
            · exact h1 h
            · exact h2 (Option.some.inj h)
      · rw [if_neg hl]; exact onlyAt_refl _ _ _

theorem left_touches (env : Env T) (k : Nat) (x : T) (arg : Arg T) (w : World T)
    (a : Option Nat) (q : Nat) (hsrc : ∀ r j, arg = .rvalue r j → r = a ∨ r = some q) :
    OnlyAt a q w (arg.left env k x w) := by
  cases arg with
  | temp y => exact onlyAt_refl _ _ _
  | lvalue r j => exact onlyAt_refl _ _ _
  | rvalue r j =>
    simp only [Arg.left]
    split_ifs
    · exact overwrite_touches r j _ w a q (hsrc r j rfl)
    · exact onlyAt_refl _ _ _

theorem construct_forward_touches (env : Env T) (p : Option Nat) (i : Nat) (arg : Arg T)
    (w : World T) (a : Option Nat) (q : Nat) (hp : p = a ∨ p = some q)
    (hsrc : ∀ r j, arg = .rvalue r j → r = a ∨ r = some q) :
    (construct_forward env p i arg w).sat (OnlyAt a q w) (OnlyAt a q w) := by
  unfold construct_forward
  cases arg.read w with
  | none => trivial
  | some x =>
    simp only
    have hc := construct_touches env p i x w a q hp
    cases hr : construct env p i x w with
    | ub => trivial
    | throw e w1 =>
      rw [hr] at hc
      exact onlyAt_trans _ _ _ _ _ hc (left_touches env _ x arg w1 a q hsrc)
    | ok u w1 =>
      rw [hr] at hc
      exact onlyAt_trans _ _ _ _ _ hc (left_touches env _ x arg w1 a q hsrc)

theorem copied_touches (arg : Arg T) (h : arg.copied) (a : Option Nat) (q : Nat) :
    ∀ r j, arg = .rvalue r j → r = a ∨ r = some q := by
  intro r j hr
  subst hr
  exact absurd h (by simp [Arg.copied])

theorem as_const_copied (arg : Arg T) : arg.as_const.copied := by
  cases arg <;> simp [Arg.as_const, Arg.copied]

theorem star_copied (it : vector_iterator) (arg : Arg T)
    (h : it.operator_star = some arg) : arg.copied := by
  unfold vector_iterator.operator_star at h
  split_ifs at h
  simp only [Option.some.injEq] at h
  subst h
  simp [Arg.copied]

theorem relocate_touches (env : Env T) (v : vector) (q : Nat) :
    ∀ (fuel i : Nat) (w : World T),
      (relocate env v q fuel i w).sat (fun r => OnlyAt v.data_ q w r.1)
        (fun r => OnlyAt v.data_ q w r.1) := by
  intro fuel
  induction fuel with
  | zero => intro i w; exact onlyAt_refl _ _ _
  | succ fuel ih =>
    intro i w
    simp only [relocate]
    by_cases hi : i < v.size_
    · rw [if_pos hi]
      have hc : (if env.is_move_constructible = true then
            construct_forward env (some q) i (.rvalue v.data_ i) w
          else construct_forward env (some q) i (.lvalue v.data_ i) w).sat
          (OnlyAt v.data_ q w) (OnlyAt v.data_ q w) := by
        split_ifs
        · exact construct_forward_touches env (some q) i _ w v.data_ q (Or.inr rfl)
            (by intro r j h; cases h; exact Or.inl rfl)
        · exact construct_forward_touches env (some q) i _ w v.data_ q (Or.inr rfl)
            (by intro r j h; cases h)
      cases hr : (if env.is_move_constructible = true then
            construct_forward env (some q) i (.rvalue v.data_ i) w
          else construct_forward env (some q) i (.lvalue v.data_ i) w) with
      | ub => trivial
      | throw e w1 => rw [hr] at hc; exact hc
      | ok u w1 =>
        rw [hr] at hc
        simp only
        cases hd : destroy v.data_ i w1 with
        | none => trivial
        | some w2 =>
          have hdt := destroy_touches v.data_ i w1 w2 v.data_ q (Or.inl rfl) hd
          have h02 := onlyAt_trans _ _ _ _ _ hc hdt
          exact sat_mono _ _ _ _ _ (ih (i + 1) w2)
            (fun r hr1 => onlyAt_trans _ _ _ _ _ h02 hr1)
            (fun r hr1 => onlyAt_trans _ _ _ _ _ h02 hr1)
    · rw [if_neg hi]; exact onlyAt_refl _ _ _

theorem rollback_touches (env : Env T) (v : vector) (q i : Nat) :
    ∀ (fuel j : Nat) (w : World T),
      (rollback env v q i fuel j w).sat (OnlyAt v.data_ q w) (OnlyAt v.data_ q w) := by
  intro fuel
  induction fuel with
  | zero => intro j w; exact onlyAt_refl _ _ _
  | succ fuel ih =>
    intro j w
    simp only [rollback]
    by_cases hj : j < i
    · rw [if_pos hj]
      cases read (some q) j w with
      | none => trivial
      | some x =>
        simp only
        have hc := construct_touches env v.data_ j x w v.data_ q (Or.inl rfl)
        cases hr : construct env v.data_ j x w with
        | ub => trivial
        | throw e w1 => rw [hr] at hc; exact hc
        | ok u w1 =>
          rw [hr] at hc
          simp only
          cases hd : destroy (some q) j w1 with
          | none => trivial
          | some w2 =>
            have hdt := destroy_touches (some q) j w1 w2 v.data_ q (Or.inr rfl) hd
            have h02 := onlyAt_trans _ _ _ _ _ hc hdt
            exact sat_mono _ _ _ _ _ (ih (j + 1) w2)
              (fun r hr1 => onlyAt_trans _ _ _ _ _ h02 hr1)
              (fun r hr1 => onlyAt_trans _ _ _ _ _ h02 hr1)
    · rw [if_neg hj]; exact onlyAt_refl _ _ _

/-- After `allocate` has appended the region `q`, a heap that differs from it only
at the storage of the vector and at `q` is in the frame of the call. -/
theorem frame_of_onlyAt (s : St T) (n : Nat) (w1 : World T) (v1 : vector)
    (h : OnlyAt s.self.data_ s.world.heap.length
      ⟨s.world.heap ++ [⟨List.replicate n none, true⟩], s.world.ctor_calls,
        s.world.alloc_calls + 1⟩ w1)
    (hv : v1.data_ = s.self.data_ ∨ v1.data_ = some s.world.heap.length) :
    Frame s ⟨w1, v1⟩ := by
  refine ⟨by have := h.1; simp at this; simp only; omega, ?_, ?_⟩
  · intro r hr hrl
    simp only
    rw [h.2 r hr (by omega)]
    simp only
    exact List.getElem?_append_left hrl
  · rcases hv with hv | hv
    · exact Or.inl hv
    · exact Or.inr ⟨_, hv, Nat.le_refl _⟩

theorem reserve_impl_touches (env : Env T) (n : Nat) (s : St T) :
    (reserve_impl env n s).sat (Frame s) (Frame s) := by
  unfold reserve_impl allocate
  cases env.alloc_throws s.world.alloc_calls n with
  | some e => exact ⟨Nat.le_refl _, fun _ _ _ => rfl, Or.inl rfl⟩
  | none =>
    simp only
    have hrel := relocate_touches env s.self s.world.heap.length s.self.size_ 0
      (⟨s.world.heap ++ [⟨List.replicate n none, true⟩], s.world.ctor_calls,
        s.world.alloc_calls + 1⟩ : World T)
    cases hr : relocate env s.self s.world.heap.length s.self.size_ 0
        (⟨s.world.heap ++ [⟨List.replicate n none, true⟩], s.world.ctor_calls,
          s.world.alloc_calls + 1⟩ : World T) with
    | ub => trivial
    | throw e p =>
      rw [hr] at hrel
      obtain ⟨w1, i⟩ := p
      have h1 : OnlyAt s.self.data_ s.world.heap.length _ w1 := hrel
      simp only
      by_cases hstd : e.is_std = true
      · rw [if_pos hstd]
        have hrb := rollback_touches env s.self s.world.heap.length i i 0 w1
        cases hr2 : rollback env s.self s.world.heap.length i i 0 w1 with
        | ub => trivial
        | throw e2 w2 =>
          rw [hr2] at hrb
          exact frame_of_onlyAt s n w2 s.self (onlyAt_trans _ _ _ _ _ h1 hrb) (Or.inl rfl)
        | ok u w2 =>
          rw [hr2] at hrb
          exact frame_of_onlyAt s n w2 s.self (onlyAt_trans _ _ _ _ _ h1 hrb) (Or.inl rfl)
      · rw [if_neg hstd]
        exact frame_of_onlyAt s n w1 s.self h1 (Or.inl rfl)
    | ok u p =>
      rw [hr] at hrel
      obtain ⟨w1, i⟩ := p
      have h1 : OnlyAt s.self.data_ s.world.heap.length _ w1 := hrel
      simp only
      cases hd : deallocate s.self.data_ s.self.capacity_ w1 with
      | none => trivial
      | some w2 =>
        have hdt := deallocate_touches s.self.data_ s.self.capacity_ w1 w2
          s.world.heap.length hd
        exact frame_of_onlyAt s n w2 _ (onlyAt_trans _ _ _ _ _ h1 hdt) (Or.inr rfl)

theorem frame_of_self (s : St T) (w1 : World T) (v1 : vector)
    (h : OnlyAt s.self.data_ s.world.heap.length s.world w1)
    (hv : v1.data_ = s.self.data_) : Frame s ⟨w1, v1⟩ :=
  ⟨by have := h.1; simp only; omega, fun r hr hrl => h.2 r hr (by omega), Or.inl hv⟩

theorem reserve_touches (env : Env T) (n : Nat) (s : St T) :
    (reserve env n s).sat (Frame s) (Frame s) := by
  unfold reserve
  by_cases hn : n ≤ s.self.capacity_
  · rw [if_pos hn]; exact frame_refl s
  · rw [if_neg hn]; exact reserve_impl_touches env n s

theorem emplace_back_touches (env : Env T) (x : Arg T) (hx : x.copied) (s : St T) :
    (emplace_back env x s).sat (Frame s) (Frame s) := by
  have hgrow : (if s.self.capacity_ = s.self.size_ then
        reserve env (2 * s.self.capacity_ + 1) s else Outcome.ok () s).sat
      (Frame s) (Frame s) := by
    by_cases hfull : s.self.capacity_ = s.self.size_
    · rw [if_pos hfull]; exact reserve_touches env _ s
    · rw [if_neg hfull]; exact frame_refl s
  unfold emplace_back
  cases hr : (if s.self.capacity_ = s.self.size_ then
      reserve env (2 * s.self.capacity_ + 1) s else Outcome.ok () s) with
  | ub => trivial
  | throw e s1 => rw [hr] at hgrow; exact hgrow
  | ok u s1 =>
    rw [hr] at hgrow
    have h1 : Frame s s1 := hgrow
    simp only
    have hc := construct_forward_touches env s1.self.data_ s1.self.size_ x s1.world
      s1.self.data_ s1.world.heap.length (Or.inl rfl) (copied_touches x hx _ _)
    cases hr2 : construct_forward env s1.self.data_ s1.self.size_ x s1.world with
    | ub => trivial
    | throw e w =>
      rw [hr2] at hc
      exact frame_trans _ _ _ h1 (frame_of_self s1 w _ hc rfl)
    | ok u2 w =>
      rw [hr2] at hc
      exact frame_trans _ _ _ h1 (frame_of_self s1 w _ hc rfl)

theorem push_back_touches (env : Env T) (x : T) (s : St T) :
    (push_back env (.temp x) s).sat (Frame s) (Frame s) := by
  have h := emplace_back_touches env (.temp x) trivial s
  rw [push_back_eq]
  cases hr : emplace_back env (.temp x) s with
  | ub => trivial
  | throw e s1 => rw [hr] at h; exact h
  | ok u s1 => rw [hr] at h; exact h

theorem pop_back_touches (s : St T) : (pop_back s).sat (Frame s) (Frame s) := by
  unfold pop_back
  by_cases h0 : s.self.size_ = 0
  · rw [if_pos h0]; trivial
  · rw [if_neg h0]
    cases hd : destroy s.self.data_ (s.self.size_ - 1) s.world with
    | none => trivial
    | some w =>
      exact frame_of_self s w _
        (destroy_touches _ _ _ _ s.self.data_ s.world.heap.length (Or.inl rfl) hd) rfl

theorem pop_while_touches (m : Nat) :
    ∀ (fuel : Nat) (s : St T), (pop_while m fuel s).sat (Frame s) (Frame s) := by
  intro fuel
  induction fuel with
  | zero => intro s; exact frame_refl s
  | succ fuel ih =>
    intro s
    simp only [pop_while]
    by_cases hgt : s.self.size_ > m
    · rw [if_pos hgt]
      have h := pop_back_touches s
      cases hr : pop_back s with
      | ub => trivial
      | throw e s1 => rw [hr] at h; exact h
      | ok u s1 =>
        rw [hr] at h
        exact sat_mono _ _ _ _ _ (ih s1) (fun x hx => frame_trans _ _ _ h hx)
          (fun x hx => frame_trans _ _ _ h hx)
    · rw [if_neg hgt]; exact frame_refl s

theorem emplace_while_touches (env : Env T) (m : Nat) (x : Arg T) (hx : x.copied) :
    ∀ (fuel : Nat) (s : St T), (emplace_while env m x fuel s).sat (Frame s) (Frame s) := by
  intro fuel
  induction fuel with
  | zero => intro s; exact frame_refl s
  | succ fuel ih =>
    intro s
    simp only [emplace_while]
    by_cases hlt : s.self.size_ < m
    · rw [if_pos hlt]
      have h := emplace_back_touches env x hx s
      cases hr : emplace_back env x s with
      | ub => trivial
      | throw e s1 => rw [hr] at h; exact h
      | ok u s1 =>
        rw [hr] at h
        exact sat_mono _ _ _ _ _ (ih s1) (fun y hy => frame_trans _ _ _ h hy)
          (fun y hy => frame_trans _ _ _ h hy)
    · rw [if_neg hlt]; exact frame_refl s

theorem emplace_times_touches (env : Env T) (x : Arg T) (hx : x.copied) :
    ∀ (count : Nat) (s : St T), (emplace_times env x count s).sat (Frame s) (Frame s) := by
  intro count
  induction count with
  | zero => intro s; exact frame_refl s
  | succ count ih =>
    intro s
    simp only [emplace_times]
    have h := emplace_back_touches env x hx s
    cases hr : emplace_back env x s with
    | ub => trivial
    | throw e s1 => rw [hr] at h; exact h
    | ok u s1 =>
      rw [hr] at h
      exact sat_mono _ _ _ _ _ (ih s1) (fun y hy => frame_trans _ _ _ h hy)
        (fun y hy => frame_trans _ _ _ h hy)

theorem append_range_touches (env : Env T) (reverse : Bool) (last : vector_iterator) :
    ∀ (fuel : Nat) (first : vector_iterator) (s : St T),
      (append_range env reverse last fuel first s).sat (Frame s) (Frame s) := by
  intro fuel
  induction fuel with
  | zero =>
    intro first s
    simp only [append_range]
    by_cases he : first.operator_eq last = true
    · rw [if_pos he]; exact frame_refl s
    · rw [if_neg he]; trivial
  | succ fuel ih =>
    intro first s
    simp only [append_range]
    by_cases he : first.operator_eq last = true
    · rw [if_pos he]; exact frame_refl s
    · rw [if_neg he]
      cases hst : (first.operator_star : Option (Arg T)) with
      | none => trivial
      | some x =>
        simp only
        have h := emplace_back_touches env x (star_copied first x hst) s
        cases hr : emplace_back env x s with
        | ub => trivial
        | throw e s1 => rw [hr] at h; exact h
        | ok u s1 =>
          rw [hr] at h
          exact sat_mono _ _ _ _ _ (ih _ s1) (fun y hy => frame_trans _ _ _ h hy)
            (fun y hy => frame_trans _ _ _ h hy)

theorem clear_touches (s : St T) : (clear s).sat (Frame s) (Frame s) :=
  pop_while_touches 0 s.self.size_ s

theorem resize_value_touches (env : Env T) (n : Nat) (value : Arg T) (s : St T) :
    (resize_value env n value s).sat (Frame s) (Frame s) := by
  unfold resize_value
  have h := pop_while_touches n (s.self.size_ - n) s
  cases hr : pop_while n (s.self.size_ - n) s with
  | ub => trivial
  | throw e s1 => rw [hr] at h; exact h
  | ok u s1 =>
    rw [hr] at h
    simp only
    by_cases hlt : s1.self.size_ < n
    · rw [if_pos hlt]
      have h2 := reserve_touches env n s1
      cases hr2 : reserve env n s1 with
      | ub => trivial
      | throw e s2 => rw [hr2] at h2; exact frame_trans _ _ _ h h2
      | ok u2 s2 =>
        rw [hr2] at h2
        have h02 := frame_trans _ _ _ h h2
        exact sat_mono _ _ _ _ _ (emplace_while_touches env n value.as_const (as_const_copied value) _ s2)
          (fun y hy => frame_trans _ _ _ h02 hy) (fun y hy => frame_trans _ _ _ h02 hy)
    · rw [if_neg hlt]; exact h

theorem assign_count_touches (env : Env T) (count : Nat) (value : Arg T) (s : St T) :
    (assign_count env count value s).sat (Frame s) (Frame s) := by
  unfold assign_count
  have h := clear_touches s
  cases hr : clear s with
  | ub => trivial
  | throw e s1 => rw [hr] at h; exact h
  | ok u s1 =>
    rw [hr] at h
    simp only
    have h2 := reserve_touches env count s1
    cases hr2 : reserve env count s1 with
    | ub => trivial
    | throw e s2 => rw [hr2] at h2; exact frame_trans _ _ _ h h2
    | ok u2 s2 =>
      rw [hr2] at h2
      have h02 := frame_trans _ _ _ h h2
      exact sat_mono _ _ _ _ _ (emplace_times_touches env value.as_const (as_const_copied value) count s2)
        (fun y hy => frame_trans _ _ _ h02 hy) (fun y hy => frame_trans _ _ _ h02 hy)

theorem reserve_and_append_touches (env : Env T) (reverse : Bool)
    (first last : vector_iterator) (s : St T) :
    (reserve_and_append env reverse first last s).sat (Frame s) (Frame s) := by
  unfold reserve_and_append
  cases distance reverse first last with
  | none => trivial
  | some d =>
    simp only
    have h2 := reserve_touches env (size_t_of_ptrdiff d) s
    cases hr2 : reserve env (size_t_of_ptrdiff d) s with
    | ub => trivial
    | throw e s2 => rw [hr2] at h2; exact h2
    | ok u2 s2 =>
      rw [hr2] at h2
      exact sat_mono _ _ _ _ _ (append_range_touches env reverse last _ first s2)
        (fun y hy => frame_trans _ _ _ h2 hy) (fun y hy => frame_trans _ _ _ h2 hy)

theorem assign_range_touches (env : Env T) (reverse : Bool) (first last : vector_iterator)
    (s : St T) : (assign_range env reverse first last s).sat (Frame s) (Frame s) := by
  unfold assign_range
  have h := clear_touches s
  cases hr : clear s with
  | ub => trivial
  | throw e s1 => rw [hr] at h; exact h
  | ok u s1 =>
    rw [hr] at h
    exact sat_mono _ _ _ _ _ (reserve_and_append_touches env reverse first last s1)
      (fun y hy => frame_trans _ _ _ h hy) (fun y hy => frame_trans _ _ _ h hy)

theorem shrink_to_fit_touches (env : Env T) (s : St T) :
    (shrink_to_fit env s).sat (Frame s) (Frame s) := by
  unfold shrink_to_fit
  by_cases hlt : s.self.size_ < s.self.capacity_
  · rw [if_pos hlt]; exact reserve_impl_touches env _ s
  · rw [if_neg hlt]; exact frame_refl s

/-- Whatever the heap holds and whatever throws, a mutation that ends in a state
has touched no region that existed but the storage of the vector. -/
theorem mutation_touches [Inhabited T] (env : Env T) (m : Mutation T) (s : St T) :
    (m.run env s).sat (Frame s) (Frame s) := by
  cases m with
  | reserve n => exact reserve_touches env n s
  | push_back x => exact push_back_touches env x s
  | emplace_back x =>
    have h := emplace_back_touches env (.temp x) trivial s
    simp only [Mutation.run]
    cases hr : emplace_back env (.temp x) s with
    | ub => trivial
    | throw e s1 => rw [hr] at h; exact h
    | ok u s1 => rw [hr] at h; exact h
  | pop_back => exact pop_back_touches s
  | clear => exact clear_touches s
  | resize n => exact resize_value_touches env n (.temp default) s
  | resize_value n value => exact resize_value_touches env n (.temp value) s
  | assign_count count value => exact assign_count_touches env count (.temp value) s
  | assign_range reverse first last => exact assign_range_touches env reverse first last s
  | shrink_to_fit => exact shrink_to_fit_touches env s

/-- On every exit of a mutation of the vector at `copy`, a valid vector at another
address with separate storage is as it was. -/
theorem mutation_spares [Inhabited T] (env : Env T) (m : Mutation T) (st : Store T)
    (copy other : Nat) (ys : List T) (hne : copy ≠ other)
    (hy : Represents ⟨st.world, st.objs other⟩ ys)
    (hsep : ∀ p, (st.objs copy).data_ = some p → (st.objs other).data_ ≠ some p) :
    (Store.call copy (m.run env) st).sat
      (fun st1 => st1.objs other = st.objs other ∧
        Represents ⟨st1.world, st1.objs other⟩ ys ∧
        ∀ p, (st1.objs copy).data_ = some p → (st1.objs other).data_ ≠ some p)
      (fun st1 => st1.objs other = st.objs other ∧
        Represents ⟨st1.world, st1.objs other⟩ ys ∧
        ∀ p, (st1.objs copy).data_ = some p → (st1.objs other).data_ ≠ some p) := by
  have h := mutation_touches env m ⟨st.world, st.objs copy⟩
  have key : ∀ s1 : St T, Frame ⟨st.world, st.objs copy⟩ s1 →
      Function.update st.objs copy s1.self other = st.objs other ∧
      Represents ⟨s1.world, Function.update st.objs copy s1.self other⟩ ys ∧
      ∀ p, (Function.update st.objs copy s1.self copy).data_ = some p →
        (Function.update st.objs copy s1.self other).data_ ≠ some p := by
    intro s1 hfr
    have hother : Function.update st.objs copy s1.self other = st.objs other :=
      Function.update_noteq (Ne.symm hne) _ _
    obtain ⟨hy1, hsep1⟩ :=
      independent_frame ⟨st.world, st.objs copy⟩ s1 (st.objs other) ys hfr hy hsep
    rw [hother, Function.update_same]
    exact ⟨rfl, hy1, hsep1⟩
  unfold Store.call
  cases hr : m.run env ⟨st.world, st.objs copy⟩ with
  | ub => trivial
  | throw e s1 => rw [hr] at h; exact key s1 h
  | ok u s1 => rw [hr] at h; exact key s1 h

/-! ## The claim on copies -/

/-- C11: let `y` (at `other`) be a valid vector holding `ys`, and let nothing throw.
The copy assignment `x = y` to a valid vector `x` (at `this`, a different object with
separate storage, whatever it holds) and the copy construction of a new vector (at
`fresh`) from `y` both return; the copy holds exactly `ys` and compares `==` to `y`;
`y` keeps its size, capacity and storage, hence its elements; after the assignment
the capacity of `x` is at least that of `y`; the self-assignment `y = y` changes
nothing.  And whenever a vector has storage separate from `y`, any call of `reserve`,
`push_back`, `emplace_back`, `pop_back`, `clear`, `resize`, `assign` or
`shrink_to_fit` on it, within its precondition, returns and leaves `y` and its
element sequence unchanged and the two vectors valid and separate, so the same holds
for any further call; and whatever throws and whatever state that vector is in, if
such a call ends in a state, by returning or by an exception, `y` is unchanged and
valid there, its storage still separate. -/
theorem copy_spec [DecidableEq T] [Inhabited T] (env : Env T) (st : Store T)
    (this other fresh : Nat) (xs ys : List T) (hne : this ≠ other) (hfresh : fresh ≠ other)
    (hx : Represents ⟨st.world, st.objs this⟩ xs)
    (hy : Represents ⟨st.world, st.objs other⟩ ys)
    (hsep : ∀ p, (st.objs this).data_ = some p → (st.objs other).data_ ≠ some p)
    (hcalm : Calm env st.world) :
    (∃ st1, copy_assign env this other st = .ok () st1 ∧
      Represents ⟨st1.world, st1.objs this⟩ ys ∧
      operator_eq st1.world (st1.objs this) (st1.objs other) = some true ∧
      st1.objs other = st.objs other ∧
      elements ⟨st1.world, st1.objs other⟩ = elements ⟨st.world, st.objs other⟩ ∧
      (st.objs other).capacity_ ≤ (st1.objs this).capacity_ ∧
      Independent st1 this other ys ∧ Calm env st1.world) ∧
    (∃ st1, copy_construct env fresh other st = .ok () st1 ∧
      Represents ⟨st1.world, st1.objs fresh⟩ ys ∧
      operator_eq st1.world (st1.objs fresh) (st1.objs other) = some true ∧
      st1.objs other = st.objs other ∧
      elements ⟨st1.world, st1.objs other⟩ = elements ⟨st.world, st.objs other⟩ ∧
      Independent st1 fresh other ys ∧ Calm env st1.world) ∧
    copy_assign env other other st = .ok () st ∧
    (∀ (copy : Nat) (st1 : Store T) (m : Mutation T), copy ≠ other →
      Independent st1 copy other ys → Calm env st1.world →
      m.pre ⟨st1.world, st1.objs copy⟩ →
      ∃ st2, Store.call copy (m.run env) st1 = .ok () st2 ∧
        st2.objs other = st1.objs other ∧
        elements ⟨st2.world, st2.objs other⟩ = elements ⟨st1.world, st1.objs other⟩ ∧
        Independent st2 copy other ys ∧ Calm env st2.world) ∧
    (∀ (env1 : Env T) (copy : Nat) (st1 : Store T) (m : Mutation T), copy ≠ other →
      Represents ⟨st1.world, st1.objs other⟩ ys →
      (∀ p, (st1.objs copy).data_ = some p → (st1.objs other).data_ ≠ some p) →
      (Store.call copy (m.run env1) st1).sat
        (fun st2 => st2.objs other = st1.objs other ∧
          Represents ⟨st2.world, st2.objs other⟩ ys ∧
          ∀ p, (st2.objs copy).data_ = some p → (st2.objs other).data_ ≠ some p)
        (fun st2 => st2.objs other = st1.objs other ∧
          Represents ⟨st2.world, st2.objs other⟩ ys ∧
          ∀ p, (st2.objs copy).data_ = some p → (st2.objs other).data_ ≠ some p)) := by
  refine ⟨?_, ?_, ?_, ?_, fun env1 copy st1 m hc hy1 hsep1 =>
    mutation_spares env1 m st1 copy other ys hc hy1 hsep1⟩
  · obtain ⟨st1, hrun, hother, hrep, hind, hcap, hcalm1⟩ :=
      copy_assign_ok env st this other xs ys hne hx hy hsep hcalm
    refine ⟨st1, hrun, hrep, operator_eq_same _ _ _ ys hrep hind.2.1, hother, ?_, ?_, hind,
      hcalm1⟩
    · rw [represents_elements _ ys hind.2.1, represents_elements _ ys hy]
    · rw [hcap]; omega
  · obtain ⟨st1, hrun, hother, hrep, hind, _, hcalm1⟩ :=
      copy_construct_ok env st fresh other ys hfresh hy hcalm
    refine ⟨st1, hrun, hrep, operator_eq_same _ _ _ ys hrep hind.2.1, hother, ?_, hind,
      hcalm1⟩
    rw [represents_elements _ ys hind.2.1, represents_elements _ ys hy]
  · simp [copy_assign]
  · intro copy st1 m hc hind hcalm1 hpre
    obtain ⟨st2, hrun, hother, hind2, hcalm2⟩ :=
      mutation_independent env m st1 copy other ys hc hind hcalm1 hpre
    refine ⟨st2, hrun, hother, ?_, hind2, hcalm2⟩
    rw [represents_elements _ ys hind2.2.1, represents_elements _ ys hind.2.1]

/-- C11 at `store_pair`: `x = {1}` at address 0, `y = {2, 3}` at address 1, a new
vector at address 2; and, evaluated, `x = y` followed by `x.push_back(9)`. -/
theorem copy_spec_witness :
    ((∃ st1, copy_assign Env.quiet 0 1 store_pair = .ok () st1 ∧
      Represents ⟨st1.world, st1.objs 0⟩ [2, 3] ∧
      operator_eq st1.world (st1.objs 0) (st1.objs 1) = some true ∧
      st1.objs 1 = store_pair.objs 1 ∧
      elements ⟨st1.world, st1.objs 1⟩ = elements ⟨store_pair.world, store_pair.objs 1⟩ ∧
      (store_pair.objs 1).capacity_ ≤ (st1.objs 0).capacity_ ∧
      Independent st1 0 1 [2, 3] ∧ Calm Env.quiet st1.world) ∧
    (∃ st1, copy_construct Env.quiet 2 1 store_pair = .ok () st1 ∧
      Represents ⟨st1.world, st1.objs 2⟩ [2, 3] ∧
      operator_eq st1.world (st1.objs 2) (st1.objs 1) = some true ∧
      st1.objs 1 = store_pair.objs 1 ∧
      elements ⟨st1.world, st1.objs 1⟩ = elements ⟨store_pair.world, store_pair.objs 1⟩ ∧
      Independent st1 2 1 [2, 3] ∧ Calm Env.quiet st1.world) ∧
    copy_assign Env.quiet 1 1 store_pair = .ok () store_pair ∧
    (∀ (copy : Nat) (st1 : Store Nat) (m : Mutation Nat), copy ≠ 1 →
      Independent st1 copy 1 [2, 3] → Calm Env.quiet st1.world →
      m.pre ⟨st1.world, st1.objs copy⟩ →
      ∃ st2, Store.call copy (m.run Env.quiet) st1 = .ok () st2 ∧
        st2.objs 1 = st1.objs 1 ∧
        elements ⟨st2.world, st2.objs 1⟩ = elements ⟨st1.world, st1.objs 1⟩ ∧
        Independent st2 copy 1 [2, 3] ∧ Calm Env.quiet st2.world) ∧
    (∀ (env1 : Env Nat) (copy : Nat) (st1 : Store Nat) (m : Mutation Nat), copy ≠ 1 →
      Represents ⟨st1.world, st1.objs 1⟩ [2, 3] →
      (∀ p, (st1.objs copy).data_ = some p → (st1.objs 1).data_ ≠ some p) →
      (Store.call copy (m.run env1) st1).sat
        (fun st2 => st2.objs 1 = st1.objs 1 ∧
          Represents ⟨st2.world, st2.objs 1⟩ [2, 3] ∧
          ∀ p, (st2.objs copy).data_ = some p → (st2.objs 1).data_ ≠ some p)
        (fun st2 => st2.objs 1 = st1.objs 1 ∧
          Represents ⟨st2.world, st2.objs 1⟩ [2, 3] ∧
          ∀ p, (st2.objs copy).data_ = some p → (st2.objs 1).data_ ≠ some p))) ∧
    (∃ st1 st2, copy_assign Env.quiet 0 1 store_pair = .ok () st1 ∧
      Store.call 0 ((Mutation.push_back 9).run Env.quiet) st1 = .ok () st2 ∧
      elements ⟨st2.world, st2.objs 0⟩ = [some 2, some 3, some 9] ∧
      elements ⟨st2.world, st2.objs 1⟩ = [some 2, some 3]) :=
  ⟨copy_spec Env.quiet store_pair 0 1 2 [1] [2, 3] (by decide) (by decide) store_pair_first
    store_pair_second (by intro p hp; cases hp; decide) (calm_quiet _),
    ⟨_, _, rfl, rfl, by decide, by decide⟩⟩

end Vec
